import Mathlib

/-!
# LR1: table-driven recognizer of `LR1_algorithm.h`

A shallow embedding of `src/LR1_algorithm.h`.

Modelling conventions
* `char` is `Char`, `std::string` is `List Char` (abbreviated `Str`); characters are
  compared by code point, which is the C++ order on the ASCII range the rules use.
* `std::set<T>` is a strictly increasing list, `std::set::insert` is `setInsert`
  (returning also the `.second` flag), iteration follows the list order.
* `std::map<char, V>` is an association list; `operator[]` used as a read is
  `CMap.get` (a missing key reads as the value-initialised `V`), used as a write it is
  `CMap.set`.
* `int` state numbers are `Int` (the code stores `-1`); `dot_pos` and vector indices that
  only count upwards from `0` are `Nat`.
* Every loop whose trip count is not bounded by a container that stays fixed runs on
  fuel; `Outcome.diverge` is "out of fuel", `Outcome.undefined` is undefined behaviour of the
  C++ program (indexing a vector out of range, `top`/`pop` on an empty stack, using the
  value of a function that fell off its end).
-/

namespace LR1

abbrev Str := List Char

/-- Result of running a piece of the program on fuel. -/
inductive Outcome (α : Type) where
  | done : α → Outcome α
  | diverge : Outcome α
  | undefined : Outcome α
  deriving DecidableEq, Repr

/-- The enum `Action`. -/
inductive Action where
  | SHIFT
  | REDUCE
  | ACCEPT
  | ERROR
  deriving DecidableEq, Repr

/-- The struct `TableAction`. -/
structure TableAction where
  action : Action
  index : Int
  start_symbol : Char
  deriving DecidableEq, Repr

/-- The struct `Situation`: a dotted production. -/
structure Situation where
  non_terminal : Char
  rule : Str
  dot_pos : Nat
  deriving DecidableEq, Repr

/-- The constant `fake_start`. -/
def fake_start : Char := '#'

/-- The constant `EndPtr`. -/
def EndPtr : Char := '$'

/-- Value-initialised `char`. -/
def nul : Char := Char.ofNat 0

def IsNonTerminal (symbol : Char) : Bool :=
  decide ('A'.toNat ≤ symbol.toNat) && decide (symbol.toNat ≤ 'Z'.toNat)

def IsTerminal (symbol : Char) : Bool :=
  decide ('a'.toNat ≤ symbol.toNat) && decide (symbol.toNat ≤ 'z'.toNat)

/-- The order `<` of `char`. -/
def charLt (a b : Char) : Bool := decide (a.toNat < b.toNat)

/-- The order `<` of `std::string`: lexicographic, a proper prefix is smaller. -/
def strLt : Str → Str → Bool
  | [], [] => false
  | [], _ :: _ => true
  | _ :: _, [] => false
  | a :: as, b :: bs =>
    if charLt a b then true else if charLt b a then false else strLt as bs

/-- The function `operator<` on `Situation`. -/
def Situation.lt (first second : Situation) : Bool :=
  if first.non_terminal = second.non_terminal then
    strLt first.rule second.rule ||
      (decide (first.rule = second.rule) && decide (first.dot_pos < second.dot_pos))
  else charLt first.non_terminal second.non_terminal

/-- The method `std::set<char>::insert`. -/
def charInsert (x : Char) : List Char → List Char
  | [] => [x]
  | y :: ys =>
    if charLt x y then x :: y :: ys
    else if charLt y x then y :: charInsert x ys
    else y :: ys

/-- The method `std::set<Situation>::insert`; the flag is `.second` of the returned pair. -/
def setInsert (x : Situation) : List Situation → List Situation × Bool
  | [] => ([x], true)
  | y :: ys =>
    if x.lt y then (x :: y :: ys, true)
    else if y.lt x then ((y :: (setInsert x ys).1), (setInsert x ys).2)
    else (y :: ys, false)

/-- A `std::map<char, V>`. -/
abbrev CMap (V : Type) := List (Char × V)

/-- Reading `m[k]`: a missing key reads as the value-initialised `dflt`. -/
def CMap.get {V : Type} (m : CMap V) (k : Char) (dflt : V) : V :=
  match m with
  | [] => dflt
  | (k', v) :: rest => if k' = k then v else CMap.get rest k dflt

/-- Writing `m[k] = v`. -/
def CMap.set {V : Type} (m : CMap V) (k : Char) (v : V) : CMap V :=
  match m with
  | [] => [(k, v)]
  | (k', v') :: rest =>
    if k' = k then (k, v) :: rest
    else if charLt k k' then (k, v) :: (k', v') :: rest
    else (k', v') :: CMap.set rest k v

/-- The class `Grammar`. -/
structure Grammar where
  grammar_ : CMap (List Str)
  alphabet_terminal_ : List Char
  alphabet_non_terminal_ : List Char
  deriving DecidableEq, Repr

/-- Body of the inner loop of `Grammar::Grammar` at one index `i`: `c` is `rule[i]`,
`rest` is `rule.substr(i + 1, rule.size())`, `first` is `rule[0]`. -/
def grammarChar (first c : Char) (rest : Str) (g : Grammar) : Grammar :=
  let g1 : Grammar :=
    if c = '>' then
      { g with grammar_ := g.grammar_.set first (g.grammar_.get first [] ++ [rest]) }
    else g
  let g2 : Grammar :=
    if IsNonTerminal c then
      { g1 with alphabet_non_terminal_ := charInsert c g1.alphabet_non_terminal_ }
    else g1
  if IsTerminal c then
    { g2 with alphabet_terminal_ := charInsert c g2.alphabet_terminal_ }
  else g2

/-- The inner loop of `Grammar::Grammar` from index `i` on, given the suffix `rule[i..]`. -/
def grammarRule (first : Char) : Str → Grammar → Grammar
  | [], g => g
  | c :: rest, g => grammarRule first rest (grammarChar first c rest g)

/-- The constructor `Grammar::Grammar(rules)`. -/
def Grammar.ofRules (rules : List Str) : Grammar :=
  rules.foldl (fun g rule => grammarRule (rule.headD nul) rule g) ⟨[], [], []⟩

/-- Body of `for (auto& rule : grammar_[symbol_for_reveal])` in `Closure`. -/
def revealRules (symbol_for_reveal : Char) :
    List Str → List Situation → Bool → List Situation × Bool
  | [], state, non_in_state => (state, non_in_state)
  | rule :: rest, state, non_in_state =>
    let r := setInsert ⟨symbol_for_reveal, rule, 0⟩ state
    revealRules symbol_for_reveal rest r.1 (if !r.2 then true else non_in_state)

/-- Body of `for (auto& situation : state)` in `Closure` for one `situation`. -/
def closureVisit (grammar_ : CMap (List Str)) (situation : Situation)
    (state : List Situation) (non_in_state : Bool) : List Situation × Bool :=
  if situation.dot_pos < situation.rule.length then
    let symbol_for_reveal := situation.rule.getD situation.dot_pos nul
    if IsNonTerminal symbol_for_reveal then
      revealRules symbol_for_reveal (grammar_.get symbol_for_reveal []) state non_in_state
    else (state, non_in_state)
  else (state, non_in_state)

/-- Incrementing a `std::set` iterator that points at `cur`: the least element of the
(possibly grown) set that is greater than `cur`, or `end()`. -/
def nextAfter (cur : Situation) (state : List Situation) : Option Situation :=
  state.find? (fun y => cur.lt y)

/-- The loop `for (auto& situation : state)` of `Closure`, from iterator `it` on. The set
grows while it is walked; elements inserted after the iterator are visited, elements
inserted before it are not. -/
def closureFor (grammar_ : CMap (List Str)) :
    Nat → Option Situation → List Situation → Bool → Outcome (List Situation × Bool)
  | _, none, state, non_in_state => .done (state, non_in_state)
  | 0, some _, _, _ => .diverge
  | fuel + 1, some situation, state, non_in_state =>
    let r := closureVisit grammar_ situation state non_in_state
    closureFor grammar_ fuel (nextAfter situation r.1) r.1 r.2

/-- The `do ... while (non_in_state)` loop of `Closure`. -/
def closureLoop (grammar_ : CMap (List Str)) :
    Nat → List Situation → Outcome (List Situation)
  | 0, _ => .diverge
  | fuel + 1, state =>
    match closureFor grammar_ (fuel + 1) state.head? state false with
    | .done (state', non_in_state) =>
      if non_in_state then closureLoop grammar_ fuel state' else .done state'
    | .diverge => .diverge
    | .undefined => .undefined

/-- The method `LR1_algorithm::Closure`. -/
def Closure (fuel : Nat) (grammar_ : CMap (List Str)) (state_to_close : List Situation) :
    Outcome (List Situation) :=
  closureLoop grammar_ fuel state_to_close

/-- The class `LR1_algorithm`: its member fields. -/
structure LR1_algorithm where
  shift_reduce_table_ : List (CMap TableAction)
  go_to_ : List (CMap Int)
  algo_states_ : List (List Situation)
  grammar_ : CMap (List Str)
  deriving DecidableEq, Repr

/-- The first loop of `GoTo`: the items of `exit_state` with `symbol` after the dot, each
advanced by one, inserted into the initially empty `new_state`. -/
def advance (symbol : Char) : List Situation → List Situation → List Situation
  | [], new_state => new_state
  | situations :: rest, new_state =>
    if decide (situations.dot_pos < situations.rule.length) &&
        decide (situations.rule.getD situations.dot_pos nul = symbol) then
      advance symbol rest
        (setInsert ⟨situations.non_terminal, situations.rule, situations.dot_pos + 1⟩
          new_state).1
    else advance symbol rest new_state

/-- The search `for (i ...) if (algo_states_[i] == new_state) return i;` of `GoTo`,
started at index `i`. -/
def findState (new_state : List Situation) : List (List Situation) → Nat → Option Nat
  | [], _ => none
  | st :: rest, i => if st = new_state then some i else findState new_state rest (i + 1)

/-- The method `LR1_algorithm::GoTo`. The result pairs the returned `int` with the
updated `new_states`; the returned value is `none` where the function reaches its closing
brace without a `return` (empty `new_state`). This is the reading in which such a call
hands control back to its caller without a value, as an unoptimised build does; a caller
that uses the missing value is undefined (`tableItem`). The reading of the C++ standard,
in which reaching the closing brace is itself undefined, is `GoToStrict`. -/
def GoTo (fuel : Nat) (grammar_ : CMap (List Str)) (algo_states_ : List (List Situation))
    (exit_state : List Situation) (symbol : Char) (new_states : List (List Situation))
    (insert : Bool) : Outcome (Option Int × List (List Situation)) :=
  let new_state := advance symbol exit_state []
  if new_state ≠ [] then
    match Closure fuel grammar_ new_state with
    | .done closed =>
      match findState closed algo_states_ 0 with
      | some i => .done (some (i : Int), new_states)
      | none => .done (some (-1), if insert then new_states ++ [closed] else new_states)
    | .diverge => .diverge
    | .undefined => .undefined
  else .done (none, new_states)

/-- The loops `for (auto& symbol : alphabet) GoTo(state, symbol, new_states);` of
`BuildGrammarStates` (the returned `int` is discarded there). -/
def sweepSymbols (fuel : Nat) (grammar_ : CMap (List Str))
    (algo_states_ : List (List Situation)) (state : List Situation) :
    List Char → List (List Situation) → Outcome (List (List Situation))
  | [], new_states => .done new_states
  | symbol :: rest, new_states =>
    match GoTo fuel grammar_ algo_states_ state symbol new_states true with
    | .done r => sweepSymbols fuel grammar_ algo_states_ state rest r.2
    | .diverge => .diverge
    | .undefined => .undefined

/-- The loop `for (auto& state : algo_states_)` of `BuildGrammarStates`, over the
states still to visit; `algo_states_` itself is not changed during a sweep. -/
def sweepStates (fuel : Nat) (grammar : Grammar) (algo_states_ : List (List Situation)) :
    List (List Situation) → List (List Situation) → Outcome (List (List Situation))
  | [], new_states => .done new_states
  | state :: rest, new_states =>
    match sweepSymbols fuel grammar.grammar_ algo_states_ state
        grammar.alphabet_non_terminal_ new_states with
    | .done ns1 =>
      match sweepSymbols fuel grammar.grammar_ algo_states_ state
          grammar.alphabet_terminal_ ns1 with
      | .done ns2 => sweepStates fuel grammar algo_states_ rest ns2
      | .diverge => .diverge
      | .undefined => .undefined
    | .diverge => .diverge
    | .undefined => .undefined

/-- The loop `while (true)` of `BuildGrammarStates`. -/
def buildLoop (grammar : Grammar) : Nat → List (List Situation) → Outcome (List (List Situation))
  | 0, _ => .diverge
  | fuel + 1, algo_states_ =>
    match sweepStates (fuel + 1) grammar algo_states_ algo_states_ [] with
    | .done new_states =>
      if new_states.isEmpty then .done algo_states_
      else buildLoop grammar fuel (algo_states_ ++ new_states)
    | .diverge => .diverge
    | .undefined => .undefined

/-- The method `LR1_algorithm::BuildGrammarStates` on a fresh object: the resulting
`algo_states_` (and `grammar_ = grammar.grammar_`). -/
def BuildGrammarStates (fuel : Nat) (grammar : Grammar) : Outcome (List (List Situation)) :=
  match Closure fuel grammar.grammar_ [⟨fake_start, ['S'], 0⟩] with
  | .done state0 => buildLoop grammar fuel [state0]
  | .diverge => .diverge
  | .undefined => .undefined

/-- The aggregate `{ERROR}`. -/
def errorCell : TableAction := ⟨.ERROR, 0, nul⟩

/-- The aggregate `{ACCEPT}`. -/
def acceptCell : TableAction := ⟨.ACCEPT, 0, nul⟩

/-- A value-initialised `TableAction`, what `operator[]` yields for a missing key. -/
def defaultCell : TableAction := ⟨.SHIFT, 0, nul⟩

/-- Assigning `v` under every key of `keys`, in order. -/
def setAll {V : Type} (keys : List Char) (v : V) (m : CMap V) : CMap V :=
  keys.foldl (fun acc k => acc.set k v) m

/-- One row of `shift_reduce_table_` as `SetTable` leaves it. -/
def initRow (grammar : Grammar) : CMap TableAction :=
  (setAll grammar.alphabet_terminal_ errorCell []).set EndPtr errorCell

/-- One row of `go_to_` as `SetTable` leaves it. -/
def initGoto (grammar : Grammar) : CMap Int :=
  setAll grammar.alphabet_non_terminal_ (-1) []

/-- The method `LR1_algorithm::FindRuleNumber`, searching from index `i`; `none` where
the function reaches its closing brace without a `return`. -/
def findRule (rule : Str) : List Str → Nat → Option Nat
  | [], _ => none
  | r :: rest, i => if r = rule then some i else findRule rule rest (i + 1)

def FindRuleNumber (grammar_ : CMap (List Str)) (situation : Situation) : Option Nat :=
  findRule situation.rule (grammar_.get situation.non_terminal []) 0

/-- Body of `for (auto& situation : algo_states_[i])` in `MakeTable` for one `situation`,
acting on row `i` of `shift_reduce_table_` and of `go_to_`. -/
def tableItem (fuel : Nat) (grammar : Grammar) (algo_states_ : List (List Situation))
    (state_i : List Situation) (situation : Situation)
    (row : CMap TableAction) (gotoRow : CMap Int) : Outcome (CMap TableAction × CMap Int) :=
  if situation.dot_pos = situation.rule.length then
    if situation.non_terminal ≠ fake_start then
      match FindRuleNumber grammar.grammar_ situation with
      | some rule_number =>
        let cell : TableAction := ⟨.REDUCE, rule_number, situation.non_terminal⟩
        .done ((setAll grammar.alphabet_terminal_ cell row).set EndPtr cell, gotoRow)
      | none => .undefined
    else .done (row.set EndPtr acceptCell, gotoRow)
  else if situation.rule.length < situation.dot_pos then .undefined
  else
    let symbol_on_dot := situation.rule.getD situation.dot_pos nul
    match GoTo fuel grammar.grammar_ algo_states_ state_i symbol_on_dot algo_states_ false with
    | .done (some number_of_state, _) =>
      let row1 :=
        if IsTerminal symbol_on_dot then
          row.set symbol_on_dot ⟨.SHIFT, number_of_state, nul⟩
        else row
      let goto1 :=
        if IsNonTerminal symbol_on_dot then gotoRow.set symbol_on_dot number_of_state
        else gotoRow
      .done (row1, goto1)
    | .done (none, _) => .undefined
    | .diverge => .diverge
    | .undefined => .undefined

/-- The loop `for (auto& situation : algo_states_[i])` of `MakeTable`. -/
def tableItems (fuel : Nat) (grammar : Grammar) (algo_states_ : List (List Situation))
    (state_i : List Situation) :
    List Situation → CMap TableAction → CMap Int → Outcome (CMap TableAction × CMap Int)
  | [], row, gotoRow => .done (row, gotoRow)
  | situation :: rest, row, gotoRow =>
    match tableItem fuel grammar algo_states_ state_i situation row gotoRow with
    | .done r => tableItems fuel grammar algo_states_ state_i rest r.1 r.2
    | .diverge => .diverge
    | .undefined => .undefined

/-- The loop `for (int i = 0; ...)` of `MakeTable` over the states still to visit,
producing the rows of `shift_reduce_table_` and `go_to_` in order. -/
def tableRows (fuel : Nat) (grammar : Grammar) (algo_states_ : List (List Situation)) :
    List (List Situation) → Outcome (List (CMap TableAction) × List (CMap Int))
  | [] => .done ([], [])
  | state_i :: rest =>
    match tableItems fuel grammar algo_states_ state_i state_i
        (initRow grammar) (initGoto grammar) with
    | .done r =>
      match tableRows fuel grammar algo_states_ rest with
      | .done rs => .done (r.1 :: rs.1, r.2 :: rs.2)
      | .diverge => .diverge
      | .undefined => .undefined
    | .diverge => .diverge
    | .undefined => .undefined

/-- The method `LR1_algorithm::MakeTable` on a fresh object (`BuildGrammarStates`, then
`SetTable`, then the table-filling loops). -/
def MakeTable (fuel : Nat) (grammar : Grammar) : Outcome LR1_algorithm :=
  match BuildGrammarStates fuel grammar with
  | .done algo_states_ =>
    match tableRows fuel grammar algo_states_ algo_states_ with
    | .done rs => .done ⟨rs.1, rs.2, algo_states_, grammar.grammar_⟩
    | .diverge => .diverge
    | .undefined => .undefined
  | .diverge => .diverge
  | .undefined => .undefined

/-- Indexing a `std::vector` with an `int`: out of range is undefined behaviour. -/
def vecAt {V : Type} (v : List V) (i : Int) : Option V :=
  if 0 ≤ i then v.get? i.toNat else none

/-- The method `LR1_algorithm::IsInAlphabet`. -/
def IsInAlphabet (symbol : Char) (alphabet : List Char) : Bool :=
  decide (symbol = EndPtr) || alphabet.contains symbol

/-- The loop `while (rule_len--) stack_states.pop();` of `Reduce`; the stack is a list
with its top first. -/
def popN : Nat → List Int → Option (List Int)
  | 0, stack => some stack
  | _ + 1, [] => none
  | n + 1, _ :: stack => popN n stack

/-- The method `LR1_algorithm::Reduce`. -/
def Reduce (t : LR1_algorithm) (cur_state : Int) (cur_symbol : Char)
    (stack_states : List Int) : Outcome (List Int) :=
  match vecAt t.shift_reduce_table_ cur_state with
  | none => .undefined
  | some row =>
    let cell := row.get cur_symbol defaultCell
    match vecAt (t.grammar_.get cell.start_symbol []) cell.index with
    | none => .undefined
    | some rule =>
      match popN rule.length stack_states with
      | none => .undefined
      | some [] => .undefined
      | some (state_after_reduce :: below) =>
        match vecAt t.go_to_ state_after_reduce with
        | none => .undefined
        | some gotoRow =>
          .done (gotoRow.get cell.start_symbol 0 :: state_after_reduce :: below)

/-- The method `LR1_algorithm::Shift`. -/
def Shift (t : LR1_algorithm) (cur_state : Int) (cur_symbol : Char)
    (stack_states : List Int) : Outcome (List Int) :=
  match vecAt t.shift_reduce_table_ cur_state with
  | none => .undefined
  | some row => .done ((row.get cur_symbol defaultCell).index :: stack_states)

/-- What one pass through the body of the `while` loop of `CheckForAccess` does: it
returns a verdict, or goes round again with a new cursor and stack, or is undefined. -/
inductive StepResult where
  | ret : Bool → StepResult
  | next : Nat → List Int → StepResult
  | ub : StepResult
  deriving DecidableEq, Repr

/-- The body of the loop `while (index < str_find.size())` of `CheckForAccess`;
`str_find` already carries the appended `EndPtr`. -/
def checkStep (t : LR1_algorithm) (alphabet : List Char) (str_find : Str)
    (index : Nat) (stack_states : List Int) : StepResult :=
  match stack_states with
  | [] => .ub
  | cur_state :: _ =>
    let cur_symbol := str_find.getD index nul
    if !IsInAlphabet cur_symbol alphabet then .ret false
    else
      match vecAt t.shift_reduce_table_ cur_state with
      | none => .ub
      | some row =>
        let cell := row.get cur_symbol defaultCell
        if cell.action = .SHIFT then
          match Shift t cur_state cur_symbol stack_states with
          | .done st => .next (index + 1) st
          | _ => .ub
        else if cell.action = .REDUCE then
          match Reduce t cur_state cur_symbol stack_states with
          | .done st => .next index st
          | _ => .ub
        else if cell.action = .ACCEPT ∧ index = str_find.length - 1 then .ret true
        else if cell.action = .ERROR then .ret false
        else .next index stack_states

/-- The loop `while (index < str_find.size())` of `CheckForAccess` with the
`return false` that follows it. -/
def checkLoop (t : LR1_algorithm) (alphabet : List Char) (str_find : Str) :
    Nat → Nat → List Int → Outcome Bool
  | 0, _, _ => .diverge
  | fuel + 1, index, stack_states =>
    if index < str_find.length then
      match checkStep t alphabet str_find index stack_states with
      | .ret b => .done b
      | .next index' stack' => checkLoop t alphabet str_find fuel index' stack'
      | .ub => .undefined
    else .done false

/-- The method `LR1_algorithm::CheckForAccess`. -/
def CheckForAccess (fuel : Nat) (t : LR1_algorithm) (str_find : Str) (alphabet : List Char) :
    Outcome Bool :=
  checkLoop t alphabet (str_find ++ [EndPtr]) fuel 0 [0]

/-- The function `LR1_alg`. -/
def LR1_alg (fuel : Nat) (rules : List Str) (str_to_find : Str) : Outcome Bool :=
  match MakeTable fuel (Grammar.ofRules rules) with
  | .done algorithm =>
    CheckForAccess fuel algorithm str_to_find (Grammar.ofRules rules).alphabet_terminal_
  | .diverge => .diverge
  | .undefined => .undefined

/-- The method `LR1_algorithm::GoTo` as the C++ standard reads it: reaching the closing
brace of the `int`-valued function without a `return` (empty `new_state`) is undefined
behaviour, also where the caller discards the value. -/
def GoToStrict (fuel : Nat) (grammar_ : CMap (List Str)) (algo_states_ : List (List Situation))
    (exit_state : List Situation) (symbol : Char) (new_states : List (List Situation))
    (insert : Bool) : Outcome (Option Int × List (List Situation)) :=
  let new_state := advance symbol exit_state []
  if new_state ≠ [] then
    match Closure fuel grammar_ new_state with
    | .done closed =>
      match findState closed algo_states_ 0 with
      | some i => .done (some (i : Int), new_states)
      | none => .done (some (-1), if insert then new_states ++ [closed] else new_states)
    | .diverge => .diverge
    | .undefined => .undefined
  else .undefined

/-- The loops `for (auto& symbol : alphabet) GoTo(state, symbol, new_states);` of
`BuildGrammarStates`, with `GoToStrict`. -/
def sweepSymbolsStrict (fuel : Nat) (grammar_ : CMap (List Str))
    (algo_states_ : List (List Situation)) (state : List Situation) :
    List Char → List (List Situation) → Outcome (List (List Situation))
  | [], new_states => .done new_states
  | symbol :: rest, new_states =>
    match GoToStrict fuel grammar_ algo_states_ state symbol new_states true with
    | .done r => sweepSymbolsStrict fuel grammar_ algo_states_ state rest r.2
    | .diverge => .diverge
    | .undefined => .undefined

/-- The loop `for (auto& state : algo_states_)` of `BuildGrammarStates`, with
`GoToStrict`. -/
def sweepStatesStrict (fuel : Nat) (grammar : Grammar) (algo_states_ : List (List Situation)) :
    List (List Situation) → List (List Situation) → Outcome (List (List Situation))
  | [], new_states => .done new_states
  | state :: rest, new_states =>
    match sweepSymbolsStrict fuel grammar.grammar_ algo_states_ state
        grammar.alphabet_non_terminal_ new_states with
    | .done ns1 =>
      match sweepSymbolsStrict fuel grammar.grammar_ algo_states_ state
          grammar.alphabet_terminal_ ns1 with
      | .done ns2 => sweepStatesStrict fuel grammar algo_states_ rest ns2
      | .diverge => .diverge
      | .undefined => .undefined
    | .diverge => .diverge
    | .undefined => .undefined

/-- The loop `while (true)` of `BuildGrammarStates`, with `GoToStrict`. -/
def buildLoopStrict (grammar : Grammar) :
    Nat → List (List Situation) → Outcome (List (List Situation))
  | 0, _ => .diverge
  | fuel + 1, algo_states_ =>
    match sweepStatesStrict (fuel + 1) grammar algo_states_ algo_states_ [] with
    | .done new_states =>
      if new_states.isEmpty then .done algo_states_
      else buildLoopStrict grammar fuel (algo_states_ ++ new_states)
    | .diverge => .diverge
    | .undefined => .undefined

/-- The method `LR1_algorithm::BuildGrammarStates` on a fresh object, with
`GoToStrict`. -/
def BuildGrammarStatesStrict (fuel : Nat) (grammar : Grammar) :
    Outcome (List (List Situation)) :=
  match Closure fuel grammar.grammar_ [⟨fake_start, ['S'], 0⟩] with
  | .done state0 => buildLoopStrict grammar fuel [state0]
  | .diverge => .diverge
  | .undefined => .undefined

/-- The method `LR1_algorithm::MakeTable` on a fresh object, with `GoToStrict` in
`BuildGrammarStates` (the calls of `GoTo` in the table-filling loops use the returned
value and are undefined without it in `tableItem` already). -/
def MakeTableStrict (fuel : Nat) (grammar : Grammar) : Outcome LR1_algorithm :=
  match BuildGrammarStatesStrict fuel grammar with
  | .done algo_states_ =>
    match tableRows fuel grammar algo_states_ algo_states_ with
    | .done rs => .done ⟨rs.1, rs.2, algo_states_, grammar.grammar_⟩
    | .diverge => .diverge
    | .undefined => .undefined
  | .diverge => .diverge
  | .undefined => .undefined

/-- The function `LR1_alg`, with `GoToStrict` in `BuildGrammarStates`. -/
def LR1_algStrict (fuel : Nat) (rules : List Str) (str_to_find : Str) : Outcome Bool :=
  match MakeTableStrict fuel (Grammar.ofRules rules) with
  | .done algorithm =>
    CheckForAccess fuel algorithm str_to_find (Grammar.ofRules rules).alphabet_terminal_
  | .diverge => .diverge
  | .undefined => .undefined

/-- A string literal as a `std::string`. -/
def str (x : String) : Str := x.toList

/-! ## Notions the statements are phrased in -/

/-- The tables `MakeTable` builds when given `fuel`, for stating facts about a concrete
grammar (an object with empty tables where the build does not finish on that fuel). -/
def tablesOf (fuel : Nat) (rules : List Str) : LR1_algorithm :=
  match MakeTable fuel (Grammar.ofRules rules) with
  | .done t => t
  | _ => ⟨[], [], [], []⟩

/-- The list `L` of recognizer configurations (cursor, stack) is closed under the loop
body: from each of them the loop condition holds and the body goes round again into a
configuration of `L`. -/
def closedUnderStep (t : LR1_algorithm) (alphabet : List Char) (str_find : Str)
    (L : List (Nat × List Int)) : Bool :=
  L.all fun c =>
    decide (c.1 < str_find.length) &&
      match checkStep t alphabet str_find c.1 c.2 with
      | .next i st => L.contains (i, st)
      | _ => false

/-- An item set is closed: for every item with a nonterminal `N` right after the dot it
holds the item `(N, rhs, 0)` of every production `rhs` of `N`. -/
def Closed (grammar_ : CMap (List Str)) (state : List Situation) : Prop :=
  ∀ it ∈ state, it.dot_pos < it.rule.length →
    IsNonTerminal (it.rule.getD it.dot_pos nul) = true →
    ∀ rhs ∈ grammar_.get (it.rule.getD it.dot_pos nul) [],
      (⟨it.rule.getD it.dot_pos nul, rhs, 0⟩ : Situation) ∈ state

/-- One derivation step with a production stored in the grammar map: an occurrence of
`N` is replaced by a right-hand side listed under `N`. -/
inductive Step (grammar_ : CMap (List Str)) : Str → Str → Prop where
  | mk (u v : Str) (N : Char) (rhs : Str) (h : rhs ∈ grammar_.get N []) :
      Step grammar_ (u ++ N :: v) (u ++ rhs ++ v)

/-- Derivability `α =>* β` with the productions stored in the grammar map. -/
def Derives (grammar_ : CMap (List Str)) : Str → Str → Prop :=
  Relation.ReflTransGen (Step grammar_)

/-- A rule of the form `L "->" R` where `R` holds no `'>'`. -/
def RuleForm (r : Str) : Prop := ∃ L R, r = L :: '-' :: '>' :: R ∧ '>' ∉ R

/-- The right-hand sides of the rules whose first character is `c`, in input order. -/
def rhsOf (c : Char) (rules : List Str) : List Str :=
  rules.filterMap fun r => if r.headD nul = c then some (r.drop 3) else none

/-- The documented rule format: one uppercase letter, `"->"`, then zero or more letters. -/
def documentedRule : Str → Bool
  | L :: '-' :: '>' :: R => IsNonTerminal L && R.all fun c => IsNonTerminal c || IsTerminal c
  | _ => false

/-- All sentential forms reachable from `x` in one derivation step. -/
def successors (grammar_ : CMap (List Str)) : Str → List Str
  | [] => []
  | c :: rest =>
    (grammar_.get c []).map (fun rhs => rhs ++ rest) ++
      (successors grammar_ rest).map (fun y => c :: y)

/-! ## Invariants of the automaton, the tables and the recognizer -/

/-- An item made by `Closure`: dot at `0`, an uppercase left-hand side and one of its
productions as right-hand side. -/
def Added (grammar_ : CMap (List Str)) (it : Situation) : Prop :=
  it.dot_pos = 0 ∧ IsNonTerminal it.non_terminal = true ∧
    it.rule ∈ grammar_.get it.non_terminal []

/-- An item as the states hold them: the dot lies within the right-hand side, and the item
is either the augmented production `# -> S` or a production of the grammar map. -/
def ItemOK (grammar_ : CMap (List Str)) (it : Situation) : Prop :=
  it.dot_pos ≤ it.rule.length ∧
    ((it.non_terminal = fake_start ∧ it.rule = ['S']) ∨
      (IsNonTerminal it.non_terminal = true ∧ it.rule ∈ grammar_.get it.non_terminal []))

/-- The item set `J` is entered from `I` over the symbol `X`: each item of `J` either has
its dot at `0` and is not the augmented item, or is an item of `I` moved over `X`. -/
def Link (I : List Situation) (X : Char) (J : List Situation) : Prop :=
  ∀ it ∈ J, (it.dot_pos = 0 ∧ it.non_terminal ≠ fake_start) ∨
    ∃ k, it.dot_pos = k + 1 ∧ k < it.rule.length ∧ it.rule.getD k nul = X ∧
      (⟨it.non_terminal, it.rule, k⟩ : Situation) ∈ I

/-- A state number `v` stored as the target of the transition from `I` over `X`: it is
`-1`, or the index of a state entered from `I` over `X`. -/
def GoodTarget (states : List (List Situation)) (I : List Situation) (X : Char)
    (v : Int) : Prop :=
  v = -1 ∨ ∃ (t : Nat) (J : List Situation), v = (t : Int) ∧ states.get? t = some J ∧
    Link I X J

/-- The states of the automaton hold only well-formed items and the first state holds
only items with the dot at `0`. -/
def StatesOK (grammar_ : CMap (List Str)) (states : List (List Situation)) : Prop :=
  (∀ I ∈ states, ∀ it ∈ I, ItemOK grammar_ it) ∧
    ∃ I0 rest, states = I0 :: rest ∧ ∀ it ∈ I0, it.dot_pos = 0

/-- What a cell of the action table in the row of item set `I` and column `c` records. -/
def CellOK (grammar_ : CMap (List Str)) (states : List (List Situation))
    (I : List Situation) (c : Char) (cell : TableAction) : Prop :=
  match cell.action with
  | .ERROR => True
  | .ACCEPT => ∃ it ∈ I, it.dot_pos = it.rule.length ∧ it.non_terminal = fake_start
  | .REDUCE => ∃ it ∈ I, it.dot_pos = it.rule.length ∧ it.non_terminal ≠ fake_start ∧
      cell.start_symbol = it.non_terminal ∧
      ∃ k : Nat, cell.index = (k : Int) ∧
        (grammar_.get it.non_terminal []).get? k = some it.rule
  | .SHIFT => IsTerminal c = true ∧ GoodTarget states I c cell.index

/-- A row of the action table for the item set `I`: every column of a terminal of the
alphabet and the column of `EndPtr` hold a cell that records an item of `I`. -/
def RowOK (grammar : Grammar) (states : List (List Situation)) (I : List Situation)
    (row : CMap TableAction) : Prop :=
  ∀ c, (c = EndPtr ∨ c ∈ grammar.alphabet_terminal_) →
    CellOK grammar.grammar_ states I c (row.get c defaultCell)

/-- A row of the goto table for the item set `I`. -/
def GotoRowOK (grammar : Grammar) (states : List (List Situation)) (I : List Situation)
    (gotoRow : CMap Int) : Prop :=
  ∀ N ∈ grammar.alphabet_non_terminal_, GoodTarget states I N (gotoRow.get N 0)

/-- The recognizer stack (top first) together with the grammar symbols (top first) over
which its states were entered: the bottom is state `0`, every other entry is a state
entered from the one below it. -/
inductive StackOK (states : List (List Situation)) : List Int → List Char → Prop where
  | base : StackOK states [0] []
  | push (t : Nat) (J : List Situation) (sb : Int) (rest : List Int) (X : Char)
      (syms : List Char) (I : List Situation) (hbelow : StackOK states (sb :: rest) syms)
      (hI : vecAt states sb = some I) (hJ : states.get? t = some J) (hlink : Link I X J) :
      StackOK states ((t : Int) :: sb :: rest) (X :: syms)

/-- Every production key of the grammar map that is an uppercase letter belongs to the
nonterminal alphabet. -/
def KeysInAlphabet (grammar : Grammar) : Prop :=
  ∀ A, IsNonTerminal A = true → grammar.grammar_.get A [] ≠ [] →
    A ∈ grammar.alphabet_non_terminal_

/-- The item set of the state on top of the recognizer stack. -/
def topItems (states : List (List Situation)) : List Int → Option (List Situation)
  | [] => none
  | s :: _ => vecAt states s

/-- The invariant of the loop of `CheckForAccess`: the stack is a path of the automaton
over grammar symbols from which the consumed input is derivable, and the consumed input
consists of terminals of the alphabet. -/
def Inv (grammar : Grammar) (t : LR1_algorithm) (str_find : Str) (index : Nat)
    (stack : List Int) : Prop :=
  ∃ syms, StackOK t.algo_states_ stack syms ∧
    Derives grammar.grammar_ syms.reverse (str_find.take index) ∧
    ∀ c ∈ str_find.take index, c ∈ grammar.alphabet_terminal_

/-- A stack whose top is not the index of a row of the action table. -/
def Dead (t : LR1_algorithm) (stack : List Int) : Prop :=
  ∃ s rest, stack = s :: rest ∧ vecAt t.shift_reduce_table_ s = none

/-! ## Order, sets and keys -/

/-- The function `operator==` on `Situation`. -/
def Situation.eq (first second : Situation) : Bool :=
  decide (first.non_terminal = second.non_terminal) &&
    decide (first.rule = second.rule) && decide (first.dot_pos = second.dot_pos)

/-- A legal `std::set<Situation>` value: strictly increasing for `operator<`. -/
def SetSorted (state : List Situation) : Prop :=
  state.Pairwise fun a b => a.lt b = true

/-- The map `m` holds the key `k` (so `m[k]` inserts nothing). -/
def CMap.has {V : Type} (m : CMap V) (k : Char) : Bool :=
  m.any fun p => decide (p.1 = k)

/-- A property of sets that holds of the empty set and survives `insert`, through the
construction of the automaton. -/
structure SetInv (Q : List Situation → Prop) : Prop where
  nil : Q []
  insert : ∀ x l, Q l → Q (setInsert x l).1

/-- The configurations (cursor, stack) that the loop of `CheckForAccess` goes through:
it starts with cursor `0` and the stack holding state `0`, and goes from one
configuration to the next while the loop condition holds and the body does not return. -/
inductive Reach (t : LR1_algorithm) (alphabet : List Char) (str_find : Str) :
    Nat → List Int → Prop where
  | start : Reach t alphabet str_find 0 [0]
  | step (index : Nat) (stack : List Int) (index' : Nat) (stack' : List Int)
      (h : Reach t alphabet str_find index stack) (hlt : index < str_find.length)
      (hs : checkStep t alphabet str_find index stack = .next index' stack') :
      Reach t alphabet str_find index' stack'

/-- The sweep with fuel `n` found the transition from `I` over `c`: no item of `I` moves
over `c`, or the closure of the moved items is one of the states. -/
def Found (n : Nat) (grammar_ : CMap (List Str)) (states : List (List Situation))
    (I : List Situation) (c : Char) : Prop :=
  advance c I [] = [] ∨ ∃ closed t, Closure n grammar_ (advance c I []) = .done closed ∧
    findState closed states 0 = some t

/-- The state number `v` is the index of the state that is the closure of the items of
`I` with `X` after the dot, each advanced by one. -/
def Target (grammar_ : CMap (List Str)) (states : List (List Situation))
    (I : List Situation) (X : Char) (v : Int) : Prop :=
  ∃ (t : Nat) (J : List Situation) (n : Nat), v = (t : Int) ∧ states.get? t = some J ∧
    Closure n grammar_ (advance X I []) = .done J

/-- The last sweep of `BuildGrammarStates` found every transition over a symbol of the
two alphabets. -/
def FoundAll (n : Nat) (grammar : Grammar) (states : List (List Situation)) : Prop :=
  ∀ I ∈ states, ∀ c, (c ∈ grammar.alphabet_non_terminal_ ∨ c ∈ grammar.alphabet_terminal_) →
    Found n grammar.grammar_ states I c

/-- A row of the action table for the item set `I`, as to keys and SHIFT targets: every
column of a terminal of the alphabet and the column of `EndPtr` is a key of the row, and
a SHIFT in such a column carries the index of the target state. -/
def Row2 (grammar : Grammar) (states : List (List Situation)) (I : List Situation)
    (row : CMap TableAction) : Prop :=
  ∀ c, (c = EndPtr ∨ c ∈ grammar.alphabet_terminal_) → row.has c = true ∧
    ((row.get c defaultCell).action = .SHIFT →
      Target grammar.grammar_ states I c (row.get c defaultCell).index)

/-- A row of the goto table for the item set `I`, as to keys and targets: every
nonterminal of the alphabet is a key, and where an item of `I` has the nonterminal after
its dot the entry is the index of the target state. -/
def Goto2 (grammar : Grammar) (states : List (List Situation)) (I : List Situation)
    (gotoRow : CMap Int) : Prop :=
  ∀ N ∈ grammar.alphabet_non_terminal_, gotoRow.has N = true ∧
    ((∃ x ∈ I, x.dot_pos < x.rule.length ∧ x.rule.getD x.dot_pos nul = N) →
      Target grammar.grammar_ states I N (gotoRow.get N 0))

/-- Every item of `J` with the dot at `0`, other than the augmented item, was made by
`Closure` for an item of `J` that has its left-hand side right after the dot. -/
def Prov (J : List Situation) : Prop :=
  ∀ it ∈ J, it.dot_pos = 0 → it.non_terminal ≠ fake_start →
    ∃ x ∈ J, x.dot_pos < x.rule.length ∧ x.rule.getD x.dot_pos nul = it.non_terminal

/-- The loop body of `CheckForAccess` runs safely in the configuration
(`index`, `stack`): the stack is not empty and its top `s` is the index of a state; when
the current symbol passes `IsInAlphabet`, it is a key of row `s` of the action table; a
SHIFT found there carries the index of a state; and for a REDUCE found there the
left-hand side is a key of the grammar map, the rule number indexes one of its
productions `rhs`, the stack has more than `len(rhs)` entries, the exposed state has a
goto row of which the left-hand side is a key, and the entry read is the index of a
state. -/
def StepSafe (t : LR1_algorithm) (alphabet : List Char) (str_find : Str) (index : Nat)
    (stack : List Int) : Prop :=
  ∃ s rest row, stack = s :: rest ∧ 0 ≤ s ∧ s < t.algo_states_.length ∧
    vecAt t.shift_reduce_table_ s = some row ∧
    (IsInAlphabet (str_find.getD index nul) alphabet = true →
      row.has (str_find.getD index nul) = true ∧
      ((row.get (str_find.getD index nul) defaultCell).action = .SHIFT →
        0 ≤ (row.get (str_find.getD index nul) defaultCell).index ∧
        (row.get (str_find.getD index nul) defaultCell).index < t.algo_states_.length) ∧
      ((row.get (str_find.getD index nul) defaultCell).action = .REDUCE →
        t.grammar_.has (row.get (str_find.getD index nul) defaultCell).start_symbol = true ∧
        ∃ rhs s' rest' gotoRow,
          vecAt (t.grammar_.get (row.get (str_find.getD index nul) defaultCell).start_symbol [])
            (row.get (str_find.getD index nul) defaultCell).index = some rhs ∧
          rhs.length < stack.length ∧
          popN rhs.length stack = some (s' :: rest') ∧
          vecAt t.go_to_ s' = some gotoRow ∧
          gotoRow.has (row.get (str_find.getD index nul) defaultCell).start_symbol = true ∧
          0 ≤ gotoRow.get (row.get (str_find.getD index nul) defaultCell).start_symbol 0 ∧
          gotoRow.get (row.get (str_find.getD index nul) defaultCell).start_symbol 0
            < t.algo_states_.length))

/-- The state number that `MakeTable` gets from `GoTo(state, symbol, algo_states_, false)`. -/
def gotoValue (fuel : Nat) (grammar_ : CMap (List Str)) (states : List (List Situation))
    (I : List Situation) (c : Char) : Int :=
  match GoTo fuel grammar_ states I c states false with
  | .done (some v, _) => v
  | _ => 0

/-- The least index at which `rule` stands in the list of productions (`0` for the
empty list). -/
def leastIndex (rule : Str) : List Str → Nat
  | [] => 0
  | r :: rest => if r = rule then 0 else leastIndex rule rest + 1

/-- What the item `it` of the state `I` writes into the cell of column `c`, if anything:
a completed item with an ordinary left-hand side `N` writes REDUCE with `N` and the least
index of its right-hand side among the productions of `N`; the completed augmented item
writes ACCEPT in the column of `EndPtr`; an item with the terminal `c` right after the dot
writes SHIFT. -/
def cellWrite (fuel : Nat) (grammar : Grammar) (states : List (List Situation))
    (I : List Situation) (c : Char) (it : Situation) : Option TableAction :=
  if it.dot_pos = it.rule.length then
    if it.non_terminal ≠ fake_start then
      some ⟨.REDUCE, (leastIndex it.rule (grammar.grammar_.get it.non_terminal []) : Nat),
        it.non_terminal⟩
    else if c = EndPtr then some acceptCell
    else none
  else if it.rule.getD it.dot_pos nul = c ∧ IsTerminal c = true then
    some ⟨.SHIFT, gotoValue fuel grammar.grammar_ states I c, nul⟩
  else none

/-- Some item of `s` has after its dot a nonterminal one of whose productions is in `s`
as an item with the dot at `0`: the visit of that item attempts an insertion that
fails. -/
def Blocked (grammar_ : CMap (List Str)) (s : List Situation) : Prop :=
  ∃ x ∈ s, x.dot_pos < x.rule.length ∧ IsNonTerminal (x.rule.getD x.dot_pos nul) = true ∧
    ∃ rhs ∈ grammar_.get (x.rule.getD x.dot_pos nul) [],
      (⟨x.rule.getD x.dot_pos nul, rhs, 0⟩ : Situation) ∈ s

/-- The items with the dot at `0` of the productions stored in the grammar map. -/
def initialItems : CMap (List Str) → List Situation
  | [] => []
  | (k, rules) :: rest => rules.map (fun r => ⟨k, r, 0⟩) ++ initialItems rest

/-- The items `(k, r, d)` of one production, for every position `d` of the dot. -/
def dottedItems (k : Char) (r : Str) : List Situation :=
  (List.range (r.length + 1)).map fun d => ⟨k, r, d⟩

/-- The items of the productions `rules` of one nonterminal. -/
def ruleItems (k : Char) : List Str → List Situation
  | [] => []
  | r :: rest => dottedItems k r ++ ruleItems k rest

/-- The items of every production stored in the grammar map. -/
def allItems : CMap (List Str) → List Situation
  | [] => []
  | (k, rules) :: rest => ruleItems k rules ++ allItems rest

/-- The finite universe of the items that the states of the automaton can hold: those of
the augmented production and those of the grammar map. -/
def itemUniverse (grammar_ : CMap (List Str)) : List Situation :=
  dottedItems fake_start ['S'] ++ allItems grammar_

/-- The item sets that the construction of the automaton can come to hold: what `Closure`
returns on the start set, and what it returns on the items of such a set advanced over a
symbol of the alphabets. -/
inductive Built (grammar : Grammar) : List Situation → Prop where
  | start (n : Nat) (r : List Situation)
      (h : Closure n grammar.grammar_ [⟨fake_start, ['S'], 0⟩] = .done r) : Built grammar r
  | step (I : List Situation) (c : Char) (n : Nat) (r : List Situation)
      (hI : Built grammar I)
      (hc : c ∈ grammar.alphabet_non_terminal_ ∨ c ∈ grammar.alphabet_terminal_)
      (hne : advance c I [] ≠ [])
      (h : Closure n grammar.grammar_ (advance c I []) = .done r) : Built grammar r

/-- Every call of `Closure` that the construction of the automaton makes returns: the
call on the start set, and the call of `GoTo` for every item set the construction can
come to hold and every symbol of the alphabets with a non-empty set of advanced items. -/
def ClosureCallsReturn (grammar : Grammar) : Prop :=
  (∃ n r, Closure n grammar.grammar_ [⟨fake_start, ['S'], 0⟩] = .done r) ∧
    ∀ I, Built grammar I → ∀ c,
      (c ∈ grammar.alphabet_non_terminal_ ∨ c ∈ grammar.alphabet_terminal_) →
      advance c I [] ≠ [] → ∃ n r, Closure n grammar.grammar_ (advance c I []) = .done r

/-- The number of distinct item sets among `states`. -/
def distinctCount (states : List (List Situation)) : Nat :=
  ((states.map List.toFinset).toFinset).card

/-- Generation through derivation trees: `Gen g syms w` says that the sentential form
`syms` yields `w`, each symbol either standing for itself or being replaced by a
production stored under it whose symbols in turn generate a factor of `w`. -/
inductive Gen (grammar_ : CMap (List Str)) : Str → Str → Prop where
  | nil : Gen grammar_ [] []
  | leaf (c : Char) (rest w : Str) (h : Gen grammar_ rest w) :
      Gen grammar_ (c :: rest) (c :: w)
  | node (N : Char) (rhs rest w1 w2 : Str) (hr : rhs ∈ grammar_.get N [])
      (h1 : Gen grammar_ rhs w1) (h2 : Gen grammar_ rest w2) :
      Gen grammar_ (N :: rest) (w1 ++ w2)

/-- No cell of the action table is written differently by two items of its state: in
every state and every column of a terminal or of `EndPtr`, any two items that write the
cell write the same action. -/
def ConflictFree (fuel : Nat) (grammar : Grammar) (states : List (List Situation)) : Prop :=
  ∀ I ∈ states, ∀ c ∈ EndPtr :: grammar.alphabet_terminal_, ∀ x ∈ I, ∀ y ∈ I,
    cellWrite fuel grammar states I c x = none ∨
    cellWrite fuel grammar states I c y = none ∨
    cellWrite fuel grammar states I c x = cellWrite fuel grammar states I c y

/-- The loop of `CheckForAccess` goes in `k` passes of its body from the configuration
(`i`, `st`) to the configuration (`i2`, `st2`). -/
inductive RunN (t : LR1_algorithm) (alphabet : List Char) (str_find : Str) :
    Nat → Nat → List Int → Nat → List Int → Prop where
  | refl (i : Nat) (st : List Int) : RunN t alphabet str_find 0 i st i st
  | step (k i : Nat) (st : List Int) (i1 : Nat) (st1 : List Int) (i2 : Nat)
      (st2 : List Int) (hlt : i < str_find.length)
      (hs : checkStep t alphabet str_find i st = .next i1 st1)
      (h : RunN t alphabet str_find k i1 st1 i2 st2) :
      RunN t alphabet str_find (k + 1) i st i2 st2

/-- The state on top of the recognizer stack is a state of the automaton that holds the
item `it`. -/
def TopHas (states : List (List Situation)) (stack : List Int) (it : Situation) : Prop :=
  ∃ (s : Nat) (rest : List Int) (I : List Situation),
    stack = (s : Int) :: rest ∧ states.get? s = some I ∧ it ∈ I

/-! ## Fuel: more fuel never changes a result -/

theorem closureFor_mono (g : CMap (List Str)) :
    ∀ (n m : Nat) (it : Option Situation) (st : List Situation) (fl : Bool)
      (v : List Situation × Bool), n ≤ m →
      closureFor g n it st fl = .done v → closureFor g m it st fl = .done v := by
  intro n
  induction n with
  | zero =>
    intro m it st fl v _ h
    cases it with
    | none => cases m <;> simpa [closureFor] using h
    | some x => simp [closureFor] at h
  | succ k ih =>
    intro m it st fl v hle h
    cases it with
    | none => cases m <;> simpa [closureFor] using h
    | some x =>
      obtain ⟨m', rfl⟩ : ∃ m', m = m' + 1 := ⟨m - 1, by omega⟩
      simp only [closureFor] at h ⊢
      exact ih m' _ _ _ _ (by omega) h

theorem closureLoop_mono (g : CMap (List Str)) :
    ∀ (n m : Nat) (st v : List Situation), n ≤ m →
      closureLoop g n st = .done v → closureLoop g m st = .done v := by
  intro n
  induction n with
  | zero => intro m st v _ h; simp [closureLoop] at h
  | succ k ih =>
    intro m st v hle h
    obtain ⟨m', rfl⟩ : ∃ m', m = m' + 1 := ⟨m - 1, by omega⟩
    simp only [closureLoop] at h ⊢
    cases hc : closureFor g (k + 1) st.head? st false with
    | done r =>
      rw [hc] at h
      rw [closureFor_mono g (k + 1) (m' + 1) _ _ _ r (by omega) hc]
      obtain ⟨s', fl⟩ := r
      cases fl with
      | true => simp only [if_true] at h ⊢; exact ih m' _ _ (by omega) h
      | false => simpa using h
    | diverge => rw [hc] at h; simp at h
    | undefined => rw [hc] at h; simp at h

theorem Closure_mono (g : CMap (List Str)) (n m : Nat) (st v : List Situation) (h : n ≤ m)
    (hc : Closure n g st = .done v) : Closure m g st = .done v :=
  closureLoop_mono g n m st v h hc

theorem GoTo_mono (g : CMap (List Str)) (n m : Nat) (sts : List (List Situation))
    (ex : List Situation) (c : Char) (ns : List (List Situation)) (ins : Bool)
    (v : Option Int × List (List Situation)) (h : n ≤ m)
    (hc : GoTo n g sts ex c ns ins = .done v) : GoTo m g sts ex c ns ins = .done v := by
  unfold GoTo at hc ⊢
  by_cases he : advance c ex [] ≠ []
  · rw [if_pos he] at hc ⊢
    cases hcl : Closure n g (advance c ex []) with
    | done cl =>
      rw [hcl] at hc
      rw [Closure_mono g n m _ cl h hcl]
      exact hc
    | diverge => rw [hcl] at hc; simp at hc
    | undefined => rw [hcl] at hc; simp at hc
  · rw [if_neg he] at hc ⊢
    exact hc

theorem sweepSymbols_mono (g : CMap (List Str)) (n m : Nat) (sts : List (List Situation))
    (ex : List Situation) (h : n ≤ m) :
    ∀ (cs : List Char) (ns v : List (List Situation)),
      sweepSymbols n g sts ex cs ns = .done v → sweepSymbols m g sts ex cs ns = .done v := by
  intro cs
  induction cs with
  | nil => intro ns v hc; simpa [sweepSymbols] using hc
  | cons c rest ih =>
    intro ns v hc
    simp only [sweepSymbols] at hc ⊢
    cases hg : GoTo n g sts ex c ns true with
    | done r =>
      rw [hg] at hc
      rw [GoTo_mono g n m sts ex c ns true r h hg]
      exact ih _ _ hc
    | diverge => rw [hg] at hc; simp at hc
    | undefined => rw [hg] at hc; simp at hc

theorem sweepStates_mono (gr : Grammar) (n m : Nat) (sts : List (List Situation))
    (h : n ≤ m) :
    ∀ (todo : List (List Situation)) (ns v : List (List Situation)),
      sweepStates n gr sts todo ns = .done v → sweepStates m gr sts todo ns = .done v := by
  intro todo
  induction todo with
  | nil => intro ns v hc; simpa [sweepStates] using hc
  | cons st rest ih =>
    intro ns v hc
    simp only [sweepStates] at hc ⊢
    cases h1 : sweepSymbols n gr.grammar_ sts st gr.alphabet_non_terminal_ ns with
    | done ns1 =>
      rw [h1] at hc
      rw [sweepSymbols_mono _ n m sts st h _ _ _ h1]
      simp only at hc ⊢
      cases h2 : sweepSymbols n gr.grammar_ sts st gr.alphabet_terminal_ ns1 with
      | done ns2 =>
        rw [h2] at hc
        rw [sweepSymbols_mono _ n m sts st h _ _ _ h2]
        exact ih _ _ hc
      | diverge => rw [h2] at hc; simp at hc
      | undefined => rw [h2] at hc; simp at hc
    | diverge => rw [h1] at hc; simp at hc
    | undefined => rw [h1] at hc; simp at hc

theorem buildLoop_mono (gr : Grammar) :
    ∀ (n m : Nat) (sts v : List (List Situation)), n ≤ m →
      buildLoop gr n sts = .done v → buildLoop gr m sts = .done v := by
  intro n
  induction n with
  | zero => intro m sts v _ h; simp [buildLoop] at h
  | succ k ih =>
    intro m sts v hle h
    obtain ⟨m', rfl⟩ : ∃ m', m = m' + 1 := ⟨m - 1, by omega⟩
    simp only [buildLoop] at h ⊢
    cases hs : sweepStates (k + 1) gr sts sts [] with
    | done ns =>
      rw [hs] at h
      rw [sweepStates_mono gr (k + 1) (m' + 1) sts (by omega) _ _ _ hs]
      simp only at h ⊢
      by_cases hn : ns.isEmpty = true
      · simpa [hn] using h
      · simp only [hn] at h ⊢
        exact ih m' _ _ (by omega) h
    | diverge => rw [hs] at h; simp at h
    | undefined => rw [hs] at h; simp at h

theorem BuildGrammarStates_mono (gr : Grammar) (n m : Nat) (v : List (List Situation))
    (h : n ≤ m) (hc : BuildGrammarStates n gr = .done v) :
    BuildGrammarStates m gr = .done v := by
  unfold BuildGrammarStates at hc ⊢
  cases h0 : Closure n gr.grammar_ [⟨fake_start, ['S'], 0⟩] with
  | done s0 =>
    rw [h0] at hc
    rw [Closure_mono _ n m _ s0 h h0]
    exact buildLoop_mono gr n m _ _ h hc
  | diverge => rw [h0] at hc; simp at hc
  | undefined => rw [h0] at hc; simp at hc

theorem tableItem_mono (gr : Grammar) (n m : Nat) (sts : List (List Situation))
    (st : List Situation) (it : Situation) (row : CMap TableAction) (gt : CMap Int)
    (v : CMap TableAction × CMap Int) (h : n ≤ m)
    (hc : tableItem n gr sts st it row gt = .done v) :
    tableItem m gr sts st it row gt = .done v := by
  unfold tableItem at hc ⊢
  by_cases h1 : it.dot_pos = it.rule.length
  · simp only [h1, if_true] at hc ⊢; exact hc
  · simp only [h1, if_false] at hc ⊢
    by_cases h2 : it.rule.length < it.dot_pos
    · simp [h2] at hc
    · simp only [h2, if_false] at hc ⊢
      cases hg : GoTo n gr.grammar_ sts st (it.rule.getD it.dot_pos nul) sts false with
      | done r =>
        rw [hg] at hc
        rw [GoTo_mono _ n m sts st _ sts false r h hg]
        exact hc
      | diverge => rw [hg] at hc; simp at hc
      | undefined => rw [hg] at hc; simp at hc

theorem tableItems_mono (gr : Grammar) (n m : Nat) (sts : List (List Situation))
    (st : List Situation) (h : n ≤ m) :
    ∀ (its : List Situation) (row : CMap TableAction) (gt : CMap Int)
      (v : CMap TableAction × CMap Int),
      tableItems n gr sts st its row gt = .done v →
      tableItems m gr sts st its row gt = .done v := by
  intro its
  induction its with
  | nil => intro row gt v hc; simpa [tableItems] using hc
  | cons it rest ih =>
    intro row gt v hc
    simp only [tableItems] at hc ⊢
    cases hi : tableItem n gr sts st it row gt with
    | done r =>
      rw [hi] at hc
      rw [tableItem_mono gr n m sts st it row gt r h hi]
      exact ih _ _ _ hc
    | diverge => rw [hi] at hc; simp at hc
    | undefined => rw [hi] at hc; simp at hc

theorem tableRows_mono (gr : Grammar) (n m : Nat) (sts : List (List Situation))
    (h : n ≤ m) :
    ∀ (todo : List (List Situation)) (v : List (CMap TableAction) × List (CMap Int)),
      tableRows n gr sts todo = .done v → tableRows m gr sts todo = .done v := by
  intro todo
  induction todo with
  | nil => intro v hc; simpa [tableRows] using hc
  | cons st rest ih =>
    intro v hc
    simp only [tableRows] at hc ⊢
    cases hi : tableItems n gr sts st st (initRow gr) (initGoto gr) with
    | done r =>
      rw [hi] at hc
      rw [tableItems_mono gr n m sts st h _ _ _ _ hi]
      simp only at hc ⊢
      cases hr : tableRows n gr sts rest with
      | done rs =>
        rw [hr] at hc
        rw [ih _ hr]
        exact hc
      | diverge => rw [hr] at hc; simp at hc
      | undefined => rw [hr] at hc; simp at hc
    | diverge => rw [hi] at hc; simp at hc
    | undefined => rw [hi] at hc; simp at hc

theorem MakeTable_mono (gr : Grammar) (n m : Nat) (t : LR1_algorithm) (h : n ≤ m)
    (hc : MakeTable n gr = .done t) : MakeTable m gr = .done t := by
  unfold MakeTable at hc ⊢
  cases hb : BuildGrammarStates n gr with
  | done sts =>
    rw [hb] at hc
    rw [BuildGrammarStates_mono gr n m sts h hb]
    simp only at hc ⊢
    cases hr : tableRows n gr sts sts with
    | done rs =>
      rw [hr] at hc
      rw [tableRows_mono gr n m sts h _ _ hr]
      exact hc
    | diverge => rw [hr] at hc; simp at hc
    | undefined => rw [hr] at hc; simp at hc
  | diverge => rw [hb] at hc; simp at hc
  | undefined => rw [hb] at hc; simp at hc

theorem checkLoop_mono (t : LR1_algorithm) (alph : List Char) (w : Str) :
    ∀ (n m : Nat) (i : Nat) (stk : List Int) (b : Bool), n ≤ m →
      checkLoop t alph w n i stk = .done b → checkLoop t alph w m i stk = .done b := by
  intro n
  induction n with
  | zero => intro m i stk b _ h; simp [checkLoop] at h
  | succ k ih =>
    intro m i stk b hle h
    obtain ⟨m', rfl⟩ : ∃ m', m = m' + 1 := ⟨m - 1, by omega⟩
    have hk : k ≤ m' := by omega
    simp only [checkLoop] at h ⊢
    by_cases hi : i < w.length
    · rw [if_pos hi] at h ⊢
      cases hs : checkStep t alph w i stk with
      | ret b' => rw [hs] at h; exact h
      | next i' stk' => rw [hs] at h; exact ih m' _ _ _ hk h
      | ub => rw [hs] at h; simp at h
    · rw [if_neg hi] at h ⊢
      exact h

theorem LR1_alg_mono (rules : List Str) (w : Str) (n m : Nat) (b : Bool) (h : n ≤ m)
    (hc : LR1_alg n rules w = .done b) : LR1_alg m rules w = .done b := by
  unfold LR1_alg at hc ⊢
  cases hm : MakeTable n (Grammar.ofRules rules) with
  | done t =>
    rw [hm] at hc
    rw [MakeTable_mono _ n m t h hm]
    exact checkLoop_mono t _ _ n m 0 [0] b h hc
  | diverge => rw [hm] at hc; simp at hc
  | undefined => rw [hm] at hc; simp at hc

/-! ## The grammar constructor -/

theorem char_eq_of_toNat_eq {a b : Char} (h : a.toNat = b.toNat) : a = b := by
  rw [← Char.ofNat_toNat a, ← Char.ofNat_toNat b, h]

theorem char_eq_of_not_lt {a b : Char} (h1 : charLt a b = false) (h2 : charLt b a = false) :
    a = b := by
  simp only [charLt, decide_eq_false_iff_not, not_lt] at h1 h2
  exact char_eq_of_toNat_eq (le_antisymm h2 h1)

theorem mem_charInsert (c x : Char) (l : List Char) :
    c ∈ charInsert x l ↔ c = x ∨ c ∈ l := by
  induction l with
  | nil => simp [charInsert]
  | cons y ys ih =>
    simp only [charInsert]
    cases h1 : charLt x y with
    | true => simp
    | false =>
      cases h2 : charLt y x with
      | true =>
        simp only [if_true, Bool.false_eq_true, if_false, List.mem_cons, ih]
        tauto
      | false =>
        have hxy : x = y := char_eq_of_not_lt h1 h2
        subst hxy
        simp

theorem CMap.get_set {V : Type} (m : CMap V) (k k' : Char) (v d : V) :
    (m.set k v).get k' d = if k = k' then v else m.get k' d := by
  induction m with
  | nil => simp [CMap.set, CMap.get]
  | cons p rest ih =>
    obtain ⟨kp, vp⟩ := p
    simp only [CMap.set]
    by_cases h1 : kp = k
    · rw [if_pos h1]
      by_cases h3 : k = k'
      · simp [CMap.get, h3]
      · have h4 : ¬ kp = k' := fun e => h3 (h1 ▸ e)
        simp [CMap.get, h3, h4]
    · rw [if_neg h1]
      by_cases h2 : charLt k kp = true
      · rw [if_pos h2]
        by_cases h3 : k = k'
        · simp [CMap.get, h3]
        · simp [CMap.get, h3]
      · rw [if_neg h2]
        by_cases h3 : k = k'
        · have h4 : ¬ kp = k' := fun e => h1 (e.trans h3.symm)
          simp only [CMap.get, if_neg h4, ih, if_pos h3]
        · simp only [CMap.get, ih, if_neg h3]

theorem get_setAll {V : Type} (keys : List Char) (v d : V) (k : Char) :
    ∀ m : CMap V, (setAll keys v m).get k d = if k ∈ keys then v else m.get k d := by
  induction keys with
  | nil => intro m; simp [setAll]
  | cons a rest ih =>
    intro m
    have h := ih (m.set a v)
    simp only [setAll, List.foldl_cons] at h ⊢
    rw [h, CMap.get_set]
    by_cases h1 : k ∈ rest
    · simp [h1]
    · by_cases h2 : a = k
      · subst h2; simp
      · have h3 : ¬ k = a := fun e => h2 e.symm
        simp [h1, h2, h3]

theorem grammarChar_grammar (first c : Char) (rest : Str) (g : Grammar) :
    (grammarChar first c rest g).grammar_ =
      if c = '>' then g.grammar_.set first (g.grammar_.get first [] ++ [rest])
      else g.grammar_ := by
  unfold grammarChar
  split_ifs <;> rfl

theorem grammarChar_non_terminal (first c : Char) (rest : Str) (g : Grammar) :
    (grammarChar first c rest g).alphabet_non_terminal_ =
      if IsNonTerminal c then charInsert c g.alphabet_non_terminal_
      else g.alphabet_non_terminal_ := by
  unfold grammarChar
  split_ifs <;> rfl

theorem grammarChar_terminal (first c : Char) (rest : Str) (g : Grammar) :
    (grammarChar first c rest g).alphabet_terminal_ =
      if IsTerminal c then charInsert c g.alphabet_terminal_
      else g.alphabet_terminal_ := by
  unfold grammarChar
  split_ifs <;> rfl

theorem grammarRule_grammar_of_no_sep (first : Char) :
    ∀ (rule : Str) (g : Grammar), '>' ∉ rule → (grammarRule first rule g).grammar_ = g.grammar_ := by
  intro rule
  induction rule with
  | nil => intro g _; rfl
  | cons c rest ih =>
    intro g h
    simp only [List.mem_cons, not_or] at h
    simp only [grammarRule]
    rw [ih _ h.2, grammarChar_grammar, if_neg (fun e => h.1 e.symm)]

theorem mem_grammarRule_non_terminal (first c : Char) :
    ∀ (rule : Str) (g : Grammar),
      c ∈ (grammarRule first rule g).alphabet_non_terminal_ ↔
        c ∈ g.alphabet_non_terminal_ ∨ (IsNonTerminal c = true ∧ c ∈ rule) := by
  intro rule
  induction rule with
  | nil => intro g; simp [grammarRule]
  | cons a rest ih =>
    intro g
    simp only [grammarRule, ih, grammarChar_non_terminal, List.mem_cons]
    by_cases h : IsNonTerminal a = true
    · simp only [h, if_true, mem_charInsert]
      constructor
      · rintro ((rfl | h1) | h2)
        · exact Or.inr ⟨h, Or.inl rfl⟩
        · exact Or.inl h1
        · exact Or.inr ⟨h2.1, Or.inr h2.2⟩
      · rintro (h1 | ⟨h2, rfl | h3⟩)
        · exact Or.inl (Or.inr h1)
        · exact Or.inl (Or.inl rfl)
        · exact Or.inr ⟨h2, h3⟩
    · simp only [h, if_false]
      constructor
      · rintro (h1 | h2)
        · exact Or.inl h1
        · exact Or.inr ⟨h2.1, Or.inr h2.2⟩
      · rintro (h1 | ⟨h2, rfl | h3⟩)
        · exact Or.inl h1
        · exact absurd h2 h
        · exact Or.inr ⟨h2, h3⟩

theorem mem_grammarRule_terminal (first c : Char) :
    ∀ (rule : Str) (g : Grammar),
      c ∈ (grammarRule first rule g).alphabet_terminal_ ↔
        c ∈ g.alphabet_terminal_ ∨ (IsTerminal c = true ∧ c ∈ rule) := by
  intro rule
  induction rule with
  | nil => intro g; simp [grammarRule]
  | cons a rest ih =>
    intro g
    simp only [grammarRule, ih, grammarChar_terminal, List.mem_cons]
    by_cases h : IsTerminal a = true
    · simp only [h, if_true, mem_charInsert]
      constructor
      · rintro ((rfl | h1) | h2)
        · exact Or.inr ⟨h, Or.inl rfl⟩
        · exact Or.inl h1
        · exact Or.inr ⟨h2.1, Or.inr h2.2⟩
      · rintro (h1 | ⟨h2, rfl | h3⟩)
        · exact Or.inl (Or.inr h1)
        · exact Or.inl (Or.inl rfl)
        · exact Or.inr ⟨h2, h3⟩
    · simp only [h, if_false]
      constructor
      · rintro (h1 | h2)
        · exact Or.inl h1
        · exact Or.inr ⟨h2.1, Or.inr h2.2⟩
      · rintro (h1 | ⟨h2, rfl | h3⟩)
        · exact Or.inl h1
        · exact absurd h2 h
        · exact Or.inr ⟨h2, h3⟩

/-- The fold of `Grammar::Grammar` from an arbitrary grammar `g`. -/
theorem mem_foldl_non_terminal (c : Char) :
    ∀ (rules : List Str) (g : Grammar),
      c ∈ (rules.foldl (fun g rule => grammarRule (rule.headD nul) rule g) g).alphabet_non_terminal_
        ↔ c ∈ g.alphabet_non_terminal_ ∨ (IsNonTerminal c = true ∧ ∃ r ∈ rules, c ∈ r) := by
  intro rules
  induction rules with
  | nil => intro g; simp
  | cons r rest ih =>
    intro g
    simp only [List.foldl_cons, ih, mem_grammarRule_non_terminal, List.mem_cons,
      exists_eq_or_imp]
    tauto

theorem mem_foldl_terminal (c : Char) :
    ∀ (rules : List Str) (g : Grammar),
      c ∈ (rules.foldl (fun g rule => grammarRule (rule.headD nul) rule g) g).alphabet_terminal_
        ↔ c ∈ g.alphabet_terminal_ ∨ (IsTerminal c = true ∧ ∃ r ∈ rules, c ∈ r) := by
  intro rules
  induction rules with
  | nil => intro g; simp
  | cons r rest ih =>
    intro g
    simp only [List.foldl_cons, ih, mem_grammarRule_terminal, List.mem_cons,
      exists_eq_or_imp]
    tauto

theorem mem_alphabet_non_terminal (rules : List Str) (c : Char) :
    c ∈ (Grammar.ofRules rules).alphabet_non_terminal_ ↔
      IsNonTerminal c = true ∧ ∃ r ∈ rules, c ∈ r := by
  unfold Grammar.ofRules
  rw [mem_foldl_non_terminal]
  simp

theorem mem_alphabet_terminal (rules : List Str) (c : Char) :
    c ∈ (Grammar.ofRules rules).alphabet_terminal_ ↔
      IsTerminal c = true ∧ ∃ r ∈ rules, c ∈ r := by
  unfold Grammar.ofRules
  rw [mem_foldl_terminal]
  simp

theorem foldl_grammar_of_no_sep :
    ∀ (rules : List Str) (g : Grammar), (∀ r ∈ rules, '>' ∉ r) →
      (rules.foldl (fun g rule => grammarRule (rule.headD nul) rule g) g).grammar_
        = g.grammar_ := by
  intro rules
  induction rules with
  | nil => intro g _; rfl
  | cons r rest ih =>
    intro g h
    simp only [List.foldl_cons]
    rw [ih _ (fun r' hr' => h r' (List.mem_cons_of_mem _ hr')),
      grammarRule_grammar_of_no_sep _ _ _ (h r (List.mem_cons_self _ _))]

theorem grammarRule_grammar_of_form (L : Char) (R : Str) (g : Grammar)
    (hL : L ≠ '>') (hR : '>' ∉ R) :
    (grammarRule L (L :: '-' :: '>' :: R) g).grammar_ =
      g.grammar_.set L (g.grammar_.get L [] ++ [R]) := by
  simp only [grammarRule]
  rw [grammarRule_grammar_of_no_sep _ _ _ hR]
  rw [grammarChar_grammar, if_pos rfl, grammarChar_grammar, if_neg (by decide),
    grammarChar_grammar, if_neg hL]

theorem foldl_grammar_get (c : Char) :
    ∀ (rules : List Str) (g : Grammar), (∀ r ∈ rules, RuleForm r ∧ r.headD nul ≠ '>') →
      (rules.foldl (fun g rule => grammarRule (rule.headD nul) rule g) g).grammar_.get c []
        = g.grammar_.get c [] ++ rhsOf c rules := by
  intro rules
  induction rules with
  | nil => intro g _; simp [rhsOf]
  | cons r rest ih =>
    intro g h
    obtain ⟨⟨L, R, rfl, hR⟩, hL⟩ := h _ (List.mem_cons_self _ _)
    simp only [List.headD_cons] at hL
    simp only [List.foldl_cons, List.headD_cons]
    rw [ih _ (fun r' hr' => h r' (List.mem_cons_of_mem _ hr')),
      grammarRule_grammar_of_form L R g hL hR, CMap.get_set]
    by_cases hc : L = c
    · subst hc
      simp [rhsOf, List.filterMap_cons]
    · simp [rhsOf, List.filterMap_cons, hc]

theorem grammarRule_grammar_congr (first : Char) :
    ∀ (rule : Str) (g g' : Grammar), g.grammar_ = g'.grammar_ →
      (grammarRule first rule g).grammar_ = (grammarRule first rule g').grammar_ := by
  intro rule
  induction rule with
  | nil => intro g g' h; exact h
  | cons c rest ih =>
    intro g g' h
    simp only [grammarRule]
    apply ih
    rw [grammarChar_grammar, grammarChar_grammar, h]

theorem foldl_grammar_congr :
    ∀ (rules : List Str) (g g' : Grammar), g.grammar_ = g'.grammar_ →
      (rules.foldl (fun g rule => grammarRule (rule.headD nul) rule g) g).grammar_ =
        (rules.foldl (fun g rule => grammarRule (rule.headD nul) rule g) g').grammar_ := by
  intro rules
  induction rules with
  | nil => intro g g' h; exact h
  | cons r rest ih =>
    intro g g' h
    simp only [List.foldl_cons]
    exact ih _ _ (grammarRule_grammar_congr _ r g g' h)

/-- A rule without `'>'` contributes no production: leaving it out of the rule list
does not change the production map. -/
theorem ofRules_grammar_drop_no_sep (pre post : List Str) (rule : Str) (h : '>' ∉ rule) :
    (Grammar.ofRules (pre ++ rule :: post)).grammar_ =
      (Grammar.ofRules (pre ++ post)).grammar_ := by
  unfold Grammar.ofRules
  rw [List.foldl_append, List.foldl_append, List.foldl_cons]
  exact foldl_grammar_congr post _ _ (grammarRule_grammar_of_no_sep _ rule _ h)

/-! ## Runs that never finish -/

/-- A list of configurations closed under the loop body is never left: the loop of
`CheckForAccess` started inside it runs out of any fuel. -/
theorem checkLoop_diverges_of_closed (t : LR1_algorithm) (alph : List Char) (w : Str)
    (L : List (Nat × List Int)) (hL : closedUnderStep t alph w L = true) :
    ∀ (fuel i : Nat) (stk : List Int), (i, stk) ∈ L →
      checkLoop t alph w fuel i stk = .diverge := by
  intro fuel
  induction fuel with
  | zero => intro i stk _; rfl
  | succ k ih =>
    intro i stk hmem
    have h := (List.all_eq_true.mp hL) (i, stk) hmem
    simp only [Bool.and_eq_true, decide_eq_true_eq] at h
    obtain ⟨hlt, hstep⟩ := h
    simp only [checkLoop, if_pos hlt]
    cases hs : checkStep t alph w i stk with
    | ret b => rw [hs] at hstep; simp at hstep
    | ub => rw [hs] at hstep; simp at hstep
    | next i' stk' =>
      rw [hs] at hstep
      simp only at hstep ⊢
      exact ih i' stk' (by simpa using hstep)

/-- When the build finishes on fuel `k` and the recognizer started on the tables is
caught in a closed list of configurations, `LR1_alg` runs out of every fuel. -/
theorem LR1_alg_diverges (rules : List Str) (w : Str) (k : Nat)
    (L : List (Nat × List Int))
    (hsmall : ∀ n, n < k → LR1_alg n rules w = .diverge)
    (hbuild : MakeTable k (Grammar.ofRules rules) = .done (tablesOf k rules))
    (hL : closedUnderStep (tablesOf k rules) (Grammar.ofRules rules).alphabet_terminal_
      (w ++ [EndPtr]) L = true)
    (h0 : ((0 : Nat), [(0 : Int)]) ∈ L) (fuel : Nat) :
    LR1_alg fuel rules w = .diverge := by
  by_cases hf : fuel < k
  · exact hsmall fuel hf
  · unfold LR1_alg
    rw [MakeTable_mono _ k fuel _ (by omega) hbuild]
    exact checkLoop_diverges_of_closed _ _ _ L hL fuel 0 [0] h0

theorem closureFor_ne_undefined (g : CMap (List Str)) :
    ∀ (n : Nat) (it : Option Situation) (st : List Situation) (fl : Bool),
      closureFor g n it st fl ≠ .undefined := by
  intro n
  induction n with
  | zero => intro it st fl; cases it <;> simp [closureFor]
  | succ k ih =>
    intro it st fl
    cases it with
    | none => simp [closureFor]
    | some x => simp only [closureFor]; exact ih _ _ _

/-- The outcome of a pass of the `for` loop of `Closure` does not depend on the fuel,
short of running out of it. -/
theorem closureFor_det (g : CMap (List Str)) (k n : Nat) (it : Option Situation)
    (st : List Situation) (fl : Bool) (v : List Situation × Bool)
    (h : closureFor g k it st fl = .done v) :
    closureFor g n it st fl = .done v ∨ closureFor g n it st fl = .diverge := by
  cases hc : closureFor g n it st fl with
  | diverge => exact Or.inr rfl
  | undefined => exact absurd hc (closureFor_ne_undefined g n it st fl)
  | done r =>
    have h1 := closureFor_mono g k (max k n) _ _ _ _ (le_max_left _ _) h
    have h2 := closureFor_mono g n (max k n) _ _ _ _ (le_max_right _ _) hc
    rw [h1] at h2
    cases h2
    exact Or.inl rfl

/-- When one pass of the `for` loop turns `st` into `st'` with the flag set and the
`do ... while` loop never finishes from `st'`, it never finishes from `st`. -/
theorem closureLoop_diverges_step (g : CMap (List Str)) (st st' : List Situation) (k : Nat)
    (hpass : closureFor g k st.head? st false = .done (st', true))
    (hnext : ∀ fuel, closureLoop g fuel st' = .diverge) :
    ∀ fuel, closureLoop g fuel st = .diverge := by
  intro fuel
  cases fuel with
  | zero => rfl
  | succ n =>
    simp only [closureLoop]
    rcases closureFor_det g k (n + 1) _ _ _ _ hpass with h | h
    · rw [h]; simpa using hnext n
    · rw [h]

/-- A set on which one pass of the `for` loop sets the flag and changes nothing keeps
the `do ... while` loop of `Closure` going on every fuel. -/
theorem closureLoop_diverges (g : CMap (List Str)) (st : List Situation) (k : Nat)
    (hpass : closureFor g k st.head? st false = .done (st, true)) :
    ∀ fuel, closureLoop g fuel st = .diverge := by
  intro fuel
  induction fuel with
  | zero => rfl
  | succ n ih =>
    simp only [closureLoop]
    rcases closureFor_det g k (n + 1) _ _ _ _ hpass with h | h
    · rw [h]; simpa using ih
    · rw [h]

/-! ## What the automaton and the tables hold -/

theorem mem_setInsert (it x : Situation) (l : List Situation)
    (h : it ∈ (setInsert x l).1) : it = x ∨ it ∈ l := by
  induction l with
  | nil => simpa [setInsert] using h
  | cons y ys ih =>
    simp only [setInsert] at h
    split_ifs at h with h1 h2
    · simp only [List.mem_cons] at h ⊢
      exact h
    · simp only [List.mem_cons] at h ⊢
      rcases h with h | h
      · exact Or.inr (Or.inl h)
      · rcases ih h with h' | h'
        · exact Or.inl h'
        · exact Or.inr (Or.inr h')
    · exact Or.inr h

theorem mem_revealRules (N : Char) (it : Situation) :
    ∀ (rules : List Str) (st : List Situation) (fl : Bool),
      it ∈ (revealRules N rules st fl).1 →
        it ∈ st ∨ (it.dot_pos = 0 ∧ it.non_terminal = N ∧ it.rule ∈ rules) := by
  intro rules
  induction rules with
  | nil => intro st fl h; exact Or.inl h
  | cons r rest ih =>
    intro st fl h
    simp only [revealRules] at h
    rcases ih _ _ h with h1 | ⟨h1, h2, h3⟩
    · rcases mem_setInsert _ _ _ h1 with rfl | h4
      · exact Or.inr ⟨rfl, rfl, List.mem_cons_self _ _⟩
      · exact Or.inl h4
    · exact Or.inr ⟨h1, h2, List.mem_cons_of_mem _ h3⟩

theorem mem_closureVisit (g : CMap (List Str)) (x it : Situation) (st : List Situation)
    (fl : Bool) (h : it ∈ (closureVisit g x st fl).1) : it ∈ st ∨ Added g it := by
  unfold closureVisit at h
  dsimp only at h
  split_ifs at h with h1 h2
  · rcases mem_revealRules _ _ _ _ _ h with h3 | ⟨h3, h4, h5⟩
    · exact Or.inl h3
    · refine Or.inr ⟨h3, ?_, ?_⟩
      · rw [h4]; exact h2
      · rw [h4]; exact h5
  · exact Or.inl h
  · exact Or.inl h

/-- Whatever holds of the items given to a pass of the `for` loop of `Closure` and of
the items `Closure` makes, holds of the items the pass returns. -/
theorem closureFor_forall (g : CMap (List Str)) (P : Situation → Prop)
    (hP : ∀ it, Added g it → P it) :
    ∀ (n : Nat) (cur : Option Situation) (st : List Situation) (fl : Bool)
      (r : List Situation × Bool), (∀ it ∈ st, P it) →
      closureFor g n cur st fl = .done r → ∀ it ∈ r.1, P it := by
  intro n
  induction n with
  | zero =>
    intro cur st fl r hst h
    cases cur with
    | none => simp only [closureFor, Outcome.done.injEq] at h; subst h; exact hst
    | some x => simp [closureFor] at h
  | succ k ih =>
    intro cur st fl r hst h
    cases cur with
    | none => simp only [closureFor, Outcome.done.injEq] at h; subst h; exact hst
    | some x =>
      simp only [closureFor] at h
      refine ih _ _ _ r ?_ h
      intro it hit
      rcases mem_closureVisit g x it st fl hit with h1 | h1
      · exact hst it h1
      · exact hP it h1

theorem closureLoop_forall (g : CMap (List Str)) (P : Situation → Prop)
    (hP : ∀ it, Added g it → P it) :
    ∀ (n : Nat) (st r : List Situation), (∀ it ∈ st, P it) →
      closureLoop g n st = .done r → ∀ it ∈ r, P it := by
  intro n
  induction n with
  | zero => intro st r _ h; simp [closureLoop] at h
  | succ k ih =>
    intro st r hst h
    simp only [closureLoop] at h
    cases hc : closureFor g (k + 1) st.head? st false with
    | done v =>
      rw [hc] at h
      obtain ⟨st', fl⟩ := v
      have hst' := closureFor_forall g P hP _ _ _ _ _ hst hc
      cases fl with
      | true => simp only [if_true] at h; exact ih _ _ hst' h
      | false =>
        simp only [Bool.false_eq_true, if_false, Outcome.done.injEq] at h
        subst h; exact hst'
    | diverge => rw [hc] at h; simp at h
    | undefined => rw [hc] at h; simp at h

/-- Every item of a returned closure is an item of the input or one made by `Closure`. -/
theorem Closure_mem (g : CMap (List Str)) (n : Nat) (st r : List Situation)
    (h : Closure n g st = .done r) : ∀ it ∈ r, it ∈ st ∨ Added g it :=
  closureLoop_forall g (fun it => it ∈ st ∨ Added g it) (fun _ h => Or.inr h) n st r
    (fun _ h => Or.inl h) h

theorem mem_advance (X : Char) (it : Situation) :
    ∀ (I acc : List Situation), it ∈ advance X I acc →
      it ∈ acc ∨ ∃ it0 ∈ I, it0.dot_pos < it0.rule.length ∧
        it0.rule.getD it0.dot_pos nul = X ∧
        it = ⟨it0.non_terminal, it0.rule, it0.dot_pos + 1⟩ := by
  intro I
  induction I with
  | nil => intro acc h; exact Or.inl h
  | cons x rest ih =>
    intro acc h
    simp only [advance] at h
    split_ifs at h with h1
    · simp only [Bool.and_eq_true, decide_eq_true_eq] at h1
      rcases ih _ h with h2 | ⟨it0, h3, h4⟩
      · rcases mem_setInsert _ _ _ h2 with rfl | h5
        · exact Or.inr ⟨x, List.mem_cons_self _ _, h1.1, h1.2, rfl⟩
        · exact Or.inl h5
      · exact Or.inr ⟨it0, List.mem_cons_of_mem _ h3, h4⟩
    · rcases ih _ h with h2 | ⟨it0, h3, h4⟩
      · exact Or.inl h2
      · exact Or.inr ⟨it0, List.mem_cons_of_mem _ h3, h4⟩

theorem findState_get (x : List Situation) :
    ∀ (l : List (List Situation)) (i t : Nat), findState x l i = some t →
      i ≤ t ∧ l.get? (t - i) = some x := by
  intro l
  induction l with
  | nil => intro i t h; simp [findState] at h
  | cons y ys ih =>
    intro i t h
    simp only [findState] at h
    split_ifs at h with h1
    · simp only [Option.some.injEq] at h
      subst h; subst h1
      simp
    · obtain ⟨h2, h3⟩ := ih _ _ h
      refine ⟨by omega, ?_⟩
      have : t - i = (t - (i + 1)) + 1 := by omega
      rw [this]
      simpa using h3

theorem not_isNonTerminal_fake_start : IsNonTerminal fake_start = false := by decide

/-- The closure of the items of `I` moved over `X` is entered from `I` over `X`. -/
theorem Link_of_Closure (g : CMap (List Str)) (n : Nat) (I : List Situation) (X : Char)
    (closed : List Situation) (h : Closure n g (advance X I []) = .done closed) :
    Link I X closed := by
  intro it hit
  rcases Closure_mem g n _ _ h it hit with h1 | ⟨h1, h2, _⟩
  · rcases mem_advance X it I [] h1 with h2 | ⟨it0, h3, h4, h5, h6⟩
    · simp at h2
    · subst h6
      exact Or.inr ⟨it0.dot_pos, rfl, h4, h5, h3⟩
  · refine Or.inl ⟨h1, ?_⟩
    intro e
    rw [e, not_isNonTerminal_fake_start] at h2
    cases h2

/-- The `int` that `GoTo` returns is `-1` or the index of a state entered from
`exit_state` over `symbol`. -/
theorem GoTo_target (g : CMap (List Str)) (n : Nat) (states : List (List Situation))
    (I : List Situation) (X : Char) (ns ns' : List (List Situation)) (ins : Bool) (v : Int)
    (h : GoTo n g states I X ns ins = .done (some v, ns')) : GoodTarget states I X v := by
  unfold GoTo at h
  by_cases h1 : advance X I [] ≠ []
  · rw [if_pos h1] at h
    cases hc : Closure n g (advance X I []) with
    | done closed =>
      rw [hc] at h
      simp only at h
      cases hf : findState closed states 0 with
      | some t =>
        rw [hf] at h
        simp only [Outcome.done.injEq, Prod.mk.injEq, Option.some.injEq] at h
        have hg := (findState_get closed states 0 t hf).2
        exact Or.inr ⟨t, closed, h.1.symm, by simpa using hg, Link_of_Closure g n I X closed hc⟩
      | none =>
        rw [hf] at h
        simp only [Outcome.done.injEq, Prod.mk.injEq, Option.some.injEq] at h
        exact Or.inl h.1.symm
    | diverge => rw [hc] at h; simp at h
    | undefined => rw [hc] at h; simp at h
  · rw [if_neg h1] at h
    simp at h

theorem ItemOK_of_Added (g : CMap (List Str)) (it : Situation) (h : Added g it) :
    ItemOK g it := by
  obtain ⟨h1, h2, h3⟩ := h
  exact ⟨by omega, Or.inr ⟨h2, h3⟩⟩

theorem advance_ItemOK (g : CMap (List Str)) (X : Char) (I : List Situation)
    (hI : ∀ it ∈ I, ItemOK g it) : ∀ it ∈ advance X I [], ItemOK g it := by
  intro it hit
  rcases mem_advance X it I [] hit with h | ⟨it0, h1, h2, _, h4⟩
  · simp at h
  · subst h4
    obtain ⟨_, h6⟩ := hI it0 h1
    exact ⟨h2, h6⟩

theorem Closure_ItemOK (g : CMap (List Str)) (n : Nat) (st r : List Situation)
    (hst : ∀ it ∈ st, ItemOK g it) (h : Closure n g st = .done r) :
    ∀ it ∈ r, ItemOK g it :=
  closureLoop_forall g (ItemOK g) (ItemOK_of_Added g) n st r hst h

theorem GoTo_new_states_ok (g : CMap (List Str)) (n : Nat) (states : List (List Situation))
    (I : List Situation) (X : Char) (ns : List (List Situation)) (ins : Bool)
    (r : Option Int × List (List Situation))
    (hI : ∀ it ∈ I, ItemOK g it) (hns : ∀ J ∈ ns, ∀ it ∈ J, ItemOK g it)
    (h : GoTo n g states I X ns ins = .done r) : ∀ J ∈ r.2, ∀ it ∈ J, ItemOK g it := by
  unfold GoTo at h
  by_cases h1 : advance X I [] ≠ []
  · rw [if_pos h1] at h
    cases hc : Closure n g (advance X I []) with
    | done closed =>
      rw [hc] at h
      simp only at h
      have hcl := Closure_ItemOK g n _ _ (advance_ItemOK g X I hI) hc
      cases hf : findState closed states 0 with
      | some t =>
        rw [hf] at h
        simp only [Outcome.done.injEq] at h
        subst h; exact hns
      | none =>
        rw [hf] at h
        simp only [Outcome.done.injEq] at h
        subst h
        simp only
        split_ifs
        · intro J hJ
          simp only [List.mem_append, List.mem_singleton] at hJ
          rcases hJ with hJ | rfl
          · exact hns J hJ
          · exact hcl
        · exact hns
    | diverge => rw [hc] at h; simp at h
    | undefined => rw [hc] at h; simp at h
  · rw [if_neg h1] at h
    simp only [Outcome.done.injEq] at h
    subst h; exact hns

theorem sweepSymbols_ok (g : CMap (List Str)) (n : Nat) (states : List (List Situation))
    (I : List Situation) (hI : ∀ it ∈ I, ItemOK g it) :
    ∀ (cs : List Char) (ns r : List (List Situation)),
      (∀ J ∈ ns, ∀ it ∈ J, ItemOK g it) →
      sweepSymbols n g states I cs ns = .done r → ∀ J ∈ r, ∀ it ∈ J, ItemOK g it := by
  intro cs
  induction cs with
  | nil =>
    intro ns r hns h
    simp only [sweepSymbols, Outcome.done.injEq] at h
    subst h; exact hns
  | cons c rest ih =>
    intro ns r hns h
    simp only [sweepSymbols] at h
    cases hg : GoTo n g states I c ns true with
    | done v =>
      rw [hg] at h
      exact ih _ _ (GoTo_new_states_ok g n states I c ns true v hI hns hg) h
    | diverge => rw [hg] at h; simp at h
    | undefined => rw [hg] at h; simp at h

theorem sweepStates_ok (gr : Grammar) (n : Nat) (states : List (List Situation)) :
    ∀ (todo : List (List Situation)) (ns r : List (List Situation)),
      (∀ I ∈ todo, ∀ it ∈ I, ItemOK gr.grammar_ it) →
      (∀ J ∈ ns, ∀ it ∈ J, ItemOK gr.grammar_ it) →
      sweepStates n gr states todo ns = .done r →
      ∀ J ∈ r, ∀ it ∈ J, ItemOK gr.grammar_ it := by
  intro todo
  induction todo with
  | nil =>
    intro ns r _ hns h
    simp only [sweepStates, Outcome.done.injEq] at h
    subst h; exact hns
  | cons I rest ih =>
    intro ns r htodo hns h
    have hI := htodo I (List.mem_cons_self _ _)
    simp only [sweepStates] at h
    cases h1 : sweepSymbols n gr.grammar_ states I gr.alphabet_non_terminal_ ns with
    | done ns1 =>
      rw [h1] at h
      simp only at h
      have hns1 := sweepSymbols_ok _ n states I hI _ _ _ hns h1
      cases h2 : sweepSymbols n gr.grammar_ states I gr.alphabet_terminal_ ns1 with
      | done ns2 =>
        rw [h2] at h
        have hns2 := sweepSymbols_ok _ n states I hI _ _ _ hns1 h2
        exact ih _ _ (fun J hJ => htodo J (List.mem_cons_of_mem _ hJ)) hns2 h
      | diverge => rw [h2] at h; simp at h
      | undefined => rw [h2] at h; simp at h
    | diverge => rw [h1] at h; simp at h
    | undefined => rw [h1] at h; simp at h

theorem buildLoop_ok (gr : Grammar) :
    ∀ (n : Nat) (states r : List (List Situation)), StatesOK gr.grammar_ states →
      buildLoop gr n states = .done r → StatesOK gr.grammar_ r := by
  intro n
  induction n with
  | zero => intro states r _ h; simp [buildLoop] at h
  | succ k ih =>
    intro states r hs h
    simp only [buildLoop] at h
    cases hsw : sweepStates (k + 1) gr states states [] with
    | done ns =>
      rw [hsw] at h
      simp only at h
      have hns := sweepStates_ok gr (k + 1) states states [] ns hs.1 (by simp) hsw
      split_ifs at h with he
      · simp only [Outcome.done.injEq] at h
        subst h; exact hs
      · refine ih _ _ ?_ h
        obtain ⟨hall, I0, rest, hst, h0⟩ := hs
        refine ⟨?_, I0, rest ++ ns, by rw [hst]; simp, h0⟩
        intro I hI
        simp only [List.mem_append] at hI
        rcases hI with hI | hI
        · exact hall I hI
        · exact hns I hI
    | diverge => rw [hsw] at h; simp at h
    | undefined => rw [hsw] at h; simp at h

/-- The states `BuildGrammarStates` returns hold only well-formed items, and the first
of them only items with the dot at `0`. -/
theorem BuildGrammarStates_ok (gr : Grammar) (n : Nat) (states : List (List Situation))
    (h : BuildGrammarStates n gr = .done states) : StatesOK gr.grammar_ states := by
  unfold BuildGrammarStates at h
  cases hc : Closure n gr.grammar_ [⟨fake_start, ['S'], 0⟩] with
  | done s0 =>
    rw [hc] at h
    simp only at h
    refine buildLoop_ok gr n [s0] states ⟨?_, s0, [], rfl, ?_⟩ h
    · intro I hI
      simp only [List.mem_singleton] at hI
      subst hI
      refine Closure_ItemOK _ n _ _ ?_ hc
      intro it hit
      simp only [List.mem_singleton] at hit
      subst hit
      exact ⟨by simp, Or.inl ⟨rfl, rfl⟩⟩
    · refine closureLoop_forall _ (fun it => it.dot_pos = 0) (fun _ h => h.1) n _ _ ?_ hc
      intro it hit
      simp only [List.mem_singleton] at hit
      subst hit
      rfl
  | diverge => rw [hc] at h; simp at h
  | undefined => rw [hc] at h; simp at h

theorem findRule_get (r : Str) :
    ∀ (l : List Str) (i k : Nat), findRule r l i = some k →
      i ≤ k ∧ l.get? (k - i) = some r := by
  intro l
  induction l with
  | nil => intro i k h; simp [findRule] at h
  | cons y ys ih =>
    intro i k h
    simp only [findRule] at h
    split_ifs at h with h1
    · simp only [Option.some.injEq] at h
      subst h; subst h1
      simp
    · obtain ⟨h2, h3⟩ := ih _ _ h
      refine ⟨by omega, ?_⟩
      have : k - i = (k - (i + 1)) + 1 := by omega
      rw [this]
      simpa using h3

theorem initRow_ok (gr : Grammar) (states : List (List Situation)) (I : List Situation) :
    RowOK gr states I (initRow gr) := by
  intro c hc
  have : (initRow gr).get c defaultCell = errorCell := by
    unfold initRow
    rw [CMap.get_set, get_setAll]
    rcases hc with rfl | hc
    · simp
    · simp [hc]
  rw [this]
  simp [CellOK, errorCell]

theorem initGoto_ok (gr : Grammar) (states : List (List Situation)) (I : List Situation) :
    GotoRowOK gr states I (initGoto gr) := by
  intro N hN
  have : (initGoto gr).get N 0 = -1 := by
    unfold initGoto
    rw [get_setAll]
    simp [hN]
  rw [this]
  exact Or.inl rfl

/-- Handling one item of the state keeps the row of the action table and the row of the
goto table faithful to the state. -/
theorem tableItem_ok (gr : Grammar) (n : Nat) (states : List (List Situation))
    (I : List Situation) (it : Situation) (hit : it ∈ I)
    (row : CMap TableAction) (gt : CMap Int) (r : CMap TableAction × CMap Int)
    (hrow : RowOK gr states I row) (hgt : GotoRowOK gr states I gt)
    (h : tableItem n gr states I it row gt = .done r) :
    RowOK gr states I r.1 ∧ GotoRowOK gr states I r.2 := by
  unfold tableItem at h
  by_cases h1 : it.dot_pos = it.rule.length
  · rw [if_pos h1] at h
    by_cases h2 : it.non_terminal ≠ fake_start
    · rw [if_pos h2] at h
      cases hf : FindRuleNumber gr.grammar_ it with
      | none => rw [hf] at h; simp at h
      | some k =>
        rw [hf] at h
        simp only [Outcome.done.injEq] at h
        subst h
        refine ⟨?_, hgt⟩
        intro c hc
        have hget : ((setAll gr.alphabet_terminal_
            (⟨.REDUCE, (k : Int), it.non_terminal⟩ : TableAction) row).set EndPtr
            ⟨.REDUCE, (k : Int), it.non_terminal⟩).get c defaultCell =
            ⟨.REDUCE, (k : Int), it.non_terminal⟩ := by
          rw [CMap.get_set, get_setAll]
          rcases hc with rfl | hc
          · simp
          · simp [hc]
        simp only
        rw [hget]
        have hk := (findRule_get it.rule _ 0 k hf).2
        simp only [CellOK]
        exact ⟨it, hit, h1, h2, rfl, k, rfl, by simpa using hk⟩
    · rw [if_neg h2] at h
      simp only [Outcome.done.injEq] at h
      subst h
      refine ⟨?_, hgt⟩
      intro c hc
      simp only
      rw [CMap.get_set]
      split_ifs with he
      · simp only [CellOK, acceptCell]
        exact ⟨it, hit, h1, by simpa using h2⟩
      · exact hrow c hc
  · rw [if_neg h1] at h
    by_cases h2 : it.rule.length < it.dot_pos
    · rw [if_pos h2] at h; simp at h
    · rw [if_neg h2] at h
      simp only at h
      cases hg : GoTo n gr.grammar_ states I (it.rule.getD it.dot_pos nul) states false with
      | diverge => rw [hg] at h; simp at h
      | undefined => rw [hg] at h; simp at h
      | done res =>
        rw [hg] at h
        obtain ⟨ov, ns'⟩ := res
        cases ov with
        | none => simp at h
        | some v =>
          simp only [Outcome.done.injEq] at h
          subst h
          have htar := GoTo_target _ n states I _ states ns' false v hg
          constructor
          · intro c hc
            simp only
            split_ifs with ht
            · rw [CMap.get_set]
              split_ifs with he
              · subst he
                simp only [CellOK]
                exact ⟨ht, htar⟩
              · exact hrow c hc
            · exact hrow c hc
          · intro N hN
            simp only
            split_ifs with hnt
            · rw [CMap.get_set]
              split_ifs with he
              · subst he
                exact htar
              · exact hgt N hN
            · exact hgt N hN

theorem tableItems_ok (gr : Grammar) (n : Nat) (states : List (List Situation))
    (I : List Situation) :
    ∀ (its : List Situation) (row : CMap TableAction) (gt : CMap Int)
      (r : CMap TableAction × CMap Int), (∀ it ∈ its, it ∈ I) →
      RowOK gr states I row → GotoRowOK gr states I gt →
      tableItems n gr states I its row gt = .done r →
      RowOK gr states I r.1 ∧ GotoRowOK gr states I r.2 := by
  intro its
  induction its with
  | nil =>
    intro row gt r _ hrow hgt h
    simp only [tableItems, Outcome.done.injEq] at h
    subst h; exact ⟨hrow, hgt⟩
  | cons it rest ih =>
    intro row gt r hsub hrow hgt h
    simp only [tableItems] at h
    cases hi : tableItem n gr states I it row gt with
    | done v =>
      rw [hi] at h
      obtain ⟨h1, h2⟩ := tableItem_ok gr n states I it (hsub it (List.mem_cons_self _ _))
        row gt v hrow hgt hi
      exact ih _ _ _ (fun x hx => hsub x (List.mem_cons_of_mem _ hx)) h1 h2 h
    | diverge => rw [hi] at h; simp at h
    | undefined => rw [hi] at h; simp at h

theorem tableRows_ok (gr : Grammar) (n : Nat) (states : List (List Situation)) :
    ∀ (todo : List (List Situation)) (r : List (CMap TableAction) × List (CMap Int)),
      tableRows n gr states todo = .done r →
      List.Forall₂ (RowOK gr states) todo r.1 ∧ List.Forall₂ (GotoRowOK gr states) todo r.2 := by
  intro todo
  induction todo with
  | nil =>
    intro r h
    simp only [tableRows, Outcome.done.injEq] at h
    subst h; exact ⟨List.Forall₂.nil, List.Forall₂.nil⟩
  | cons I rest ih =>
    intro r h
    simp only [tableRows] at h
    cases hi : tableItems n gr states I I (initRow gr) (initGoto gr) with
    | done v =>
      rw [hi] at h
      simp only at h
      obtain ⟨h1, h2⟩ := tableItems_ok gr n states I I _ _ v (fun _ hx => hx)
        (initRow_ok gr states I) (initGoto_ok gr states I) hi
      cases hr : tableRows n gr states rest with
      | done rs =>
        rw [hr] at h
        simp only [Outcome.done.injEq] at h
        subst h
        obtain ⟨h3, h4⟩ := ih rs hr
        exact ⟨List.Forall₂.cons h1 h3, List.Forall₂.cons h2 h4⟩
      | diverge => rw [hr] at h; simp at h
      | undefined => rw [hr] at h; simp at h
    | diverge => rw [hi] at h; simp at h
    | undefined => rw [hi] at h; simp at h

/-- What `MakeTable` guarantees about the object it leaves behind. -/
theorem MakeTable_ok (gr : Grammar) (n : Nat) (t : LR1_algorithm)
    (h : MakeTable n gr = .done t) :
    t.grammar_ = gr.grammar_ ∧ StatesOK gr.grammar_ t.algo_states_ ∧
    List.Forall₂ (RowOK gr t.algo_states_) t.algo_states_ t.shift_reduce_table_ ∧
    List.Forall₂ (GotoRowOK gr t.algo_states_) t.algo_states_ t.go_to_ := by
  unfold MakeTable at h
  cases hb : BuildGrammarStates n gr with
  | done states =>
    rw [hb] at h
    simp only at h
    cases hr : tableRows n gr states states with
    | done rs =>
      rw [hr] at h
      simp only [Outcome.done.injEq] at h
      subst h
      obtain ⟨h1, h2⟩ := tableRows_ok gr n states states rs hr
      exact ⟨rfl, BuildGrammarStates_ok gr n states hb, h1, h2⟩
    | diverge => rw [hr] at h; simp at h
    | undefined => rw [hr] at h; simp at h
  | diverge => rw [hb] at h; simp at h
  | undefined => rw [hb] at h; simp at h

/-! ## Soundness of the recognizer -/

theorem vecAt_natCast {V : Type} (l : List V) (t : Nat) : vecAt l (t : Int) = l.get? t := by
  simp [vecAt]

theorem vecAt_neg_one {V : Type} (l : List V) : vecAt l (-1) = none := by
  simp [vecAt]

theorem vecAt_mem {V : Type} (l : List V) (s : Int) (a : V) (h : vecAt l s = some a) :
    a ∈ l := by
  unfold vecAt at h
  split_ifs at h
  exact List.get?_mem h

theorem forall2_get {A B : Type} (R : A → B → Prop) :
    ∀ (l1 : List A) (l2 : List B), List.Forall₂ R l1 l2 → ∀ (i : Nat) (a : A),
      l1.get? i = some a → ∃ b, l2.get? i = some b ∧ R a b := by
  intro l1 l2 h
  induction h with
  | nil => intro i a ha; simp at ha
  | cons hab _ ih =>
    intro i a ha
    cases i with
    | zero =>
      simp only [List.get?_cons_zero, Option.some.injEq] at ha
      subst ha
      exact ⟨_, by simp, hab⟩
    | succ j =>
      simp only [List.get?_cons_succ] at ha ⊢
      exact ih j a ha

theorem forall2_vecAt {A B : Type} (R : A → B → Prop) (l1 : List A) (l2 : List B)
    (h : List.Forall₂ R l1 l2) (s : Int) (a : A) (ha : vecAt l1 s = some a) :
    ∃ b, vecAt l2 s = some b ∧ R a b := by
  unfold vecAt at ha ⊢
  split_ifs at ha ⊢ with h0
  exact forall2_get R l1 l2 h _ a ha

theorem StackOK_top (states : List (List Situation)) (g : CMap (List Str))
    (hS : StatesOK g states) (stack : List Int) (syms : List Char)
    (h : StackOK states stack syms) :
    ∃ s rest I, stack = s :: rest ∧ vecAt states s = some I := by
  cases h with
  | base =>
    obtain ⟨_, I0, rest, hst, _⟩ := hS
    exact ⟨0, [], I0, rfl, by rw [hst]; simp [vecAt]⟩
  | push t J sb rest X syms0 I hbelow hI hJ hlink =>
    exact ⟨t, sb :: rest, J, rfl, by rw [vecAt_natCast]; exact hJ⟩

theorem take_succ_reverse (rule : Str) (k : Nat) (X : Char) (hk : k < rule.length)
    (hX : rule.getD k nul = X) : (rule.take (k + 1)).reverse = X :: (rule.take k).reverse := by
  have h1 : rule[k]? = some X := by
    rw [List.getD_eq_getElem?_getD, List.getElem?_eq_getElem hk] at hX
    rw [List.getElem?_eq_getElem hk]
    simpa using hX
  rw [List.take_succ, h1]
  simp

/-- Walking down from an item with the dot at `k` in the top state: popping `k` entries
is defined, the `k` symbols popped spell the first `k` symbols of the item's right-hand
side, and the exposed state holds the item with the dot at `0`. -/
theorem descend (states : List (List Situation)) (g : CMap (List Str))
    (hS : StatesOK g states) (nt : Char) (rule : Str) :
    ∀ (k : Nat) (stack : List Int) (syms : List Char) (I : List Situation),
      StackOK states stack syms → topItems states stack = some I →
      (⟨nt, rule, k⟩ : Situation) ∈ I →
      ∃ stack' syms' I', popN k stack = some stack' ∧ StackOK states stack' syms' ∧
        syms = (rule.take k).reverse ++ syms' ∧ topItems states stack' = some I' ∧
        (⟨nt, rule, 0⟩ : Situation) ∈ I' := by
  intro k
  induction k with
  | zero =>
    intro stack syms I hst htop hit
    refine ⟨stack, syms, I, ?_, hst, by simp, htop, hit⟩
    cases stack <;> rfl
  | succ k ih =>
    intro stack syms I hst htop hit
    cases hst with
    | base =>
      obtain ⟨_, I0, rest, hstates, h0⟩ := hS
      have : I = I0 := by
        simp only [topItems, hstates, vecAt] at htop
        simpa using htop.symm
      subst this
      have := h0 _ hit
      simp at this
    | push t J sb rest X syms0 Ib hbelow hI hJ hlink =>
      have hIJ : I = J := by
        simp only [topItems, vecAt_natCast, hJ, Option.some.injEq] at htop
        exact htop.symm
      subst hIJ
      rcases hlink _ hit with ⟨h0, _⟩ | ⟨k', hk', hlt, hX, hmem⟩
      · simp at h0
      · simp only [Nat.add_right_cancel_iff] at hk'
        subst hk'
        obtain ⟨stack', syms', I', hp, hst', hsy, htop', hit'⟩ :=
          ih (sb :: rest) syms0 Ib hbelow (by simpa [topItems] using hI) hmem
        refine ⟨stack', syms', I', by simpa [popN] using hp, hst', ?_, htop', hit'⟩
        rw [take_succ_reverse rule k X hlt hX, hsy]
        simp

theorem step_append_right (g : CMap (List Str)) (a b z : Str) (h : Step g a b) :
    Step g (a ++ z) (b ++ z) := by
  obtain ⟨u, v, N, rhs, hr⟩ := h
  have h1 : u ++ N :: v ++ z = u ++ N :: (v ++ z) := by simp
  have h2 : u ++ rhs ++ v ++ z = u ++ rhs ++ (v ++ z) := by simp
  rw [h1, h2]
  exact Step.mk u (v ++ z) N rhs hr

theorem derives_append_right (g : CMap (List Str)) (a b z : Str) (h : Derives g a b) :
    Derives g (a ++ z) (b ++ z) := by
  induction h with
  | refl => exact Relation.ReflTransGen.refl
  | tail _ hs ih => exact ih.tail (step_append_right g _ _ z hs)

theorem step_reduce (g : CMap (List Str)) (u : Str) (N : Char) (rhs : Str)
    (h : rhs ∈ g.get N []) : Step g (u ++ [N]) (u ++ rhs) := by
  have := Step.mk u [] N rhs h
  simpa using this

theorem grammarRule_get_ne_nil (first A : Char) :
    ∀ (rule : Str) (g : Grammar), (grammarRule first rule g).grammar_.get A [] ≠ [] →
      (A = first ∧ rule ≠ []) ∨ g.grammar_.get A [] ≠ [] := by
  intro rule
  induction rule with
  | nil => intro g h; exact Or.inr h
  | cons c rest ih =>
    intro g h
    simp only [grammarRule] at h
    rcases ih _ h with ⟨h1, _⟩ | h1
    · exact Or.inl ⟨h1, by simp⟩
    · rw [grammarChar_grammar] at h1
      split_ifs at h1 with hc
      · rw [CMap.get_set] at h1
        split_ifs at h1 with hf
        · exact Or.inl ⟨hf.symm, by simp⟩
        · exact Or.inr h1
      · exact Or.inr h1

theorem foldl_get_ne_nil (A : Char) :
    ∀ (rules : List Str) (g : Grammar),
      (rules.foldl (fun g rule => grammarRule (rule.headD nul) rule g) g).grammar_.get A [] ≠ [] →
      g.grammar_.get A [] ≠ [] ∨ ∃ r ∈ rules, A ∈ r := by
  intro rules
  induction rules with
  | nil => intro g h; exact Or.inl h
  | cons r rest ih =>
    intro g h
    simp only [List.foldl_cons] at h
    rcases ih _ h with h1 | ⟨r', hr', hA⟩
    · rcases grammarRule_get_ne_nil _ A r g h1 with ⟨h2, h3⟩ | h2
      · refine Or.inr ⟨r, List.mem_cons_self _ _, ?_⟩
        cases r with
        | nil => exact absurd rfl h3
        | cons a as => simp [h2]
      · exact Or.inl h2
    · exact Or.inr ⟨r', List.mem_cons_of_mem _ hr', hA⟩

/-- In a grammar built by the constructor every uppercase production key is in the
nonterminal alphabet. -/
theorem keysInAlphabet_ofRules (rules : List Str) : KeysInAlphabet (Grammar.ofRules rules) := by
  intro A hA hne
  rw [mem_alphabet_non_terminal]
  refine ⟨hA, ?_⟩
  unfold Grammar.ofRules at hne
  rcases foldl_get_ne_nil A rules _ hne with h | h
  · simp [CMap.get] at h
  · exact h

theorem take_succ_of_getD (w : Str) (i : Nat) (c : Char) (hi : i < w.length)
    (hc : w.getD i nul = c) : w.take (i + 1) = w.take i ++ [c] := by
  have h1 : w[i]? = some c := by
    rw [List.getD_eq_getElem?_getD, List.getElem?_eq_getElem hi] at hc
    rw [List.getElem?_eq_getElem hi]
    simpa using hc
  rw [List.take_succ, h1]
  simp

theorem not_isTerminal_EndPtr : IsTerminal EndPtr = false := by decide

/-- A SHIFT keeps the invariant, or leaves a stack whose top is no row of the table. -/
theorem shift_inv (gr : Grammar) (t : LR1_algorithm) (w : Str) (index : Nat) (s : Int)
    (rest : List Int) (I : List Situation) (c : Char) (v : Int)
    (hinv : Inv gr t w index (s :: rest)) (htop : vecAt t.algo_states_ s = some I)
    (hlt : index < w.length) (hc : w.getD index nul = c)
    (hmem : c ∈ gr.alphabet_terminal_) (htar : GoodTarget t.algo_states_ I c v) :
    Inv gr t w (index + 1) (v :: s :: rest) ∨ Dead t (v :: s :: rest) := by
  rcases htar with rfl | ⟨t', J, rfl, hJ, hlink⟩
  · exact Or.inr ⟨-1, s :: rest, rfl, vecAt_neg_one _⟩
  · left
    obtain ⟨syms, hst, hder, hal⟩ := hinv
    refine ⟨c :: syms, StackOK.push t' J s rest c syms I hst htop hJ hlink, ?_, ?_⟩
    · rw [take_succ_of_getD w index c hlt hc, List.reverse_cons]
      exact derives_append_right _ _ _ [c] hder
    · intro x hx
      rw [take_succ_of_getD w index c hlt hc] at hx
      simp only [List.mem_append, List.mem_singleton] at hx
      rcases hx with hx | rfl
      · exact hal x hx
      · exact hmem

/-- A REDUCE by a completed item of the top state keeps the invariant, or leaves a stack
whose top is no row of the table. -/
theorem reduce_inv (gr : Grammar) (t : LR1_algorithm) (w : Str) (index : Nat)
    (stack : List Int) (I : List Situation) (it : Situation)
    (hS : StatesOK gr.grammar_ t.algo_states_) (hK : KeysInAlphabet gr)
    (hG : List.Forall₂ (GotoRowOK gr t.algo_states_) t.algo_states_ t.go_to_)
    (hinv : Inv gr t w index stack) (htop : topItems t.algo_states_ stack = some I)
    (hit : it ∈ I) (hdot : it.dot_pos = it.rule.length) (hnt : it.non_terminal ≠ fake_start) :
    ∃ s' rest' , popN it.rule.length stack = some (s' :: rest') ∧
      ∀ gotoRow, vecAt t.go_to_ s' = some gotoRow →
        Inv gr t w index (gotoRow.get it.non_terminal 0 :: s' :: rest') ∨
        Dead t (gotoRow.get it.non_terminal 0 :: s' :: rest') := by
  obtain ⟨syms, hst, hder, hal⟩ := hinv
  have hit' : (⟨it.non_terminal, it.rule, it.rule.length⟩ : Situation) ∈ I := by
    rw [← hdot]; exact hit
  obtain ⟨stack', syms', I', hp, hst', hsy, htop', hit0⟩ :=
    descend t.algo_states_ gr.grammar_ hS it.non_terminal it.rule it.rule.length stack syms I
      hst htop hit'
  cases stack' with
  | nil => simp [topItems] at htop'
  | cons s' rest' =>
    refine ⟨s', rest', hp, ?_⟩
    intro gotoRow hgr
    simp only [topItems] at htop'
    obtain ⟨gotoRow', hgr', hok⟩ := forall2_vecAt _ _ _ hG s' I' htop'
    rw [hgr] at hgr'
    simp only [Option.some.injEq] at hgr'
    subst hgr'
    have hItem : ItemOK gr.grammar_ it := hS.1 I (by
      cases stack with
      | nil => simp [topItems] at htop
      | cons s0 r0 => exact vecAt_mem _ _ _ htop) it hit
    have hrule : IsNonTerminal it.non_terminal = true ∧
        it.rule ∈ gr.grammar_.get it.non_terminal [] := by
      rcases hItem.2 with ⟨h1, _⟩ | h1
      · exact absurd h1 hnt
      · exact h1
    have hA : it.non_terminal ∈ gr.alphabet_non_terminal_ :=
      hK _ hrule.1 (List.ne_nil_of_mem hrule.2)
    rcases hok _ hA with hv | ⟨t', J, hv, hJ, hlink⟩
    · exact Or.inr ⟨_, s' :: rest', rfl, by rw [hv]; exact vecAt_neg_one _⟩
    · left
      rw [hv]
      refine ⟨it.non_terminal :: syms',
        StackOK.push t' J s' rest' it.non_terminal syms' I' hst' htop' hJ hlink, ?_, hal⟩
      rw [List.reverse_cons]
      refine Relation.ReflTransGen.head (step_reduce _ syms'.reverse _ it.rule hrule.2) ?_
      have : syms'.reverse ++ it.rule = syms.reverse := by
        rw [hsy, List.take_length]
        simp
      rw [this]
      exact hder

/-- When the top state holds the completed augmented item, the stack is state `0` under
one state entered over `S`, so the consumed input is derivable from `S`. -/
theorem accept_sound (gr : Grammar) (t : LR1_algorithm) (w : Str) (index : Nat)
    (stack : List Int) (I : List Situation) (it : Situation)
    (hS : StatesOK gr.grammar_ t.algo_states_)
    (hinv : Inv gr t w index stack) (htop : topItems t.algo_states_ stack = some I)
    (hit : it ∈ I) (hdot : it.dot_pos = it.rule.length) (hnt : it.non_terminal = fake_start) :
    Derives gr.grammar_ ['S'] (w.take index) ∧
      ∀ c ∈ w.take index, c ∈ gr.alphabet_terminal_ := by
  obtain ⟨syms, hst, hder, hal⟩ := hinv
  refine ⟨?_, hal⟩
  have hItem : ItemOK gr.grammar_ it := hS.1 I (by
    cases stack with
    | nil => simp [topItems] at htop
    | cons s0 r0 => exact vecAt_mem _ _ _ htop) it hit
  have hrule : it.rule = ['S'] := by
    rcases hItem.2 with ⟨_, h2⟩ | ⟨h1, _⟩
    · exact h2
    · rw [hnt, not_isNonTerminal_fake_start] at h1
      cases h1
  have hit' : (⟨fake_start, ['S'], 1⟩ : Situation) ∈ I := by
    have : it = ⟨fake_start, ['S'], 1⟩ := by
      cases it with
      | mk a b c =>
        simp only at hnt hrule hdot
        subst hnt; subst hrule
        simp only [List.length_singleton] at hdot
        subst hdot
        rfl
    rw [← this]; exact hit
  obtain ⟨stack', syms', I', _, hst', hsy, htop', hit0⟩ :=
    descend t.algo_states_ gr.grammar_ hS fake_start ['S'] 1 stack syms I hst htop hit'
  have hsyms' : syms' = [] := by
    cases hst' with
    | base => rfl
    | push t' J sb rest X syms0 Ib hbelow hI hJ hlink =>
      have hIJ : I' = J := by
        simp only [topItems, vecAt_natCast, hJ, Option.some.injEq] at htop'
        exact htop'.symm
      subst hIJ
      rcases hlink _ hit0 with ⟨_, h0⟩ | ⟨k', hk', _⟩
      · exact absurd rfl h0
      · simp at hk'
  rw [hsy, hsyms'] at hder
  simpa using hder

theorem isInAlphabet_iff (c : Char) (alph : List Char) :
    IsInAlphabet c alph = true ↔ c = EndPtr ∨ c ∈ alph := by
  simp [IsInAlphabet]

/-- One pass through the loop body from a configuration that satisfies the invariant:
a verdict `true` is given only at the last position with the consumed input derivable
from `S`, and a further round starts from a configuration that satisfies the invariant
or has a top that is no row of the table. -/
theorem checkStep_inv (gr : Grammar) (t : LR1_algorithm) (w : Str) (index : Nat)
    (stack : List Int) (hT : t.grammar_ = gr.grammar_)
    (hS : StatesOK gr.grammar_ t.algo_states_) (hK : KeysInAlphabet gr)
    (hR : List.Forall₂ (RowOK gr t.algo_states_) t.algo_states_ t.shift_reduce_table_)
    (hG : List.Forall₂ (GotoRowOK gr t.algo_states_) t.algo_states_ t.go_to_)
    (hinv : Inv gr t w index stack) (hlt : index < w.length) :
    match checkStep t gr.alphabet_terminal_ w index stack with
    | .ret b => b = true → index = w.length - 1 ∧ Derives gr.grammar_ ['S'] (w.take index) ∧
        ∀ c ∈ w.take index, c ∈ gr.alphabet_terminal_
    | .next i' st' => Inv gr t w i' st' ∨ Dead t st'
    | .ub => True := by
  obtain ⟨s, rest, I, hstack, hI⟩ : ∃ s rest I, stack = s :: rest ∧
      vecAt t.algo_states_ s = some I := by
    obtain ⟨syms, hst, _, _⟩ := hinv
    exact StackOK_top _ _ hS _ _ hst
  subst hstack
  obtain ⟨row, hrow, hrowok⟩ := forall2_vecAt _ _ _ hR s I hI
  have htop : topItems t.algo_states_ (s :: rest) = some I := hI
  unfold checkStep
  simp only [hrow]
  by_cases ha : IsInAlphabet (w.getD index nul) gr.alphabet_terminal_ = true
  · have hc := (isInAlphabet_iff _ _).mp ha
    have hcell := hrowok _ hc
    simp only [ha, Bool.not_true, Bool.false_eq_true, if_false]
    cases hact : (row.get (w.getD index nul) defaultCell).action with
    | SHIFT =>
      simp only [if_true, Shift, hrow]
      unfold CellOK at hcell
      rw [hact] at hcell
      simp only at hcell
      have hmem : w.getD index nul ∈ gr.alphabet_terminal_ := by
        rcases hc with h | h
        · rw [h, not_isTerminal_EndPtr] at hcell
          exact absurd hcell.1 (by simp)
        · exact h
      exact shift_inv gr t w index s rest I _ _ hinv hI hlt rfl hmem hcell.2
    | REDUCE =>
      simp only [if_true, reduceCtorEq, if_false]
      unfold CellOK at hcell
      rw [hact] at hcell
      simp only at hcell
      obtain ⟨it, hit, hdot, hnt, hsym, k, hk, hget⟩ := hcell
      obtain ⟨s', rest', hpop, hgo⟩ :=
        reduce_inv gr t w index (s :: rest) I it hS hK hG hinv htop hit hdot hnt
      have hv : vecAt (t.grammar_.get (row.get (w.getD index nul) defaultCell).start_symbol [])
          (row.get (w.getD index nul) defaultCell).index = some it.rule := by
        rw [hT, hsym, hk, vecAt_natCast]
        exact hget
      simp only [Reduce, hrow, hv, hpop]
      cases hgr : vecAt t.go_to_ s' with
      | none => simp
      | some gotoRow =>
        simp only
        rw [hsym]
        exact hgo gotoRow hgr
    | ACCEPT =>
      simp only [reduceCtorEq, if_false, true_and]
      by_cases hlast : index = w.length - 1
      · simp only [hlast, if_true]
        intro _
        unfold CellOK at hcell
        rw [hact] at hcell
        simp only at hcell
        obtain ⟨it, hit, hdot, hnt⟩ := hcell
        have := accept_sound gr t w index (s :: rest) I it hS hinv htop hit hdot hnt
        rw [hlast] at this
        exact ⟨trivial, this⟩
      · simp only [hlast, if_false]
        exact Or.inl hinv
    | ERROR =>
      simp only [reduceCtorEq, if_false, false_and, if_true]
      intro h
      cases h
  · simp only [ha, Bool.not_false, if_true]
    intro h
    cases h

theorem checkStep_dead (t : LR1_algorithm) (alph : List Char) (w : Str) (index : Nat)
    (stack : List Int) (h : Dead t stack) :
    checkStep t alph w index stack = .ret false ∨ checkStep t alph w index stack = .ub := by
  obtain ⟨s, rest, rfl, hs⟩ := h
  unfold checkStep
  simp only [hs]
  by_cases ha : IsInAlphabet (w.getD index nul) alph = true
  · simp [ha]
  · simp [ha]

/-- The loop of `CheckForAccess`, started from a configuration that satisfies the
invariant, returns `true` only when the input before the last position is derivable from
`S` and made of terminals of the alphabet. -/
theorem checkLoop_sound (gr : Grammar) (t : LR1_algorithm) (w : Str)
    (hT : t.grammar_ = gr.grammar_)
    (hS : StatesOK gr.grammar_ t.algo_states_) (hK : KeysInAlphabet gr)
    (hR : List.Forall₂ (RowOK gr t.algo_states_) t.algo_states_ t.shift_reduce_table_)
    (hG : List.Forall₂ (GotoRowOK gr t.algo_states_) t.algo_states_ t.go_to_) :
    ∀ (fuel index : Nat) (stack : List Int), Inv gr t w index stack ∨ Dead t stack →
      checkLoop t gr.alphabet_terminal_ w fuel index stack = .done true →
      Derives gr.grammar_ ['S'] (w.take (w.length - 1)) ∧
        ∀ c ∈ w.take (w.length - 1), c ∈ gr.alphabet_terminal_ := by
  intro fuel
  induction fuel with
  | zero => intro index stack _ h; simp [checkLoop] at h
  | succ n ih =>
    intro index stack hinv h
    simp only [checkLoop] at h
    by_cases hlt : index < w.length
    · rw [if_pos hlt] at h
      rcases hinv with hinv | hdead
      · have hstep := checkStep_inv gr t w index stack hT hS hK hR hG hinv hlt
        cases hs : checkStep t gr.alphabet_terminal_ w index stack with
        | ret b =>
          rw [hs] at h hstep
          simp only [Outcome.done.injEq] at h
          obtain ⟨h1, h2⟩ := hstep h
          rw [← h1]
          exact h2
        | next i' st' =>
          rw [hs] at h hstep
          exact ih i' st' hstep h
        | ub => rw [hs] at h; simp at h
      · rcases checkStep_dead t gr.alphabet_terminal_ w index stack hdead with hs | hs
        · rw [hs] at h; simp at h
        · rw [hs] at h; simp at h
    · rw [if_neg hlt] at h
      simp at h

/-- Soundness of the recognizer: a verdict `true` is given only for strings made of
terminals of the alphabet and derivable from `S`. -/
theorem LR1_alg_true_sound (fuel : Nat) (rules : List Str) (w : Str)
    (h : LR1_alg fuel rules w = .done true) :
    (∀ c ∈ w, c ∈ (Grammar.ofRules rules).alphabet_terminal_) ∧
      Derives (Grammar.ofRules rules).grammar_ ['S'] w := by
  unfold LR1_alg at h
  cases hm : MakeTable fuel (Grammar.ofRules rules) with
  | done t =>
    rw [hm] at h
    simp only [CheckForAccess] at h
    obtain ⟨hT, hS, hR, hG⟩ := MakeTable_ok _ fuel t hm
    have hinv : Inv (Grammar.ofRules rules) t (w ++ [EndPtr]) 0 [0] :=
      ⟨[], StackOK.base, Relation.ReflTransGen.refl, by simp⟩
    have := checkLoop_sound _ t (w ++ [EndPtr]) hT hS (keysInAlphabet_ofRules rules) hR hG
      fuel 0 [0] (Or.inl hinv) h
    simp only [List.length_append, List.length_singleton, Nat.add_sub_cancel,
      List.take_left'] at this
    exact ⟨this.2, this.1⟩
  | diverge => rw [hm] at h; simp at h
  | undefined => rw [hm] at h; simp at h

/-- An input that holds a character outside the terminal alphabet is never accepted:
when the recognizer returns a verdict on it, the verdict is `false`. -/
theorem out_of_alphabet_never_accepted (fuel : Nat) (rules : List Str) (w : Str)
    (h : ∃ c ∈ w, c ∉ (Grammar.ofRules rules).alphabet_terminal_) :
    LR1_alg fuel rules w ≠ .done true := by
  intro ht
  obtain ⟨c, hc, hn⟩ := h
  exact hn ((LR1_alg_true_sound fuel rules w ht).1 c hc)

/-! ## Derivations of a concrete grammar -/

theorem step_mem_successors (g : CMap (List Str)) (x y : Str) (h : Step g x y) :
    y ∈ successors g x := by
  obtain ⟨u, v, N, rhs, hr⟩ := h
  induction u with
  | nil =>
    simp only [List.nil_append, successors, List.mem_append, List.mem_map]
    exact Or.inl ⟨rhs, hr, rfl⟩
  | cons a u ih =>
    simp only [List.cons_append, successors, List.mem_append, List.mem_map]
    exact Or.inr ⟨_, ih, by simp⟩

/-- A list of sentential forms closed under one-step successors holds everything
derivable from its members. -/
theorem derives_mem_of_closed (g : CMap (List Str)) (F : List Str)
    (hF : ∀ x ∈ F, ∀ y ∈ successors g x, y ∈ F) (x y : Str) (hx : x ∈ F)
    (h : Derives g x y) : y ∈ F := by
  induction h with
  | refl => exact hx
  | tail _ hs ih => exact hF _ ih _ (step_mem_successors g _ _ hs)

theorem LR1_alg_ne_true_of_false (rules : List Str) (w : Str) (k : Nat)
    (h : LR1_alg k rules w = .done false) (fuel : Nat) : LR1_alg fuel rules w ≠ .done true := by
  intro ht
  have h1 := LR1_alg_mono rules w k (max k fuel) false (le_max_left _ _) h
  have h2 := LR1_alg_mono rules w fuel (max k fuel) true (le_max_right _ _) ht
  rw [h1] at h2
  cases h2

/-! ## The order of items and sorted sets -/

theorem charLt_irrefl (a : Char) : charLt a a = false := by
  simp [charLt]

theorem charLt_trans {a b c : Char} (h1 : charLt a b = true) (h2 : charLt b c = true) :
    charLt a c = true := by
  simp only [charLt, decide_eq_true_eq] at *
  omega

theorem charLt_asymm {a b : Char} (h1 : charLt a b = true) : charLt b a = false := by
  simp only [charLt, decide_eq_true_eq, decide_eq_false_iff_not] at *
  omega

theorem strLt_irrefl : ∀ a : Str, strLt a a = false := by
  intro a
  induction a with
  | nil => rfl
  | cons x xs ih => simp [strLt, charLt_irrefl, ih]

theorem strLt_trichotomy : ∀ a b : Str, strLt a b = false → strLt b a = false → a = b := by
  intro a
  induction a with
  | nil =>
    intro b h1 _
    cases b with
    | nil => rfl
    | cons y ys => simp [strLt] at h1
  | cons x xs ih =>
    intro b h1 h2
    cases b with
    | nil => simp [strLt] at h2
    | cons y ys =>
      simp only [strLt] at h1 h2
      cases hxy : charLt x y with
      | true => simp [hxy] at h1
      | false =>
        cases hyx : charLt y x with
        | true => simp [hyx] at h2
        | false =>
          simp only [hxy, hyx, Bool.false_eq_true, if_false] at h1 h2
          rw [char_eq_of_not_lt hxy hyx, ih ys h1 h2]

theorem strLt_trans : ∀ a b c : Str, strLt a b = true → strLt b c = true →
    strLt a c = true := by
  intro a
  induction a with
  | nil =>
    intro b c h1 h2
    cases b with
    | nil => simp [strLt] at h1
    | cons y ys =>
      cases c with
      | nil => simp [strLt] at h2
      | cons z zs => rfl
  | cons x xs ih =>
    intro b c h1 h2
    cases b with
    | nil => simp [strLt] at h1
    | cons y ys =>
      cases c with
      | nil => simp [strLt] at h2
      | cons z zs =>
        simp only [strLt] at h1 h2 ⊢
        cases hxy : charLt x y with
        | true =>
          cases hyz : charLt y z with
          | true => simp [charLt_trans hxy hyz]
          | false =>
            cases hzy : charLt z y with
            | true => simp [hyz, hzy] at h2
            | false =>
              have := char_eq_of_not_lt hyz hzy
              subst this
              simp [hxy]
        | false =>
          cases hyx : charLt y x with
          | true => simp [hxy, hyx] at h1
          | false =>
            have := char_eq_of_not_lt hxy hyx
            subst this
            simp only [hxy, Bool.false_eq_true, if_false] at h1
            cases hyz : charLt x z with
            | true => simp
            | false =>
              cases hzy : charLt z x with
              | true => simp [hyz, hzy] at h2
              | false =>
                simp only [hyz, hzy, Bool.false_eq_true, if_false] at h2 ⊢
                exact ih ys zs h1 h2

theorem strLt_asymm {a b : Str} (h : strLt a b = true) : strLt b a = false := by
  cases hba : strLt b a with
  | false => rfl
  | true =>
    have := strLt_trans a b a h hba
    rw [strLt_irrefl] at this
    cases this

theorem Situation.lt_irrefl (a : Situation) : a.lt a = false := by
  simp [Situation.lt, strLt_irrefl]

theorem Situation.lt_trichotomy (a b : Situation) (h1 : a.lt b = false)
    (h2 : b.lt a = false) : a = b := by
  cases a with
  | mk an ar ad =>
    cases b with
    | mk bn br bd =>
      simp only [Situation.lt] at h1 h2
      by_cases hn : an = bn
      · subst hn
        simp only [if_true, Bool.or_eq_false_iff, Bool.and_eq_false_imp, decide_eq_true_eq,
          decide_eq_false_iff_not, not_lt] at h1 h2
        have hr : ar = br := strLt_trichotomy _ _ h1.1 h2.1
        subst hr
        have := h1.2 rfl
        have := h2.2 rfl
        have hd : ad = bd := by omega
        subst hd
        rfl
      · have hn' : ¬ bn = an := fun e => hn e.symm
        simp only [hn, hn', if_false] at h1 h2
        exact absurd (char_eq_of_not_lt h1 h2) hn

theorem Situation.lt_trans (a b c : Situation) (h1 : a.lt b = true) (h2 : b.lt c = true) :
    a.lt c = true := by
  cases a with
  | mk an ar ad =>
    cases b with
    | mk bn br bd =>
      cases c with
      | mk cn cr cd =>
        simp only [Situation.lt] at h1 h2 ⊢
        by_cases hab : an = bn
        · subst hab
          by_cases hbc : an = cn
          · subst hbc
            simp only [if_true, Bool.or_eq_true, Bool.and_eq_true, decide_eq_true_eq] at *
            rcases h1 with h1 | ⟨h1, h1'⟩
            · rcases h2 with h2 | ⟨h2, _⟩
              · exact Or.inl (strLt_trans _ _ _ h1 h2)
              · subst h2; exact Or.inl h1
            · subst h1
              rcases h2 with h2 | ⟨h2, h2'⟩
              · exact Or.inl h2
              · exact Or.inr ⟨h2, by omega⟩
          · simp only [hbc, if_false] at h2 ⊢
            exact h2
        · simp only [hab, if_false] at h1
          by_cases hbc : bn = cn
          · subst hbc
            simp only [hab, if_false]
            exact h1
          · simp only [hbc, if_false] at h2
            have hac := charLt_trans h1 h2
            by_cases hacn : an = cn
            · subst hacn
              rw [charLt_irrefl] at hac
              cases hac
            · simp only [hacn, if_false]
              exact hac

theorem Situation.lt_asymm {a b : Situation} (h : a.lt b = true) : b.lt a = false := by
  cases hba : b.lt a with
  | false => rfl
  | true =>
    have := Situation.lt_trans a b a h hba
    rw [Situation.lt_irrefl] at this
    cases this

theorem Situation.eq_iff (a b : Situation) : a.eq b = true ↔ a = b := by
  cases a
  cases b
  simp [Situation.eq, and_assoc]

theorem mem_setInsert_of_mem (it x : Situation) (l : List Situation) (h : it ∈ l) :
    it ∈ (setInsert x l).1 := by
  induction l with
  | nil => simp at h
  | cons y ys ih =>
    simp only [setInsert]
    split_ifs with h1 h2
    · exact List.mem_cons_of_mem _ h
    · simp only [List.mem_cons] at h ⊢
      rcases h with h | h
      · exact Or.inl h
      · exact Or.inr (ih h)
    · exact h

theorem self_mem_setInsert (x : Situation) (l : List Situation) : x ∈ (setInsert x l).1 := by
  induction l with
  | nil => simp [setInsert]
  | cons y ys ih =>
    simp only [setInsert]
    split_ifs with h1 h2
    · exact List.mem_cons_self _ _
    · exact List.mem_cons_of_mem _ ih
    · have : x = y := Situation.lt_trichotomy x y (by simpa using h1) (by simpa using h2)
      subst this
      exact List.mem_cons_self _ _

theorem setInsert_sorted (x : Situation) (l : List Situation) (h : SetSorted l) :
    SetSorted (setInsert x l).1 := by
  induction l with
  | nil => simp [setInsert, SetSorted]
  | cons y ys ih =>
    unfold SetSorted at h ih ⊢
    rw [List.pairwise_cons] at h
    simp only [setInsert]
    split_ifs with h1 h2
    · rw [List.pairwise_cons]
      refine ⟨?_, List.pairwise_cons.mpr h⟩
      intro z hz
      simp only [List.mem_cons] at hz
      rcases hz with rfl | hz
      · exact h1
      · exact Situation.lt_trans _ _ _ h1 (h.1 z hz)
    · rw [List.pairwise_cons]
      refine ⟨?_, ih h.2⟩
      intro z hz
      rcases mem_setInsert z x ys hz with rfl | hz'
      · exact h2
      · exact h.1 z hz'
    · exact List.pairwise_cons.mpr h

/-- On a sorted set `insert` reports `false` exactly for an element already present. -/
theorem setInsert_flag_false_iff (x : Situation) (l : List Situation) (h : SetSorted l) :
    (setInsert x l).2 = false ↔ x ∈ l := by
  induction l with
  | nil => simp [setInsert]
  | cons y ys ih =>
    unfold SetSorted at h ih
    rw [List.pairwise_cons] at h
    simp only [setInsert]
    split_ifs with h1 h2
    · simp only [Bool.true_eq_false, List.mem_cons, false_iff, not_or]
      constructor
      · rintro rfl
        rw [Situation.lt_irrefl] at h1
        cases h1
      · intro hx
        have := Situation.lt_asymm (h.1 x hx)
        rw [h1] at this
        cases this
    · simp only [List.mem_cons]
      rw [ih h.2]
      constructor
      · exact Or.inr
      · rintro (rfl | hx)
        · rw [Situation.lt_irrefl] at h2
          cases h2
        · exact hx
    · have : x = y := Situation.lt_trichotomy x y (by simpa using h1) (by simpa using h2)
      subst this
      simp

theorem setInsert_eq_of_flag_false (x : Situation) (l : List Situation)
    (h : (setInsert x l).2 = false) : (setInsert x l).1 = l := by
  induction l with
  | nil => simp [setInsert] at h
  | cons y ys ih =>
    simp only [setInsert] at h ⊢
    split_ifs at h ⊢ with h1 h2
    · simp only at h ⊢
      rw [ih h]
    · rfl

theorem setSorted_inv : SetInv SetSorted :=
  ⟨by simp [SetSorted], setInsert_sorted⟩

theorem revealRules_set (Q : List Situation → Prop) (hQ : SetInv Q) (N : Char) :
    ∀ (rules : List Str) (st : List Situation) (fl : Bool), Q st →
      Q (revealRules N rules st fl).1 := by
  intro rules
  induction rules with
  | nil => intro st fl h; exact h
  | cons r rest ih =>
    intro st fl h
    simp only [revealRules]
    exact ih _ _ (hQ.insert _ _ h)

theorem closureVisit_set (Q : List Situation → Prop) (hQ : SetInv Q) (g : CMap (List Str))
    (x : Situation) (st : List Situation) (fl : Bool) (h : Q st) :
    Q (closureVisit g x st fl).1 := by
  unfold closureVisit
  dsimp only
  split_ifs
  · exact revealRules_set Q hQ _ _ _ _ h
  · exact h
  · exact h

theorem closureFor_set (Q : List Situation → Prop) (hQ : SetInv Q) (g : CMap (List Str)) :
    ∀ (n : Nat) (cur : Option Situation) (st : List Situation) (fl : Bool)
      (r : List Situation × Bool), Q st →
      closureFor g n cur st fl = .done r → Q r.1 := by
  intro n
  induction n with
  | zero =>
    intro cur st fl r hst h
    cases cur with
    | none => simp only [closureFor, Outcome.done.injEq] at h; subst h; exact hst
    | some x => simp [closureFor] at h
  | succ k ih =>
    intro cur st fl r hst h
    cases cur with
    | none => simp only [closureFor, Outcome.done.injEq] at h; subst h; exact hst
    | some x =>
      simp only [closureFor] at h
      exact ih _ _ _ r (closureVisit_set Q hQ g x st fl hst) h

theorem closureLoop_set (Q : List Situation → Prop) (hQ : SetInv Q) (g : CMap (List Str)) :
    ∀ (n : Nat) (st r : List Situation), Q st → closureLoop g n st = .done r → Q r := by
  intro n
  induction n with
  | zero => intro st r _ h; simp [closureLoop] at h
  | succ k ih =>
    intro st r hst h
    simp only [closureLoop] at h
    cases hc : closureFor g (k + 1) st.head? st false with
    | done v =>
      rw [hc] at h
      obtain ⟨st', fl⟩ := v
      have hst' := closureFor_set Q hQ g _ _ _ _ _ hst hc
      cases fl with
      | true => simp only [if_true] at h; exact ih _ _ hst' h
      | false =>
        simp only [Bool.false_eq_true, if_false, Outcome.done.injEq] at h
        subst h; exact hst'
    | diverge => rw [hc] at h; simp at h
    | undefined => rw [hc] at h; simp at h

theorem advance_set (Q : List Situation → Prop) (hQ : SetInv Q) (X : Char) :
    ∀ (I acc : List Situation), Q acc → Q (advance X I acc) := by
  intro I
  induction I with
  | nil => intro acc h; exact h
  | cons x rest ih =>
    intro acc h
    simp only [advance]
    split_ifs
    · exact ih _ (hQ.insert _ _ h)
    · exact ih _ h

theorem GoTo_new_states_set (Q : List Situation → Prop) (hQ : SetInv Q)
    (g : CMap (List Str)) (n : Nat) (states : List (List Situation))
    (I : List Situation) (X : Char) (ns : List (List Situation)) (ins : Bool)
    (r : Option Int × List (List Situation)) (hns : ∀ J ∈ ns, Q J)
    (h : GoTo n g states I X ns ins = .done r) : ∀ J ∈ r.2, Q J := by
  unfold GoTo at h
  by_cases h1 : advance X I [] ≠ []
  · rw [if_pos h1] at h
    cases hc : Closure n g (advance X I []) with
    | done closed =>
      rw [hc] at h
      simp only at h
      have hcl := closureLoop_set Q hQ g n _ _ (advance_set Q hQ X I [] hQ.nil) hc
      cases hf : findState closed states 0 with
      | some t =>
        rw [hf] at h
        simp only [Outcome.done.injEq] at h
        subst h; exact hns
      | none =>
        rw [hf] at h
        simp only [Outcome.done.injEq] at h
        subst h
        simp only
        split_ifs
        · intro J hJ
          simp only [List.mem_append, List.mem_singleton] at hJ
          rcases hJ with hJ | rfl
          · exact hns J hJ
          · exact hcl
        · exact hns
    | diverge => rw [hc] at h; simp at h
    | undefined => rw [hc] at h; simp at h
  · rw [if_neg h1] at h
    simp only [Outcome.done.injEq] at h
    subst h; exact hns

theorem sweepSymbols_set (Q : List Situation → Prop) (hQ : SetInv Q)
    (g : CMap (List Str)) (n : Nat) (states : List (List Situation)) (I : List Situation) :
    ∀ (cs : List Char) (ns r : List (List Situation)), (∀ J ∈ ns, Q J) →
      sweepSymbols n g states I cs ns = .done r → ∀ J ∈ r, Q J := by
  intro cs
  induction cs with
  | nil =>
    intro ns r hns h
    simp only [sweepSymbols, Outcome.done.injEq] at h
    subst h; exact hns
  | cons c rest ih =>
    intro ns r hns h
    simp only [sweepSymbols] at h
    cases hg : GoTo n g states I c ns true with
    | done v =>
      rw [hg] at h
      exact ih _ _ (GoTo_new_states_set Q hQ g n states I c ns true v hns hg) h
    | diverge => rw [hg] at h; simp at h
    | undefined => rw [hg] at h; simp at h

theorem sweepStates_set (Q : List Situation → Prop) (hQ : SetInv Q)
    (gr : Grammar) (n : Nat) (states : List (List Situation)) :
    ∀ (todo : List (List Situation)) (ns r : List (List Situation)), (∀ J ∈ ns, Q J) →
      sweepStates n gr states todo ns = .done r → ∀ J ∈ r, Q J := by
  intro todo
  induction todo with
  | nil =>
    intro ns r hns h
    simp only [sweepStates, Outcome.done.injEq] at h
    subst h; exact hns
  | cons I rest ih =>
    intro ns r hns h
    simp only [sweepStates] at h
    cases h1 : sweepSymbols n gr.grammar_ states I gr.alphabet_non_terminal_ ns with
    | done ns1 =>
      rw [h1] at h
      simp only at h
      have hns1 := sweepSymbols_set Q hQ _ n states I _ _ _ hns h1
      cases h2 : sweepSymbols n gr.grammar_ states I gr.alphabet_terminal_ ns1 with
      | done ns2 =>
        rw [h2] at h
        exact ih _ _ (sweepSymbols_set Q hQ _ n states I _ _ _ hns1 h2) h
      | diverge => rw [h2] at h; simp at h
      | undefined => rw [h2] at h; simp at h
    | diverge => rw [h1] at h; simp at h
    | undefined => rw [h1] at h; simp at h

theorem buildLoop_set (Q : List Situation → Prop) (hQ : SetInv Q) (gr : Grammar) :
    ∀ (n : Nat) (states r : List (List Situation)), (∀ J ∈ states, Q J) →
      buildLoop gr n states = .done r → ∀ J ∈ r, Q J := by
  intro n
  induction n with
  | zero => intro states r _ h; simp [buildLoop] at h
  | succ k ih =>
    intro states r hs h
    simp only [buildLoop] at h
    cases hsw : sweepStates (k + 1) gr states states [] with
    | done ns =>
      rw [hsw] at h
      simp only at h
      have hns := sweepStates_set Q hQ gr (k + 1) states states [] ns (by simp) hsw
      split_ifs at h with he
      · simp only [Outcome.done.injEq] at h
        subst h; exact hs
      · refine ih _ _ ?_ h
        intro J hJ
        simp only [List.mem_append] at hJ
        rcases hJ with hJ | hJ
        · exact hs J hJ
        · exact hns J hJ
    | diverge => rw [hsw] at h; simp at h
    | undefined => rw [hsw] at h; simp at h

theorem BuildGrammarStates_set (Q : List Situation → Prop) (hQ : SetInv Q) (gr : Grammar)
    (n : Nat) (states : List (List Situation)) (h : BuildGrammarStates n gr = .done states) :
    ∀ J ∈ states, Q J := by
  unfold BuildGrammarStates at h
  cases hc : Closure n gr.grammar_ [⟨fake_start, ['S'], 0⟩] with
  | done s0 =>
    rw [hc] at h
    simp only at h
    refine buildLoop_set Q hQ gr n [s0] states ?_ h
    intro J hJ
    simp only [List.mem_singleton] at hJ
    subst hJ
    exact closureLoop_set Q hQ _ n _ _ (hQ.insert ⟨fake_start, ['S'], 0⟩ [] hQ.nil) hc
  | diverge => rw [hc] at h; simp at h
  | undefined => rw [hc] at h; simp at h

/-- Every state of the automaton is a sorted set. -/
theorem BuildGrammarStates_sorted (gr : Grammar) (n : Nat) (states : List (List Situation))
    (h : BuildGrammarStates n gr = .done states) : ∀ J ∈ states, SetSorted J :=
  BuildGrammarStates_set SetSorted setSorted_inv gr n states h

/-- The order `<` of `std::string` is the lexicographic order over the order of `char`. -/
theorem strLt_iff_lex : ∀ a b : Str,
    strLt a b = true ↔ List.Lex (fun x y : Char => x.toNat < y.toNat) a b := by
  intro a
  induction a with
  | nil =>
    intro b
    cases b with
    | nil => simp [strLt]
    | cons y ys => simp only [strLt, true_iff]; exact List.Lex.nil
  | cons x xs ih =>
    intro b
    cases b with
    | nil => simp [strLt]
    | cons y ys =>
      simp only [strLt]
      constructor
      · intro h
        split_ifs at h with h1 h2
        · exact List.Lex.rel (by simpa [charLt] using h1)
        · have hxy : x = y := char_eq_of_not_lt (by simpa using h1) (by simpa using h2)
          subst hxy
          exact List.Lex.cons ((ih ys).mp h)
      · intro h
        cases h with
        | rel hxy =>
          have : charLt x y = true := by simpa [charLt] using hxy
          simp [this]
        | cons h3 =>
          simp only [charLt_irrefl, Bool.false_eq_true, if_false]
          exact (ih ys).mpr h3

/-- The order `operator<` of items compares the left-hand side, then the right-hand
side, then the dot. -/
theorem Situation.lt_iff (a b : Situation) :
    a.lt b = true ↔ a.non_terminal.toNat < b.non_terminal.toNat ∨
      (a.non_terminal = b.non_terminal ∧ (strLt a.rule b.rule = true ∨
        (a.rule = b.rule ∧ a.dot_pos < b.dot_pos))) := by
  unfold Situation.lt
  by_cases h : a.non_terminal = b.non_terminal
  · simp [h]
  · simp only [h, if_false, charLt, decide_eq_true_eq, false_and, or_false]

/-! ## Steps of the recognizer -/

theorem popN_eq_drop : ∀ (n : Nat) (stack : List Int), n ≤ stack.length →
    popN n stack = some (stack.drop n) := by
  intro n
  induction n with
  | zero => intro stack _; cases stack <;> rfl
  | succ k ih =>
    intro stack h
    cases stack with
    | nil => simp at h
    | cons s rest =>
      simp only [popN, List.drop_succ_cons]
      exact ih rest (by simpa using h)

/-- The effect of `Reduce` when the lookups it makes are defined. -/
theorem Reduce_eq (t : LR1_algorithm) (s : Int) (c : Char) (stack : List Int)
    (row : CMap TableAction) (rhs : Str) (gotoRow : CMap Int)
    (hrow : vecAt t.shift_reduce_table_ s = some row)
    (hrule : vecAt (t.grammar_.get (row.get c defaultCell).start_symbol [])
      (row.get c defaultCell).index = some rhs)
    (hlen : rhs.length < stack.length)
    (hgoto : vecAt t.go_to_ ((stack.drop rhs.length).headD 0) = some gotoRow) :
    Reduce t s c stack =
      .done (gotoRow.get (row.get c defaultCell).start_symbol 0 :: stack.drop rhs.length) := by
  unfold Reduce
  simp only [hrow, hrule, popN_eq_drop rhs.length stack (by omega)]
  cases hd : stack.drop rhs.length with
  | nil =>
    have := congrArg List.length hd
    simp only [List.length_drop, List.length_nil] at this
    omega
  | cons s' rest' =>
    rw [hd] at hgoto
    simp only [List.headD_cons] at hgoto
    simp only [hgoto]

/-- A step of the loop body moves the cursor by one exactly when it shifts. -/
theorem checkStep_next_index (t : LR1_algorithm) (alph : List Char) (w : Str) (i : Nat)
    (stack : List Int) (i' : Nat) (stack' : List Int)
    (h : checkStep t alph w i stack = .next i' stack') :
    i' = i ∨ (i' = i + 1 ∧ ∃ s rest row, stack = s :: rest ∧
      vecAt t.shift_reduce_table_ s = some row ∧
      IsInAlphabet (w.getD i nul) alph = true ∧
      (row.get (w.getD i nul) defaultCell).action = .SHIFT) := by
  unfold checkStep at h
  cases stack with
  | nil => simp at h
  | cons s rest =>
    simp only at h
    by_cases ha : IsInAlphabet (w.getD i nul) alph = true
    · simp only [ha, Bool.not_true, Bool.false_eq_true, if_false] at h
      cases hrow : vecAt t.shift_reduce_table_ s with
      | none => rw [hrow] at h; simp at h
      | some row =>
        rw [hrow] at h
        simp only at h
        split_ifs at h with h1 h2 h3 h4
        · right
          cases hsh : Shift t s (w.getD i nul) (s :: rest) with
          | done st =>
            rw [hsh] at h
            simp only [StepResult.next.injEq] at h
            exact ⟨h.1.symm, s, rest, row, rfl, hrow, ha, h1⟩
          | diverge => rw [hsh] at h; simp at h
          | undefined => rw [hsh] at h; simp at h
        · left
          cases hrd : Reduce t s (w.getD i nul) (s :: rest) with
          | done st =>
            rw [hrd] at h
            simp only [StepResult.next.injEq] at h
            exact h.1.symm
          | diverge => rw [hrd] at h; simp at h
          | undefined => rw [hrd] at h; simp at h
        · left
          simp only [StepResult.next.injEq] at h
          exact h.1.symm
    · rw [if_pos (by simpa using ha)] at h
      simp at h

theorem getD_append_EndPtr (w : Str) : (w ++ [EndPtr]).getD w.length nul = EndPtr := by
  simp [List.getD_eq_getElem?_getD]

/-- Every configuration the loop goes through on tables built by `MakeTable` satisfies
the invariant of the loop (or has a top that is no row of the table), and its cursor
has not passed the appended end marker. -/
theorem reach_inv (gr : Grammar) (t : LR1_algorithm) (w : Str)
    (hT : t.grammar_ = gr.grammar_)
    (hS : StatesOK gr.grammar_ t.algo_states_) (hK : KeysInAlphabet gr)
    (hR : List.Forall₂ (RowOK gr t.algo_states_) t.algo_states_ t.shift_reduce_table_)
    (hG : List.Forall₂ (GotoRowOK gr t.algo_states_) t.algo_states_ t.go_to_)
    (index : Nat) (stack : List Int)
    (h : Reach t gr.alphabet_terminal_ (w ++ [EndPtr]) index stack) :
    (Inv gr t (w ++ [EndPtr]) index stack ∨ Dead t stack) ∧ index ≤ w.length := by
  induction h with
  | start =>
    exact ⟨Or.inl ⟨[], StackOK.base, Relation.ReflTransGen.refl, by simp⟩, Nat.zero_le _⟩
  | step i s i' s' _ hlt hs ih =>
    obtain ⟨hinv, hle⟩ := ih
    rcases hinv with hinv | hdead
    · have hstep := checkStep_inv gr t (w ++ [EndPtr]) i s hT hS hK hR hG hinv hlt
      rw [hs] at hstep
      refine ⟨hstep, ?_⟩
      rcases checkStep_next_index _ _ _ _ _ _ _ hs with rfl | ⟨rfl, cs, rest, row, rfl, hrow, ha, hact⟩
      · exact hle
      · obtain ⟨syms, hst, _, _⟩ := hinv
        obtain ⟨s0, rest0, I, hstack, hI⟩ := StackOK_top _ _ hS _ _ hst
        simp only [List.cons.injEq] at hstack
        obtain ⟨rfl, rfl⟩ := hstack
        obtain ⟨row', hrow', hrowok⟩ := forall2_vecAt _ _ _ hR _ I hI
        rw [hrow] at hrow'
        simp only [Option.some.injEq] at hrow'
        subst hrow'
        have hcell := hrowok _ ((isInAlphabet_iff _ _).mp ha)
        unfold CellOK at hcell
        rw [hact] at hcell
        simp only at hcell
        by_contra hcon
        have hi : i = w.length := by omega
        rw [hi, getD_append_EndPtr, not_isTerminal_EndPtr] at hcell
        exact absurd hcell.1 (by simp)
    · rcases checkStep_dead t gr.alphabet_terminal_ (w ++ [EndPtr]) i s hdead with h1 | h1
      · rw [h1] at hs; cases hs
      · rw [h1] at hs; cases hs

/-- A verdict of the loop started in a reachable configuration whose continuations all
keep the loop condition comes from a `return` inside the loop body. -/
theorem checkLoop_verdict_from_body (t : LR1_algorithm) (alph : List Char) (w : Str)
    (hlt : ∀ i s, Reach t alph w i s → i < w.length) :
    ∀ (fuel i : Nat) (s : List Int) (b : Bool), Reach t alph w i s →
      checkLoop t alph w fuel i s = .done b →
      ∃ i' s', Reach t alph w i' s' ∧ i' < w.length ∧ checkStep t alph w i' s' = .ret b := by
  intro fuel
  induction fuel with
  | zero => intro i s b _ h; simp [checkLoop] at h
  | succ n ih =>
    intro i s b hr h
    simp only [checkLoop] at h
    have hi := hlt i s hr
    rw [if_pos hi] at h
    cases hs : checkStep t alph w i s with
    | ret b' =>
      rw [hs] at h
      simp only [Outcome.done.injEq] at h
      subst h
      exact ⟨i, s, hr, hi, hs⟩
    | next i' s' =>
      rw [hs] at h
      exact ih i' s' b (Reach.step i s i' s' hr hi hs) h
    | ub => rw [hs] at h; simp at h

theorem forall2_mem_right {A B : Type} (R : A → B → Prop) :
    ∀ (l1 : List A) (l2 : List B), List.Forall₂ R l1 l2 → ∀ b ∈ l2, ∃ a ∈ l1, R a b := by
  intro l1 l2 h
  induction h with
  | nil => intro b hb; simp at hb
  | cons hab _ ih =>
    intro b hb
    simp only [List.mem_cons] at hb
    rcases hb with rfl | hb
    · exact ⟨_, List.mem_cons_self _ _, hab⟩
    · obtain ⟨a, ha, hr⟩ := ih b hb
      exact ⟨a, List.mem_cons_of_mem _ ha, hr⟩

/-! ## The fixpoint of the automaton and the targets stored in the tables -/

theorem Found_mono (n m : Nat) (g : CMap (List Str)) (states : List (List Situation))
    (I : List Situation) (c : Char) (h : n ≤ m) (hf : Found n g states I c) :
    Found m g states I c := by
  rcases hf with h1 | ⟨closed, t, h1, h2⟩
  · exact Or.inl h1
  · exact Or.inr ⟨closed, t, Closure_mono g n m _ _ h h1, h2⟩

/-- A call `GoTo(state, symbol, new_states)` never shortens `new_states`, and when it
leaves its length unchanged the transition was found. -/
theorem GoTo_length (g : CMap (List Str)) (n : Nat) (states : List (List Situation))
    (I : List Situation) (c : Char) (ns : List (List Situation))
    (r : Option Int × List (List Situation))
    (h : GoTo n g states I c ns true = .done r) :
    ns.length ≤ r.2.length ∧ (r.2.length = ns.length → Found n g states I c) := by
  unfold GoTo at h
  by_cases h1 : advance c I [] ≠ []
  · rw [if_pos h1] at h
    cases hc : Closure n g (advance c I []) with
    | done closed =>
      rw [hc] at h
      simp only at h
      cases hf : findState closed states 0 with
      | some t =>
        rw [hf] at h
        simp only [Outcome.done.injEq] at h
        subst h
        exact ⟨le_refl _, fun _ => Or.inr ⟨closed, t, hc, hf⟩⟩
      | none =>
        rw [hf] at h
        simp only [if_true, Outcome.done.injEq] at h
        subst h
        simp
    | diverge => rw [hc] at h; simp at h
    | undefined => rw [hc] at h; simp at h
  · rw [if_neg h1] at h
    simp only [Outcome.done.injEq] at h
    subst h
    exact ⟨le_refl _, fun _ => Or.inl (by simpa using h1)⟩

theorem sweepSymbols_length (g : CMap (List Str)) (n : Nat) (states : List (List Situation))
    (I : List Situation) :
    ∀ (cs : List Char) (ns r : List (List Situation)),
      sweepSymbols n g states I cs ns = .done r →
      ns.length ≤ r.length ∧ (r.length = ns.length → ∀ c ∈ cs, Found n g states I c) := by
  intro cs
  induction cs with
  | nil =>
    intro ns r h
    simp only [sweepSymbols, Outcome.done.injEq] at h
    subst h
    simp
  | cons c rest ih =>
    intro ns r h
    simp only [sweepSymbols] at h
    cases hg : GoTo n g states I c ns true with
    | done v =>
      rw [hg] at h
      obtain ⟨h1, h2⟩ := GoTo_length g n states I c ns v hg
      obtain ⟨h3, h4⟩ := ih _ _ h
      refine ⟨le_trans h1 h3, ?_⟩
      intro he x hx
      simp only [List.mem_cons] at hx
      rcases hx with rfl | hx
      · exact h2 (by omega)
      · exact h4 (by omega) x hx
    | diverge => rw [hg] at h; simp at h
    | undefined => rw [hg] at h; simp at h

theorem sweepStates_length (gr : Grammar) (n : Nat) (states : List (List Situation)) :
    ∀ (todo : List (List Situation)) (ns r : List (List Situation)),
      sweepStates n gr states todo ns = .done r →
      ns.length ≤ r.length ∧ (r.length = ns.length → ∀ I ∈ todo, ∀ c,
        (c ∈ gr.alphabet_non_terminal_ ∨ c ∈ gr.alphabet_terminal_) →
        Found n gr.grammar_ states I c) := by
  intro todo
  induction todo with
  | nil =>
    intro ns r h
    simp only [sweepStates, Outcome.done.injEq] at h
    subst h
    simp
  | cons I rest ih =>
    intro ns r h
    simp only [sweepStates] at h
    cases h1 : sweepSymbols n gr.grammar_ states I gr.alphabet_non_terminal_ ns with
    | done ns1 =>
      rw [h1] at h
      simp only at h
      cases h2 : sweepSymbols n gr.grammar_ states I gr.alphabet_terminal_ ns1 with
      | done ns2 =>
        rw [h2] at h
        obtain ⟨a1, a2⟩ := sweepSymbols_length _ n states I _ _ _ h1
        obtain ⟨b1, b2⟩ := sweepSymbols_length _ n states I _ _ _ h2
        obtain ⟨c1, c2⟩ := ih _ _ h
        refine ⟨by omega, ?_⟩
        intro he J hJ c hc
        simp only [List.mem_cons] at hJ
        rcases hJ with rfl | hJ
        · rcases hc with hc | hc
          · exact a2 (by omega) c hc
          · exact b2 (by omega) c hc
        · exact c2 (by omega) J hJ c hc
      | diverge => rw [h2] at h; simp at h
      | undefined => rw [h2] at h; simp at h
    | diverge => rw [h1] at h; simp at h
    | undefined => rw [h1] at h; simp at h

theorem buildLoop_fixpoint (gr : Grammar) :
    ∀ (n : Nat) (states r : List (List Situation)), buildLoop gr n states = .done r →
      ∃ k, k ≤ n ∧ FoundAll k gr r := by
  intro n
  induction n with
  | zero => intro states r h; simp [buildLoop] at h
  | succ k ih =>
    intro states r h
    simp only [buildLoop] at h
    cases hsw : sweepStates (k + 1) gr states states [] with
    | done ns =>
      rw [hsw] at h
      simp only at h
      split_ifs at h with he
      · simp only [Outcome.done.injEq] at h
        subst h
        refine ⟨k + 1, le_refl _, ?_⟩
        have hlen : ns.length = ([] : List (List Situation)).length := by
          simpa using he
        exact (sweepStates_length gr (k + 1) states states [] ns hsw).2 hlen
      · obtain ⟨k', hk', hf⟩ := ih _ _ h
        exact ⟨k', by omega, hf⟩
    | diverge => rw [hsw] at h; simp at h
    | undefined => rw [hsw] at h; simp at h

/-- When `BuildGrammarStates` returns, every transition over a symbol of the alphabets
leads to one of the states. -/
theorem BuildGrammarStates_fixpoint (gr : Grammar) (n : Nat) (states : List (List Situation))
    (h : BuildGrammarStates n gr = .done states) : FoundAll n gr states := by
  unfold BuildGrammarStates at h
  cases hc : Closure n gr.grammar_ [⟨fake_start, ['S'], 0⟩] with
  | done s0 =>
    rw [hc] at h
    simp only at h
    obtain ⟨k, hk, hf⟩ := buildLoop_fixpoint gr n _ _ h
    intro I hI c hcm
    exact Found_mono k n _ _ _ _ hk (hf I hI c hcm)
  | diverge => rw [hc] at h; simp at h
  | undefined => rw [hc] at h; simp at h

theorem Closure_det (g : CMap (List Str)) (n m : Nat) (st r1 r2 : List Situation)
    (h1 : Closure n g st = .done r1) (h2 : Closure m g st = .done r2) : r1 = r2 := by
  have a := Closure_mono g n (max n m) st r1 (le_max_left _ _) h1
  have b := Closure_mono g m (max n m) st r2 (le_max_right _ _) h2
  rw [a] at b
  simpa using b

/-- In `MakeTable` the call `GoTo(state, symbol, algo_states_, false)` for a found
transition returns the index of the target state. -/
theorem GoTo_value (g : CMap (List Str)) (n : Nat) (states : List (List Situation))
    (I : List Situation) (c : Char) (ns ns' : List (List Situation)) (v : Int)
    (hf : Found n g states I c)
    (h : GoTo n g states I c ns false = .done (some v, ns')) : Target g states I c v := by
  unfold GoTo at h
  by_cases h1 : advance c I [] ≠ []
  · rw [if_pos h1] at h
    rcases hf with h2 | ⟨closed, t, h2, h3⟩
    · exact absurd h2 h1
    · rw [h2] at h
      simp only [h3, Outcome.done.injEq, Prod.mk.injEq, Option.some.injEq] at h
      have hg := (findState_get closed states 0 t h3).2
      exact ⟨t, closed, n, h.1.symm, by simpa using hg, h2⟩
  · rw [if_neg h1] at h
    simp at h

theorem CMap.has_set {V : Type} (m : CMap V) (k k' : Char) (v : V) :
    (m.set k v).has k' = (decide (k = k') || m.has k') := by
  induction m with
  | nil => simp [CMap.set, CMap.has]
  | cons p rest ih =>
    obtain ⟨kp, vp⟩ := p
    simp only [CMap.set]
    by_cases h1 : kp = k
    · subst h1
      simp [CMap.has]
    · rw [if_neg h1]
      by_cases h2 : charLt k kp = true
      · rw [if_pos h2]
        simp [CMap.has]
      · rw [if_neg h2]
        have ih' : (List.any (CMap.set rest k v) fun p => decide (p.1 = k')) =
            (decide (k = k') || List.any rest fun p => decide (p.1 = k')) := ih
        simp only [CMap.has, List.any_cons, ih']
        cases decide (kp = k') <;> cases decide (k = k') <;> simp

theorem CMap.has_setAll {V : Type} (keys : List Char) (v : V) (k : Char) :
    ∀ m : CMap V, (setAll keys v m).has k = (decide (k ∈ keys) || m.has k) := by
  induction keys with
  | nil => intro m; simp [setAll]
  | cons a rest ih =>
    intro m
    have h := ih (m.set a v)
    simp only [setAll, List.foldl_cons] at h ⊢
    rw [h, CMap.has_set]
    by_cases h1 : k ∈ rest
    · simp [h1]
    · by_cases h2 : a = k
      · subst h2; simp
      · have h3 : ¬ k = a := fun e => h2 e.symm
        simp [h1, h2, h3]

theorem CMap.has_of_get_ne {V : Type} (m : CMap V) (k : Char) (d : V)
    (h : m.get k d ≠ d) : m.has k = true := by
  induction m with
  | nil => simp [CMap.get] at h
  | cons p rest ih =>
    obtain ⟨kp, vp⟩ := p
    simp only [CMap.get] at h
    simp only [CMap.has, List.any_cons, Bool.or_eq_true, decide_eq_true_eq]
    by_cases h1 : kp = k
    · exact Or.inl h1
    · rw [if_neg h1] at h
      exact Or.inr (ih h)

theorem initRow_row2 (gr : Grammar) (states : List (List Situation)) (I : List Situation) :
    Row2 gr states I (initRow gr) := by
  intro c hc
  have hget : (initRow gr).get c defaultCell = errorCell := by
    unfold initRow
    rw [CMap.get_set, get_setAll]
    rcases hc with rfl | hc
    · simp
    · simp [hc]
  have hhas : (initRow gr).has c = true := by
    unfold initRow
    rw [CMap.has_set, CMap.has_setAll]
    rcases hc with rfl | hc
    · simp
    · simp [hc]
  refine ⟨hhas, ?_⟩
  rw [hget]
  intro h
  simp [errorCell] at h

/-- Handling one item of the state keeps the keys of the row of the action table and
keeps every SHIFT in it pointing at the target state. -/
theorem tableItem_row2 (gr : Grammar) (n : Nat) (states : List (List Situation))
    (I : List Situation) (it : Situation) (hF : FoundAll n gr states) (hI : I ∈ states)
    (row : CMap TableAction) (gt : CMap Int) (r : CMap TableAction × CMap Int)
    (hrow : Row2 gr states I row)
    (h : tableItem n gr states I it row gt = .done r) : Row2 gr states I r.1 := by
  unfold tableItem at h
  by_cases h1 : it.dot_pos = it.rule.length
  · rw [if_pos h1] at h
    by_cases h2 : it.non_terminal ≠ fake_start
    · rw [if_pos h2] at h
      cases hf : FindRuleNumber gr.grammar_ it with
      | none => rw [hf] at h; simp at h
      | some k =>
        rw [hf] at h
        simp only [Outcome.done.injEq] at h
        subst h
        intro c hc
        simp only
        constructor
        · rw [CMap.has_set, CMap.has_setAll, (hrow c hc).1]
          simp
        · rw [CMap.get_set, get_setAll]
          rcases hc with rfl | hc
          · simp
          · simp [hc]
    · rw [if_neg h2] at h
      simp only [Outcome.done.injEq] at h
      subst h
      intro c hc
      simp only
      constructor
      · rw [CMap.has_set, (hrow c hc).1]
        simp
      · rw [CMap.get_set]
        split_ifs with he
        · simp [acceptCell]
        · exact (hrow c hc).2
  · rw [if_neg h1] at h
    by_cases h2 : it.rule.length < it.dot_pos
    · rw [if_pos h2] at h; simp at h
    · rw [if_neg h2] at h
      simp only at h
      cases hg : GoTo n gr.grammar_ states I (it.rule.getD it.dot_pos nul) states false with
      | diverge => rw [hg] at h; simp at h
      | undefined => rw [hg] at h; simp at h
      | done res =>
        rw [hg] at h
        obtain ⟨ov, ns'⟩ := res
        cases ov with
        | none => simp at h
        | some v =>
          simp only [Outcome.done.injEq] at h
          subst h
          intro c hc
          simp only
          split_ifs with ht
          · constructor
            · rw [CMap.has_set, (hrow c hc).1]
              simp
            · rw [CMap.get_set]
              split_ifs with he
              · subst he
                intro _
                have hcm : it.rule.getD it.dot_pos nul ∈ gr.alphabet_terminal_ := by
                  rcases hc with hc | hc
                  · rw [hc, not_isTerminal_EndPtr] at ht
                    cases ht
                  · exact hc
                exact GoTo_value _ n states I _ states ns' v (hF I hI _ (Or.inr hcm)) hg
              · exact (hrow c hc).2
          · exact hrow c hc

/-- Handling one item of the state keeps the keys of the row of the goto table, keeps the
entries of the nonterminals seen so far pointing at their target states, and makes the
entry of the nonterminal after the dot of the item point at its target state. -/
theorem tableItem_goto2 (gr : Grammar) (n : Nat) (states : List (List Situation))
    (I : List Situation) (it : Situation) (hF : FoundAll n gr states) (hI : I ∈ states)
    (hNT : ∀ N ∈ gr.alphabet_non_terminal_, IsNonTerminal N = true)
    (Seen : Char → Prop)
    (row : CMap TableAction) (gt : CMap Int) (r : CMap TableAction × CMap Int)
    (hgt : ∀ N ∈ gr.alphabet_non_terminal_, gt.has N = true ∧
      (Seen N → Target gr.grammar_ states I N (gt.get N 0)))
    (h : tableItem n gr states I it row gt = .done r) :
    ∀ N ∈ gr.alphabet_non_terminal_, r.2.has N = true ∧
      ((Seen N ∨ (it.dot_pos < it.rule.length ∧ it.rule.getD it.dot_pos nul = N)) →
        Target gr.grammar_ states I N (r.2.get N 0)) := by
  unfold tableItem at h
  by_cases h1 : it.dot_pos = it.rule.length
  · rw [if_pos h1] at h
    have hkeep : r.2 = gt := by
      by_cases h2 : it.non_terminal ≠ fake_start
      · rw [if_pos h2] at h
        cases hf : FindRuleNumber gr.grammar_ it with
        | none => rw [hf] at h; simp at h
        | some k =>
          rw [hf] at h
          simp only [Outcome.done.injEq] at h
          subst h; rfl
      · rw [if_neg h2] at h
        simp only [Outcome.done.injEq] at h
        subst h; rfl
    rw [hkeep]
    intro N hN
    refine ⟨(hgt N hN).1, ?_⟩
    rintro (hs | ⟨hlt, _⟩)
    · exact (hgt N hN).2 hs
    · omega
  · rw [if_neg h1] at h
    by_cases h2 : it.rule.length < it.dot_pos
    · rw [if_pos h2] at h; simp at h
    · rw [if_neg h2] at h
      simp only at h
      cases hg : GoTo n gr.grammar_ states I (it.rule.getD it.dot_pos nul) states false with
      | diverge => rw [hg] at h; simp at h
      | undefined => rw [hg] at h; simp at h
      | done res =>
        rw [hg] at h
        obtain ⟨ov, ns'⟩ := res
        cases ov with
        | none => simp at h
        | some v =>
          simp only [Outcome.done.injEq] at h
          subst h
          intro N hN
          simp only
          split_ifs with hnt
          · constructor
            · rw [CMap.has_set, (hgt N hN).1]
              simp
            · rw [CMap.get_set]
              split_ifs with he
              · subst he
                intro _
                exact GoTo_value _ n states I _ states ns' v (hF I hI _ (Or.inl hN)) hg
              · rintro (hs | ⟨_, hsym⟩)
                · exact (hgt N hN).2 hs
                · exact absurd hsym he
          · refine ⟨(hgt N hN).1, ?_⟩
            rintro (hs | ⟨_, hsym⟩)
            · exact (hgt N hN).2 hs
            · rw [hsym] at hnt
              exact absurd (hNT N hN) hnt

theorem tableItems_row2 (gr : Grammar) (n : Nat) (states : List (List Situation))
    (I : List Situation) (hF : FoundAll n gr states) (hI : I ∈ states) :
    ∀ (its : List Situation) (row : CMap TableAction) (gt : CMap Int)
      (r : CMap TableAction × CMap Int), Row2 gr states I row →
      tableItems n gr states I its row gt = .done r → Row2 gr states I r.1 := by
  intro its
  induction its with
  | nil =>
    intro row gt r hrow h
    simp only [tableItems, Outcome.done.injEq] at h
    subst h; exact hrow
  | cons it rest ih =>
    intro row gt r hrow h
    simp only [tableItems] at h
    cases hi : tableItem n gr states I it row gt with
    | done v =>
      rw [hi] at h
      exact ih _ _ _ (tableItem_row2 gr n states I it hF hI row gt v hrow hi) h
    | diverge => rw [hi] at h; simp at h
    | undefined => rw [hi] at h; simp at h

theorem tableItems_goto2 (gr : Grammar) (n : Nat) (states : List (List Situation))
    (I : List Situation) (hF : FoundAll n gr states) (hI : I ∈ states)
    (hNT : ∀ N ∈ gr.alphabet_non_terminal_, IsNonTerminal N = true) :
    ∀ (its : List Situation) (Seen : Char → Prop) (row : CMap TableAction) (gt : CMap Int)
      (r : CMap TableAction × CMap Int),
      (∀ N ∈ gr.alphabet_non_terminal_, gt.has N = true ∧
        (Seen N → Target gr.grammar_ states I N (gt.get N 0))) →
      tableItems n gr states I its row gt = .done r →
      ∀ N ∈ gr.alphabet_non_terminal_, r.2.has N = true ∧
        ((Seen N ∨ ∃ x ∈ its, x.dot_pos < x.rule.length ∧ x.rule.getD x.dot_pos nul = N) →
          Target gr.grammar_ states I N (r.2.get N 0)) := by
  intro its
  induction its with
  | nil =>
    intro Seen row gt r hgt h
    simp only [tableItems, Outcome.done.injEq] at h
    subst h
    intro N hN
    refine ⟨(hgt N hN).1, ?_⟩
    rintro (hs | ⟨x, hx, _⟩)
    · exact (hgt N hN).2 hs
    · simp at hx
  | cons it rest ih =>
    intro Seen row gt r hgt h
    simp only [tableItems] at h
    cases hi : tableItem n gr states I it row gt with
    | done v =>
      rw [hi] at h
      have h1 := tableItem_goto2 gr n states I it hF hI hNT Seen row gt v hgt hi
      have h2 := ih (fun N => Seen N ∨
        (it.dot_pos < it.rule.length ∧ it.rule.getD it.dot_pos nul = N)) _ _ _ h1 h
      intro N hN
      refine ⟨(h2 N hN).1, ?_⟩
      rintro (hs | ⟨x, hx, hxd, hxs⟩)
      · exact (h2 N hN).2 (Or.inl (Or.inl hs))
      · simp only [List.mem_cons] at hx
        rcases hx with rfl | hx
        · exact (h2 N hN).2 (Or.inl (Or.inr ⟨hxd, hxs⟩))
        · exact (h2 N hN).2 (Or.inr ⟨x, hx, hxd, hxs⟩)
    | diverge => rw [hi] at h; simp at h
    | undefined => rw [hi] at h; simp at h

theorem tableRows_2 (gr : Grammar) (n : Nat) (states : List (List Situation))
    (hF : FoundAll n gr states)
    (hNT : ∀ N ∈ gr.alphabet_non_terminal_, IsNonTerminal N = true) :
    ∀ (todo : List (List Situation)) (r : List (CMap TableAction) × List (CMap Int)),
      (∀ I ∈ todo, I ∈ states) → tableRows n gr states todo = .done r →
      List.Forall₂ (Row2 gr states) todo r.1 ∧ List.Forall₂ (Goto2 gr states) todo r.2 := by
  intro todo
  induction todo with
  | nil =>
    intro r _ h
    simp only [tableRows, Outcome.done.injEq] at h
    subst h; exact ⟨List.Forall₂.nil, List.Forall₂.nil⟩
  | cons I rest ih =>
    intro r hsub h
    have hI := hsub I (List.mem_cons_self _ _)
    simp only [tableRows] at h
    cases hi : tableItems n gr states I I (initRow gr) (initGoto gr) with
    | done v =>
      rw [hi] at h
      simp only at h
      have h1 := tableItems_row2 gr n states I hF hI I _ _ v (initRow_row2 gr states I) hi
      have h2 := tableItems_goto2 gr n states I hF hI hNT I (fun _ => False) _ _ v (by
        intro N hN
        refine ⟨?_, fun hf => absurd hf (by simp)⟩
        unfold initGoto
        rw [CMap.has_setAll]
        simp [hN]) hi
      cases hr : tableRows n gr states rest with
      | done rs =>
        rw [hr] at h
        simp only [Outcome.done.injEq] at h
        subst h
        obtain ⟨h3, h4⟩ := ih rs (fun J hJ => hsub J (List.mem_cons_of_mem _ hJ)) hr
        refine ⟨List.Forall₂.cons h1 h3, List.Forall₂.cons ?_ h4⟩
        intro N hN
        refine ⟨(h2 N hN).1, fun hx => (h2 N hN).2 (Or.inr hx)⟩
      | diverge => rw [hr] at h; simp at h
      | undefined => rw [hr] at h; simp at h
    | diverge => rw [hi] at h; simp at h
    | undefined => rw [hi] at h; simp at h

/-- What `MakeTable` guarantees about keys and targets: the automaton is at its
fixpoint, every row has its keys, and SHIFT cells and goto entries written for an item
of the state carry the index of the target state. -/
theorem MakeTable_ok2 (gr : Grammar) (n : Nat) (t : LR1_algorithm)
    (hNT : ∀ N ∈ gr.alphabet_non_terminal_, IsNonTerminal N = true)
    (h : MakeTable n gr = .done t) :
    FoundAll n gr t.algo_states_ ∧
    List.Forall₂ (Row2 gr t.algo_states_) t.algo_states_ t.shift_reduce_table_ ∧
    List.Forall₂ (Goto2 gr t.algo_states_) t.algo_states_ t.go_to_ := by
  unfold MakeTable at h
  cases hb : BuildGrammarStates n gr with
  | done states =>
    rw [hb] at h
    simp only at h
    cases hr : tableRows n gr states states with
    | done rs =>
      rw [hr] at h
      simp only [Outcome.done.injEq] at h
      subst h
      have hF := BuildGrammarStates_fixpoint gr n states hb
      obtain ⟨h1, h2⟩ := tableRows_2 gr n states hF hNT states rs (fun _ hI => hI) hr
      exact ⟨hF, h1, h2⟩
    | diverge => rw [hr] at h; simp at h
    | undefined => rw [hr] at h; simp at h
  | diverge => rw [hb] at h; simp at h
  | undefined => rw [hb] at h; simp at h

theorem alphabet_non_terminal_isNonTerminal (rules : List Str) :
    ∀ N ∈ (Grammar.ofRules rules).alphabet_non_terminal_, IsNonTerminal N = true := by
  intro N hN
  exact ((mem_alphabet_non_terminal rules N).mp hN).1

theorem grammarRule_mem_get (first A : Char) (rhs : Str) :
    ∀ (rule : Str) (g : Grammar), rhs ∈ (grammarRule first rule g).grammar_.get A [] →
      rhs ∈ g.grammar_.get A [] ∨ ∀ c ∈ rhs, c ∈ rule := by
  intro rule
  induction rule with
  | nil => intro g h; exact Or.inl h
  | cons c rest ih =>
    intro g h
    simp only [grammarRule] at h
    rcases ih _ h with h1 | h1
    · rw [grammarChar_grammar] at h1
      split_ifs at h1 with hc
      · rw [CMap.get_set] at h1
        split_ifs at h1 with hf
        · subst hf
          simp only [List.mem_append, List.mem_singleton] at h1
          rcases h1 with h1 | h1
          · exact Or.inl h1
          · subst h1
            exact Or.inr (fun x hx => List.mem_cons_of_mem _ hx)
        · exact Or.inl h1
      · exact Or.inl h1
    · exact Or.inr (fun x hx => List.mem_cons_of_mem _ (h1 x hx))

theorem foldl_mem_get (A : Char) (rhs : Str) :
    ∀ (rules : List Str) (g : Grammar),
      rhs ∈ (rules.foldl (fun g rule => grammarRule (rule.headD nul) rule g) g).grammar_.get A [] →
      rhs ∈ g.grammar_.get A [] ∨ ∃ r ∈ rules, ∀ c ∈ rhs, c ∈ r := by
  intro rules
  induction rules with
  | nil => intro g h; exact Or.inl h
  | cons r rest ih =>
    intro g h
    simp only [List.foldl_cons] at h
    rcases ih _ h with h1 | ⟨r', hr', hc⟩
    · rcases grammarRule_mem_get _ A rhs r g h1 with h2 | h2
      · exact Or.inl h2
      · exact Or.inr ⟨r, List.mem_cons_self _ _, h2⟩
    · exact Or.inr ⟨r', List.mem_cons_of_mem _ hr', hc⟩

/-- Every symbol of a stored right-hand side occurs in one of the rules. -/
theorem rhs_symbols_in_rules (rules : List Str) (A : Char) (rhs : Str)
    (h : rhs ∈ (Grammar.ofRules rules).grammar_.get A []) :
    ∃ r ∈ rules, ∀ c ∈ rhs, c ∈ r := by
  unfold Grammar.ofRules at h
  rcases foldl_mem_get A rhs rules _ h with h1 | h1
  · simp [CMap.get] at h1
  · exact h1

theorem getD_mem (l : Str) (k : Nat) (h : k < l.length) : l.getD k nul ∈ l := by
  rw [List.getD_eq_getElem?_getD, List.getElem?_eq_getElem h]
  simp

/-- The symbol after the dot of an item of a state belongs to the alphabet of its kind,
provided `'S'` occurs in the rules. -/
theorem symbol_after_dot_in_alphabet (rules : List Str) (hS : ∃ r ∈ rules, 'S' ∈ r)
    (x : Situation) (hx : ItemOK (Grammar.ofRules rules).grammar_ x)
    (hlt : x.dot_pos < x.rule.length) :
    (IsNonTerminal (x.rule.getD x.dot_pos nul) = true →
      x.rule.getD x.dot_pos nul ∈ (Grammar.ofRules rules).alphabet_non_terminal_) ∧
    (IsTerminal (x.rule.getD x.dot_pos nul) = true →
      x.rule.getD x.dot_pos nul ∈ (Grammar.ofRules rules).alphabet_terminal_) := by
  have hmem := getD_mem x.rule x.dot_pos hlt
  have hin : ∃ r ∈ rules, x.rule.getD x.dot_pos nul ∈ r := by
    rcases hx.2 with ⟨_, h2⟩ | ⟨_, h2⟩
    · have hmem' : x.rule.getD x.dot_pos nul ∈ ['S'] := h2 ▸ hmem
      simp only [List.mem_singleton] at hmem'
      rw [hmem']
      exact hS
    · obtain ⟨r, hr, hc⟩ := rhs_symbols_in_rules rules _ _ h2
      exact ⟨r, hr, hc _ hmem⟩
  exact ⟨fun h => (mem_alphabet_non_terminal rules _).mpr ⟨h, hin⟩,
    fun h => (mem_alphabet_terminal rules _).mpr ⟨h, hin⟩⟩

theorem Target_valid (g : CMap (List Str)) (states : List (List Situation))
    (I : List Situation) (X : Char) (v : Int) (h : Target g states I X v) :
    0 ≤ v ∧ v < states.length := by
  obtain ⟨t, J, n, rfl, hJ, _⟩ := h
  have : t < states.length := by
    by_contra hcon
    rw [List.get?_eq_none.mpr (by omega)] at hJ
    cases hJ
  exact ⟨Int.natCast_nonneg t, by exact_mod_cast this⟩

/-- Whatever holds of the closure of the start item and passes from a state to the
closure of the items moved over a symbol, holds of every state of the automaton. -/
theorem GoTo_new_states_forall (R : List Situation → Prop) (g : CMap (List Str))
    (hadv : ∀ n I X r, R I → Closure n g (advance X I []) = .done r → R r)
    (n : Nat) (states : List (List Situation))
    (I : List Situation) (X : Char) (ns : List (List Situation)) (ins : Bool)
    (r : Option Int × List (List Situation)) (hI : R I) (hns : ∀ J ∈ ns, R J)
    (h : GoTo n g states I X ns ins = .done r) : ∀ J ∈ r.2, R J := by
  unfold GoTo at h
  by_cases h1 : advance X I [] ≠ []
  · rw [if_pos h1] at h
    cases hc : Closure n g (advance X I []) with
    | done closed =>
      rw [hc] at h
      simp only at h
      have hcl := hadv n I X closed hI hc
      cases hf : findState closed states 0 with
      | some t =>
        rw [hf] at h
        simp only [Outcome.done.injEq] at h
        subst h; exact hns
      | none =>
        rw [hf] at h
        simp only [Outcome.done.injEq] at h
        subst h
        simp only
        split_ifs
        · intro J hJ
          simp only [List.mem_append, List.mem_singleton] at hJ
          rcases hJ with hJ | rfl
          · exact hns J hJ
          · exact hcl
        · exact hns
    | diverge => rw [hc] at h; simp at h
    | undefined => rw [hc] at h; simp at h
  · rw [if_neg h1] at h
    simp only [Outcome.done.injEq] at h
    subst h; exact hns

theorem sweepSymbols_forall (R : List Situation → Prop) (g : CMap (List Str))
    (hadv : ∀ n I X r, R I → Closure n g (advance X I []) = .done r → R r)
    (n : Nat) (states : List (List Situation)) (I : List Situation) (hI : R I) :
    ∀ (cs : List Char) (ns r : List (List Situation)), (∀ J ∈ ns, R J) →
      sweepSymbols n g states I cs ns = .done r → ∀ J ∈ r, R J := by
  intro cs
  induction cs with
  | nil =>
    intro ns r hns h
    simp only [sweepSymbols, Outcome.done.injEq] at h
    subst h; exact hns
  | cons c rest ih =>
    intro ns r hns h
    simp only [sweepSymbols] at h
    cases hg : GoTo n g states I c ns true with
    | done v =>
      rw [hg] at h
      exact ih _ _ (GoTo_new_states_forall R g hadv n states I c ns true v hI hns hg) h
    | diverge => rw [hg] at h; simp at h
    | undefined => rw [hg] at h; simp at h

theorem sweepStates_forall (R : List Situation → Prop) (gr : Grammar)
    (hadv : ∀ n I X r, R I → Closure n gr.grammar_ (advance X I []) = .done r → R r)
    (n : Nat) (states : List (List Situation)) :
    ∀ (todo : List (List Situation)) (ns r : List (List Situation)),
      (∀ I ∈ todo, R I) → (∀ J ∈ ns, R J) →
      sweepStates n gr states todo ns = .done r → ∀ J ∈ r, R J := by
  intro todo
  induction todo with
  | nil =>
    intro ns r _ hns h
    simp only [sweepStates, Outcome.done.injEq] at h
    subst h; exact hns
  | cons I rest ih =>
    intro ns r htodo hns h
    have hI := htodo I (List.mem_cons_self _ _)
    simp only [sweepStates] at h
    cases h1 : sweepSymbols n gr.grammar_ states I gr.alphabet_non_terminal_ ns with
    | done ns1 =>
      rw [h1] at h
      simp only at h
      have hns1 := sweepSymbols_forall R _ hadv n states I hI _ _ _ hns h1
      cases h2 : sweepSymbols n gr.grammar_ states I gr.alphabet_terminal_ ns1 with
      | done ns2 =>
        rw [h2] at h
        have hns2 := sweepSymbols_forall R _ hadv n states I hI _ _ _ hns1 h2
        exact ih _ _ (fun J hJ => htodo J (List.mem_cons_of_mem _ hJ)) hns2 h
      | diverge => rw [h2] at h; simp at h
      | undefined => rw [h2] at h; simp at h
    | diverge => rw [h1] at h; simp at h
    | undefined => rw [h1] at h; simp at h

theorem buildLoop_forall (R : List Situation → Prop) (gr : Grammar)
    (hadv : ∀ n I X r, R I → Closure n gr.grammar_ (advance X I []) = .done r → R r) :
    ∀ (n : Nat) (states r : List (List Situation)), (∀ J ∈ states, R J) →
      buildLoop gr n states = .done r → ∀ J ∈ r, R J := by
  intro n
  induction n with
  | zero => intro states r _ h; simp [buildLoop] at h
  | succ k ih =>
    intro states r hs h
    simp only [buildLoop] at h
    cases hsw : sweepStates (k + 1) gr states states [] with
    | done ns =>
      rw [hsw] at h
      simp only at h
      have hns := sweepStates_forall R gr hadv (k + 1) states states [] ns hs (by simp) hsw
      split_ifs at h with he
      · simp only [Outcome.done.injEq] at h
        subst h; exact hs
      · refine ih _ _ ?_ h
        intro J hJ
        simp only [List.mem_append] at hJ
        rcases hJ with hJ | hJ
        · exact hs J hJ
        · exact hns J hJ
    | diverge => rw [hsw] at h; simp at h
    | undefined => rw [hsw] at h; simp at h

theorem BuildGrammarStates_forall (R : List Situation → Prop) (gr : Grammar)
    (hstart : ∀ n r, Closure n gr.grammar_ [⟨fake_start, ['S'], 0⟩] = .done r → R r)
    (hadv : ∀ n I X r, R I → Closure n gr.grammar_ (advance X I []) = .done r → R r)
    (n : Nat) (states : List (List Situation)) (h : BuildGrammarStates n gr = .done states) :
    ∀ J ∈ states, R J := by
  unfold BuildGrammarStates at h
  cases hc : Closure n gr.grammar_ [⟨fake_start, ['S'], 0⟩] with
  | done s0 =>
    rw [hc] at h
    simp only at h
    refine buildLoop_forall R gr hadv n [s0] states ?_ h
    intro J hJ
    simp only [List.mem_singleton] at hJ
    subst hJ
    exact hstart n _ hc
  | diverge => rw [hc] at h; simp at h
  | undefined => rw [hc] at h; simp at h

theorem mem_revealRules_of_mem (N : Char) (it : Situation) :
    ∀ (rules : List Str) (st : List Situation) (fl : Bool), it ∈ st →
      it ∈ (revealRules N rules st fl).1 := by
  intro rules
  induction rules with
  | nil => intro st fl h; exact h
  | cons r rest ih =>
    intro st fl h
    simp only [revealRules]
    exact ih _ _ (mem_setInsert_of_mem _ _ _ h)

theorem mem_closureVisit_of_mem (g : CMap (List Str)) (x it : Situation)
    (st : List Situation) (fl : Bool) (h : it ∈ st) : it ∈ (closureVisit g x st fl).1 := by
  unfold closureVisit
  dsimp only
  split_ifs
  · exact mem_revealRules_of_mem _ _ _ _ _ h
  · exact h
  · exact h

theorem revealRules_prov (N : Char) :
    ∀ (rules : List Str) (st : List Situation) (fl : Bool), Prov st →
      (∃ x ∈ st, x.dot_pos < x.rule.length ∧ x.rule.getD x.dot_pos nul = N) →
      Prov (revealRules N rules st fl).1 := by
  intro rules
  induction rules with
  | nil => intro st fl h _; exact h
  | cons r rest ih =>
    intro st fl hp hx
    simp only [revealRules]
    obtain ⟨x, hxm, hxd, hxs⟩ := hx
    refine ih _ _ ?_ ⟨x, mem_setInsert_of_mem _ _ _ hxm, hxd, hxs⟩
    intro it hit hd hn
    rcases mem_setInsert _ _ _ hit with rfl | hit'
    · exact ⟨x, mem_setInsert_of_mem _ _ _ hxm, hxd, hxs⟩
    · obtain ⟨y, hy, hyd, hys⟩ := hp it hit' hd hn
      exact ⟨y, mem_setInsert_of_mem _ _ _ hy, hyd, hys⟩

theorem closureVisit_prov (g : CMap (List Str)) (x : Situation) (st : List Situation)
    (fl : Bool) (hx : x ∈ st) (hp : Prov st) : Prov (closureVisit g x st fl).1 := by
  unfold closureVisit
  dsimp only
  split_ifs with h1 h2
  · exact revealRules_prov _ _ _ _ hp ⟨x, hx, h1, rfl⟩
  · exact hp
  · exact hp

theorem nextAfter_mem (cur y : Situation) (st : List Situation)
    (h : nextAfter cur st = some y) : y ∈ st := by
  unfold nextAfter at h
  exact List.mem_of_find?_eq_some h

theorem closureFor_prov (g : CMap (List Str)) :
    ∀ (n : Nat) (cur : Option Situation) (st : List Situation) (fl : Bool)
      (r : List Situation × Bool), Prov st → (∀ x, cur = some x → x ∈ st) →
      closureFor g n cur st fl = .done r → Prov r.1 := by
  intro n
  induction n with
  | zero =>
    intro cur st fl r hp _ h
    cases cur with
    | none => simp only [closureFor, Outcome.done.injEq] at h; subst h; exact hp
    | some x => simp [closureFor] at h
  | succ k ih =>
    intro cur st fl r hp hcur h
    cases cur with
    | none => simp only [closureFor, Outcome.done.injEq] at h; subst h; exact hp
    | some x =>
      simp only [closureFor] at h
      refine ih _ _ _ r (closureVisit_prov g x st fl (hcur x rfl) hp) ?_ h
      intro y hy
      exact nextAfter_mem _ _ _ hy

theorem closureLoop_prov (g : CMap (List Str)) :
    ∀ (n : Nat) (st r : List Situation), Prov st → closureLoop g n st = .done r →
      Prov r := by
  intro n
  induction n with
  | zero => intro st r _ h; simp [closureLoop] at h
  | succ k ih =>
    intro st r hp h
    simp only [closureLoop] at h
    cases hc : closureFor g (k + 1) st.head? st false with
    | done v =>
      rw [hc] at h
      obtain ⟨st', fl⟩ := v
      have hst' := closureFor_prov g _ _ _ _ _ hp
        (fun x hx => List.mem_of_mem_head? hx) hc
      cases fl with
      | true => simp only [if_true] at h; exact ih _ _ hst' h
      | false =>
        simp only [Bool.false_eq_true, if_false, Outcome.done.injEq] at h
        subst h; exact hst'
    | diverge => rw [hc] at h; simp at h
    | undefined => rw [hc] at h; simp at h

/-- In every state of the automaton an item with the dot at `0`, other than the
augmented item, stands beside an item that has its left-hand side after the dot. -/
theorem BuildGrammarStates_prov (gr : Grammar) (n : Nat) (states : List (List Situation))
    (h : BuildGrammarStates n gr = .done states) : ∀ J ∈ states, Prov J := by
  refine BuildGrammarStates_forall Prov gr ?_ ?_ n states h
  · intro m r hc
    refine closureLoop_prov _ m _ r ?_ hc
    intro it hit _ hn
    simp only [List.mem_singleton] at hit
    subst hit
    exact absurd rfl hn
  · intro m I X r _ hc
    refine closureLoop_prov _ m _ r ?_ hc
    intro it hit hd _
    rcases mem_advance X it I [] hit with h1 | ⟨it0, _, _, _, h5⟩
    · simp at h1
    · subst h5
      simp at hd

theorem MakeTable_states (gr : Grammar) (n : Nat) (t : LR1_algorithm)
    (h : MakeTable n gr = .done t) : BuildGrammarStates n gr = .done t.algo_states_ := by
  unfold MakeTable at h
  cases hb : BuildGrammarStates n gr with
  | done states =>
    rw [hb] at h
    simp only at h
    cases hr : tableRows n gr states states with
    | done rs =>
      rw [hr] at h
      simp only [Outcome.done.injEq] at h
      subst h; rfl
    | diverge => rw [hr] at h; simp at h
    | undefined => rw [hr] at h; simp at h
  | diverge => rw [hb] at h; simp at h
  | undefined => rw [hb] at h; simp at h

theorem popN_some_length : ∀ (n : Nat) (stack r : List Int), popN n stack = some r →
    stack.length = n + r.length := by
  intro n
  induction n with
  | zero =>
    intro stack r h
    cases stack <;> simp only [popN, Option.some.injEq] at h <;> subst h <;> simp
  | succ k ih =>
    intro stack r h
    cases stack with
    | nil => simp [popN] at h
    | cons s rest =>
      simp only [popN] at h
      have := ih rest r h
      simp only [List.length_cons]
      omega

theorem vecAt_valid {V : Type} (l : List V) (s : Int) (a : V) (h : vecAt l s = some a) :
    0 ≤ s ∧ s < l.length := by
  unfold vecAt at h
  split_ifs at h with h0
  refine ⟨h0, ?_⟩
  have : s.toNat < l.length := by
    by_contra hcon
    have hn : l.get? s.toNat = none := List.get?_eq_none.mpr (by omega)
    rw [hn] at h
    cases h
  omega

theorem vecAt_of_valid {V : Type} (l : List V) (s : Int) (h0 : 0 ≤ s) (h1 : s < l.length) :
    ∃ a, vecAt l s = some a := by
  unfold vecAt
  rw [if_pos h0]
  have : s.toNat < l.length := by omega
  exact ⟨l[s.toNat], by simp [List.getElem?_eq_getElem this]⟩

/-- A configuration that satisfies the invariant of the loop is safe for the loop body. -/
theorem safe_of_inv (gr : Grammar) (t : LR1_algorithm) (w : Str) (index : Nat)
    (stack : List Int) (hT : t.grammar_ = gr.grammar_)
    (hS : StatesOK gr.grammar_ t.algo_states_) (hK : KeysInAlphabet gr)
    (hP : ∀ J ∈ t.algo_states_, Prov J)
    (hR : List.Forall₂ (RowOK gr t.algo_states_) t.algo_states_ t.shift_reduce_table_)
    (hR2 : List.Forall₂ (Row2 gr t.algo_states_) t.algo_states_ t.shift_reduce_table_)
    (hG2 : List.Forall₂ (Goto2 gr t.algo_states_) t.algo_states_ t.go_to_)
    (hinv : Inv gr t w index stack) :
    StepSafe t gr.alphabet_terminal_ w index stack := by
  obtain ⟨syms, hst, hder, hal⟩ := hinv
  obtain ⟨s, rest, I, hstack, hI⟩ := StackOK_top _ _ hS _ _ hst
  subst hstack
  obtain ⟨row, hrow, hrowok⟩ := forall2_vecAt _ _ _ hR s I hI
  obtain ⟨row', hrow', hrow2⟩ := forall2_vecAt _ _ _ hR2 s I hI
  rw [hrow] at hrow'
  simp only [Option.some.injEq] at hrow'
  subst hrow'
  obtain ⟨hs0, hs1⟩ := vecAt_valid _ _ _ hI
  refine ⟨s, rest, row, rfl, hs0, hs1, hrow, ?_⟩
  intro ha
  have hc := (isInAlphabet_iff _ _).mp ha
  refine ⟨(hrow2 _ hc).1, ?_, ?_⟩
  · intro hact
    exact Target_valid _ _ _ _ _ ((hrow2 _ hc).2 hact)
  · intro hact
    have hcell := hrowok _ hc
    unfold CellOK at hcell
    rw [hact] at hcell
    simp only at hcell
    obtain ⟨it, hit, hdot, hnt, hsym, k, hk, hget⟩ := hcell
    have hItem : ItemOK gr.grammar_ it := hS.1 I (vecAt_mem _ _ _ hI) it hit
    have hrule : IsNonTerminal it.non_terminal = true ∧
        it.rule ∈ gr.grammar_.get it.non_terminal [] := by
      rcases hItem.2 with ⟨h1, _⟩ | h1
      · exact absurd h1 hnt
      · exact h1
    have hne : gr.grammar_.get it.non_terminal [] ≠ [] := List.ne_nil_of_mem hrule.2
    have hA : it.non_terminal ∈ gr.alphabet_non_terminal_ := hK _ hrule.1 hne
    have hit' : (⟨it.non_terminal, it.rule, it.rule.length⟩ : Situation) ∈ I := by
      rw [← hdot]; exact hit
    obtain ⟨stack', syms', I', hp, hst', hsy, htop', hit0⟩ :=
      descend t.algo_states_ gr.grammar_ hS it.non_terminal it.rule it.rule.length
        (s :: rest) syms I hst hI hit'
    cases stack' with
    | nil => simp [topItems] at htop'
    | cons s' rest' =>
      simp only [topItems] at htop'
      obtain ⟨gotoRow, hgr, hgok⟩ := forall2_vecAt _ _ _ hG2 s' I' htop'
      obtain ⟨x, hx, hxd, hxs⟩ := hP I' (vecAt_mem _ _ _ htop') _ hit0 rfl hnt
      have htar := (hgok _ hA).2 ⟨x, hx, hxd, hxs⟩
      have hval := Target_valid _ _ _ _ _ htar
      have hlen := popN_some_length _ _ _ hp
      rw [hsym, hT]
      refine ⟨CMap.has_of_get_ne _ _ _ hne, it.rule, s', rest', gotoRow, ?_, ?_, hp, hgr,
        (hgok _ hA).1, hval.1, hval.2⟩
      · rw [hk, vecAt_natCast]; exact hget
      · simp only [List.length_cons] at hlen ⊢
        omega

/-- The stack that a safe step hands to the next round has the index of a state on
top. -/
theorem checkStep_next_top (t : LR1_algorithm) (alph : List Char) (w : Str) (i : Nat)
    (stack : List Int) (i' : Nat) (stack' : List Int)
    (hsafe : StepSafe t alph w i stack)
    (h : checkStep t alph w i stack = .next i' stack') :
    ∃ top rest, stack' = top :: rest ∧ 0 ≤ top ∧ top < t.algo_states_.length := by
  obtain ⟨s, rest, row, rfl, hs0, hs1, hrow, hsafe⟩ := hsafe
  unfold checkStep at h
  simp only [hrow] at h
  by_cases ha : IsInAlphabet (w.getD i nul) alph = true
  · obtain ⟨_, hsh, hrd⟩ := hsafe ha
    simp only [ha, Bool.not_true, Bool.false_eq_true, if_false] at h
    split_ifs at h with h1 h2 h3 h4
    · simp only [Shift, hrow, StepResult.next.injEq] at h
      exact ⟨_, _, h.2.symm, hsh h1⟩
    · obtain ⟨_, rhs, s', rest', gotoRow, hv, _, hp, hg, _, hv0, hv1⟩ := hrd h2
      simp only [Reduce, hrow, hv, hp, hg, StepResult.next.injEq] at h
      exact ⟨_, _, h.2.symm, hv0, hv1⟩
    · simp only [StepResult.next.injEq] at h
      exact ⟨s, rest, h.2.symm, hs0, hs1⟩
  · rw [if_pos (by simpa using ha)] at h
    cases h

theorem checkStep_ne_ub (t : LR1_algorithm) (alph : List Char) (w : Str) (i : Nat)
    (stack : List Int) (hsafe : StepSafe t alph w i stack) :
    checkStep t alph w i stack ≠ .ub := by
  obtain ⟨s, rest, row, rfl, hs0, hs1, hrow, hsafe⟩ := hsafe
  unfold checkStep
  simp only [hrow]
  by_cases ha : IsInAlphabet (w.getD i nul) alph = true
  · obtain ⟨_, hsh, hrd⟩ := hsafe ha
    simp only [ha, Bool.not_true, Bool.false_eq_true, if_false]
    split_ifs with h1 h2 h3 h4
    · simp [Shift, hrow]
    · obtain ⟨_, rhs, s', rest', gotoRow, hv, _, hp, hg, _, hv0, hv1⟩ := hrd h2
      simp only [Reduce, hrow, hv, hp, hg]
      intro hcon
      cases hcon
    · simp
    · simp
    · simp
  · rw [if_pos (by simpa using ha)]
    simp

/-- All that `MakeTable` guarantees, for a grammar made by the constructor. -/
theorem MakeTable_facts (rules : List Str) (n : Nat) (t : LR1_algorithm)
    (h : MakeTable n (Grammar.ofRules rules) = .done t) :
    t.grammar_ = (Grammar.ofRules rules).grammar_ ∧
    StatesOK (Grammar.ofRules rules).grammar_ t.algo_states_ ∧
    (∀ J ∈ t.algo_states_, Prov J) ∧
    List.Forall₂ (RowOK (Grammar.ofRules rules) t.algo_states_) t.algo_states_
      t.shift_reduce_table_ ∧
    List.Forall₂ (GotoRowOK (Grammar.ofRules rules) t.algo_states_) t.algo_states_ t.go_to_ ∧
    List.Forall₂ (Row2 (Grammar.ofRules rules) t.algo_states_) t.algo_states_
      t.shift_reduce_table_ ∧
    List.Forall₂ (Goto2 (Grammar.ofRules rules) t.algo_states_) t.algo_states_ t.go_to_ := by
  obtain ⟨hT, hS, hR, hG⟩ := MakeTable_ok _ n t h
  obtain ⟨_, hR2, hG2⟩ := MakeTable_ok2 _ n t (alphabet_non_terminal_isNonTerminal rules) h
  exact ⟨hT, hS, BuildGrammarStates_prov _ n _ (MakeTable_states _ n t h), hR, hG, hR2, hG2⟩

/-- Every configuration the loop goes through on tables built by `MakeTable` satisfies
the invariant of the loop. -/
theorem reach_inv_strong (rules : List Str) (n : Nat) (t : LR1_algorithm) (w : Str)
    (hm : MakeTable n (Grammar.ofRules rules) = .done t) (index : Nat) (stack : List Int)
    (h : Reach t (Grammar.ofRules rules).alphabet_terminal_ (w ++ [EndPtr]) index stack) :
    Inv (Grammar.ofRules rules) t (w ++ [EndPtr]) index stack := by
  obtain ⟨hT, hS, hP, hR, hG, hR2, hG2⟩ := MakeTable_facts rules n t hm
  have hK := keysInAlphabet_ofRules rules
  induction h with
  | start => exact ⟨[], StackOK.base, Relation.ReflTransGen.refl, by simp⟩
  | step i s i' s' _ hlt hs ih =>
    have hsafe := safe_of_inv _ t _ i s hT hS hK hP hR hR2 hG2 ih
    have hstep := checkStep_inv _ t (w ++ [EndPtr]) i s hT hS hK hR hG ih hlt
    rw [hs] at hstep
    rcases hstep with hinv | ⟨top, rest, hst, hnone⟩
    · exact hinv
    · obtain ⟨top', rest', hst', h0, h1⟩ := checkStep_next_top _ _ _ _ _ _ _ hsafe hs
      rw [hst] at hst'
      simp only [List.cons.injEq] at hst'
      obtain ⟨rfl, rfl⟩ := hst'
      have hlen : t.algo_states_.length = t.shift_reduce_table_.length := hR.length_eq
      obtain ⟨a, ha⟩ := vecAt_of_valid t.shift_reduce_table_ top h0 (by omega)
      rw [ha] at hnone
      cases hnone

theorem checkLoop_ne_undefined (t : LR1_algorithm) (alph : List Char) (w : Str)
    (hsafe : ∀ i s, Reach t alph w i s → checkStep t alph w i s ≠ .ub) :
    ∀ (fuel i : Nat) (s : List Int), Reach t alph w i s →
      checkLoop t alph w fuel i s ≠ .undefined := by
  intro fuel
  induction fuel with
  | zero => intro i s _; simp [checkLoop]
  | succ n ih =>
    intro i s hr
    simp only [checkLoop]
    by_cases hi : i < w.length
    · rw [if_pos hi]
      cases hs : checkStep t alph w i s with
      | ret b => simp
      | next i' s' => exact ih i' s' (Reach.step i s i' s' hr hi hs)
      | ub => exact absurd hs (hsafe i s hr)
    · rw [if_neg hi]
      simp

/-! ## The conflict policy of the action table -/

theorem findRule_leastIndex (r : Str) :
    ∀ (l : List Str) (i k : Nat), findRule r l i = some k → k = i + leastIndex r l := by
  intro l
  induction l with
  | nil => intro i k h; simp [findRule] at h
  | cons y ys ih =>
    intro i k h
    simp only [findRule] at h
    simp only [leastIndex]
    split_ifs at h ⊢ with h1
    · simp only [Option.some.injEq] at h
      omega
    · have := ih _ _ h
      omega

/-- Where `rule` is one of the productions, `leastIndex` is the least index at which it
stands. -/
theorem leastIndex_spec (rule : Str) :
    ∀ (l : List Str), rule ∈ l → l.get? (leastIndex rule l) = some rule ∧
      ∀ j, j < leastIndex rule l → l.get? j ≠ some rule := by
  intro l
  induction l with
  | nil => intro h; simp at h
  | cons y ys ih =>
    intro h
    simp only [leastIndex]
    split_ifs with h1
    · subst h1
      exact ⟨by simp, fun j hj => by omega⟩
    · simp only [List.mem_cons] at h
      rcases h with h | h
      · exact absurd h.symm h1
      · obtain ⟨h2, h3⟩ := ih h
        refine ⟨by simpa using h2, ?_⟩
        intro j hj
        cases j with
        | zero => simpa using h1
        | succ j' =>
          simp only [List.get?_cons_succ]
          exact h3 j' (by omega)

/-- The effect of handling one item on a cell of the row: the cell becomes what the item
writes there, or stays as it was if the item writes nothing there. -/
theorem tableItem_get (gr : Grammar) (n : Nat) (states : List (List Situation))
    (I : List Situation) (it : Situation)
    (row : CMap TableAction) (gt : CMap Int) (r : CMap TableAction × CMap Int)
    (h : tableItem n gr states I it row gt = .done r) (c : Char)
    (hc : c = EndPtr ∨ c ∈ gr.alphabet_terminal_) :
    r.1.get c defaultCell = (cellWrite n gr states I c it).getD (row.get c defaultCell) := by
  unfold tableItem at h
  unfold cellWrite
  by_cases h1 : it.dot_pos = it.rule.length
  · rw [if_pos h1] at h
    rw [if_pos h1]
    by_cases h2 : it.non_terminal ≠ fake_start
    · rw [if_pos h2] at h
      rw [if_pos h2]
      cases hf : FindRuleNumber gr.grammar_ it with
      | none => rw [hf] at h; simp at h
      | some k =>
        rw [hf] at h
        simp only [Outcome.done.injEq] at h
        subst h
        have hk := findRule_leastIndex it.rule _ 0 k hf
        simp only [Nat.zero_add] at hk
        simp only [Option.getD_some]
        rw [CMap.get_set, get_setAll, hk]
        rcases hc with rfl | hc
        · simp
        · simp [hc]
    · rw [if_neg h2] at h
      rw [if_neg h2]
      simp only [Outcome.done.injEq] at h
      subst h
      simp only
      rw [CMap.get_set]
      by_cases he : c = EndPtr
      · subst he
        simp
      · have he' : ¬ EndPtr = c := fun e => he e.symm
        simp [he, he']
  · rw [if_neg h1] at h
    rw [if_neg h1]
    by_cases h2 : it.rule.length < it.dot_pos
    · rw [if_pos h2] at h; simp at h
    · rw [if_neg h2] at h
      simp only at h
      cases hg : GoTo n gr.grammar_ states I (it.rule.getD it.dot_pos nul) states false with
      | diverge => rw [hg] at h; simp at h
      | undefined => rw [hg] at h; simp at h
      | done res =>
        rw [hg] at h
        obtain ⟨ov, ns'⟩ := res
        cases ov with
        | none => simp at h
        | some v =>
          simp only [Outcome.done.injEq] at h
          subst h
          simp only
          by_cases ht : IsTerminal (it.rule.getD it.dot_pos nul) = true
          · rw [if_pos ht, CMap.get_set]
            by_cases hs : it.rule.getD it.dot_pos nul = c
            · have hv : gotoValue n gr.grammar_ states I c = v := by
                unfold gotoValue
                rw [← hs, hg]
              rw [if_pos hs, if_pos ⟨hs, hs ▸ ht⟩, hv]
              rfl
            · rw [if_neg hs, if_neg (fun hcon => hs hcon.1)]
              rfl
          · rw [if_neg ht]
            by_cases hs : it.rule.getD it.dot_pos nul = c
            · rw [if_neg (fun hcon => ht (hs ▸ hcon.2))]
              rfl
            · rw [if_neg (fun hcon => hs hcon.1)]
              rfl

theorem tableItems_get (gr : Grammar) (n : Nat) (states : List (List Situation))
    (I : List Situation) (c : Char) (hc : c = EndPtr ∨ c ∈ gr.alphabet_terminal_) :
    ∀ (its : List Situation) (row : CMap TableAction) (gt : CMap Int)
      (r : CMap TableAction × CMap Int),
      tableItems n gr states I its row gt = .done r →
      r.1.get c defaultCell =
        its.foldl (fun acc it => (cellWrite n gr states I c it).getD acc)
          (row.get c defaultCell) := by
  intro its
  induction its with
  | nil =>
    intro row gt r h
    simp only [tableItems, Outcome.done.injEq] at h
    subst h; rfl
  | cons it rest ih =>
    intro row gt r h
    simp only [tableItems] at h
    cases hi : tableItem n gr states I it row gt with
    | done v =>
      rw [hi] at h
      rw [ih _ _ _ h, tableItem_get gr n states I it row gt v hi c hc]
      rfl
    | diverge => rw [hi] at h; simp at h
    | undefined => rw [hi] at h; simp at h

/-- In a sorted set the last write is the write of the greatest writer. -/
theorem foldl_write_greatest {α : Type} (f : Situation → Option α) (m : Situation) (a : α) :
    ∀ (I : List Situation) (init : α), SetSorted I → m ∈ I → f m = some a →
      (∀ x ∈ I, (f x).isSome = true → x = m ∨ x.lt m = true) →
      I.foldl (fun acc it => (f it).getD acc) init = a := by
  intro I
  induction I with
  | nil => intro init _ hm; simp at hm
  | cons y ys ih =>
    intro init hs hm hfm hgr
    unfold SetSorted at hs
    rw [List.pairwise_cons] at hs
    simp only [List.foldl_cons]
    by_cases hmy : m = y
    · subst hmy
      have hnone : ∀ x ∈ ys, f x = none := by
        intro x hx
        cases hfx : f x with
        | none => rfl
        | some b =>
          exfalso
          have hlt := hs.1 x hx
          rcases hgr x (List.mem_cons_of_mem _ hx) (by simp [hfx]) with rfl | hxm
          · rw [Situation.lt_irrefl] at hlt; cases hlt
          · rw [Situation.lt_asymm hlt] at hxm; cases hxm
      rw [hfm]
      simp only [Option.getD_some]
      clear ih hgr hs hm
      induction ys generalizing a with
      | nil => rfl
      | cons z zs ihz =>
        simp only [List.foldl_cons, hnone z (List.mem_cons_self _ _), Option.getD_none]
        exact ihz a hfm (fun x hx => hnone x (List.mem_cons_of_mem _ hx))
    · have hm' : m ∈ ys := by
        simp only [List.mem_cons] at hm
        rcases hm with h | h
        · exact absurd h hmy
        · exact h
      exact ih _ hs.2 hm' hfm (fun x hx => hgr x (List.mem_cons_of_mem _ hx))

theorem foldl_write_none {α : Type} (f : Situation → Option α) :
    ∀ (I : List Situation) (init : α), (∀ x ∈ I, f x = none) →
      I.foldl (fun acc it => (f it).getD acc) init = init := by
  intro I
  induction I with
  | nil => intro init _; rfl
  | cons y ys ih =>
    intro init h
    simp only [List.foldl_cons, h y (List.mem_cons_self _ _), Option.getD_none]
    exact ih init (fun x hx => h x (List.mem_cons_of_mem _ hx))

/-- A sorted set with a writer has a greatest writer. -/
theorem exists_greatest (P : Situation → Prop) :
    ∀ (I : List Situation), SetSorted I → (∃ x ∈ I, P x) →
      ∃ m ∈ I, P m ∧ ∀ x ∈ I, P x → x = m ∨ x.lt m = true := by
  intro I
  induction I with
  | nil => intro _ h; obtain ⟨x, hx, _⟩ := h; simp at hx
  | cons y ys ih =>
    intro hs h
    unfold SetSorted at hs
    rw [List.pairwise_cons] at hs
    by_cases hex : ∃ x ∈ ys, P x
    · obtain ⟨m, hm, hPm, hgr⟩ := ih hs.2 hex
      refine ⟨m, List.mem_cons_of_mem _ hm, hPm, ?_⟩
      intro x hx hPx
      simp only [List.mem_cons] at hx
      rcases hx with rfl | hx
      · exact Or.inr (hs.1 m hm)
      · exact hgr x hx hPx
    · obtain ⟨x, hx, hPx⟩ := h
      simp only [List.mem_cons] at hx
      rcases hx with rfl | hx
      · refine ⟨x, List.mem_cons_self _ _, hPx, ?_⟩
        intro z hz hPz
        simp only [List.mem_cons] at hz
        rcases hz with rfl | hz
        · exact Or.inl rfl
        · exact absurd ⟨z, hz, hPz⟩ hex
      · exact absurd ⟨x, hx, hPx⟩ hex

/-- The cell of a row that `MakeTable` built for the state `I`, in terms of the writes
of the items of `I` taken in their order. -/
theorem tableRows_get (gr : Grammar) (n : Nat) (states : List (List Situation))
    (c : Char) (hc : c = EndPtr ∨ c ∈ gr.alphabet_terminal_) :
    ∀ (todo : List (List Situation)) (r : List (CMap TableAction) × List (CMap Int)),
      tableRows n gr states todo = .done r →
      List.Forall₂ (fun I row => row.get c defaultCell =
        I.foldl (fun acc it => (cellWrite n gr states I c it).getD acc) errorCell)
        todo r.1 := by
  intro todo
  induction todo with
  | nil =>
    intro r h
    simp only [tableRows, Outcome.done.injEq] at h
    subst h; exact List.Forall₂.nil
  | cons I rest ih =>
    intro r h
    simp only [tableRows] at h
    cases hi : tableItems n gr states I I (initRow gr) (initGoto gr) with
    | done v =>
      rw [hi] at h
      simp only at h
      cases hr : tableRows n gr states rest with
      | done rs =>
        rw [hr] at h
        simp only [Outcome.done.injEq] at h
        subst h
        refine List.Forall₂.cons ?_ (ih rs hr)
        rw [tableItems_get gr n states I c hc I _ _ v hi]
        have : (initRow gr).get c defaultCell = errorCell := by
          unfold initRow
          rw [CMap.get_set, get_setAll]
          rcases hc with rfl | hc
          · simp
          · simp [hc]
        rw [this]
      | diverge => rw [hr] at h; simp at h
      | undefined => rw [hr] at h; simp at h
    | diverge => rw [hi] at h; simp at h
    | undefined => rw [hi] at h; simp at h

theorem MakeTable_get (gr : Grammar) (n : Nat) (t : LR1_algorithm)
    (h : MakeTable n gr = .done t) (c : Char)
    (hc : c = EndPtr ∨ c ∈ gr.alphabet_terminal_) :
    List.Forall₂ (fun I row => row.get c defaultCell =
      I.foldl (fun acc it => (cellWrite n gr t.algo_states_ I c it).getD acc) errorCell)
      t.algo_states_ t.shift_reduce_table_ := by
  unfold MakeTable at h
  cases hb : BuildGrammarStates n gr with
  | done states =>
    rw [hb] at h
    simp only at h
    cases hr : tableRows n gr states states with
    | done rs =>
      rw [hr] at h
      simp only [Outcome.done.injEq] at h
      subst h
      exact tableRows_get gr n states c hc states rs hr
    | diverge => rw [hr] at h; simp at h
    | undefined => rw [hr] at h; simp at h
  | diverge => rw [hb] at h; simp at h
  | undefined => rw [hb] at h; simp at h

theorem MakeTable_sorted (gr : Grammar) (n : Nat) (t : LR1_algorithm)
    (h : MakeTable n gr = .done t) : ∀ J ∈ t.algo_states_, SetSorted J :=
  BuildGrammarStates_sorted gr n _ (MakeTable_states gr n t h)

theorem cellWrite_EndPtr_complete (n : Nat) (gr : Grammar) (states : List (List Situation))
    (I : List Situation) (x : Situation)
    (h : (cellWrite n gr states I EndPtr x).isSome = true) :
    x.dot_pos = x.rule.length := by
  unfold cellWrite at h
  by_contra hcon
  rw [if_neg hcon, if_neg (fun hc => by
    have := hc.2
    rw [not_isTerminal_EndPtr] at this
    cases this)] at h
  cases h

/-! ## Termination of `Closure` and of the construction of the automaton -/

theorem revealRules_flag_mono (N : Char) :
    ∀ (rules : List Str) (st : List Situation),
      (revealRules N rules st true).2 = true := by
  intro rules
  induction rules with
  | nil => intro st; rfl
  | cons r rest ih =>
    intro st
    simp only [revealRules]
    have : (if !(setInsert ⟨N, r, 0⟩ st).2 then true else true) = true := by
      split_ifs <;> rfl
    rw [this]
    exact ih _

theorem revealRules_flag_of_mem (N : Char) :
    ∀ (rules : List Str) (st : List Situation) (fl : Bool), SetSorted st →
      (∃ rhs ∈ rules, (⟨N, rhs, 0⟩ : Situation) ∈ st) →
      (revealRules N rules st fl).2 = true := by
  intro rules
  induction rules with
  | nil => intro st fl _ h; obtain ⟨_, h, _⟩ := h; cases h
  | cons r rest ih =>
    intro st fl hs h
    obtain ⟨rhs, hrhs, hmem⟩ := h
    simp only [revealRules]
    rcases List.mem_cons.1 hrhs with rfl | hrest
    · have hf : (setInsert ⟨N, rhs, 0⟩ st).2 = false :=
        (setInsert_flag_false_iff _ _ hs).2 hmem
      rw [hf]
      exact revealRules_flag_mono N rest _
    · exact ih _ _ (setInsert_sorted _ _ hs)
        ⟨rhs, hrest, mem_setInsert_of_mem _ _ _ hmem⟩

theorem mem_revealRules_new (N : Char) :
    ∀ (rules : List Str) (st : List Situation) (fl : Bool), ∀ rhs ∈ rules,
      (⟨N, rhs, 0⟩ : Situation) ∈ (revealRules N rules st fl).1 := by
  intro rules
  induction rules with
  | nil => intro st fl rhs h; cases h
  | cons r rest ih =>
    intro st fl rhs h
    simp only [revealRules]
    rcases List.mem_cons.1 h with rfl | hrest
    · exact mem_revealRules_of_mem N _ rest _ _ (self_mem_setInsert _ _)
    · exact ih _ _ rhs hrest

theorem revealRules_flag_true (N : Char) (rules : List Str) (st : List Situation)
    (fl : Bool) (h : (revealRules N rules st fl).2 = true) : fl = true ∨ rules ≠ [] := by
  cases rules with
  | nil => exact Or.inl h
  | cons r rest => exact Or.inr (List.cons_ne_nil _ _)

theorem closureVisit_flag_mono (g : CMap (List Str)) (x : Situation)
    (st : List Situation) : (closureVisit g x st true).2 = true := by
  unfold closureVisit
  dsimp only
  split_ifs
  · exact revealRules_flag_mono _ _ _
  · rfl
  · rfl

theorem closureVisit_flag_of_blocked (g : CMap (List Str)) (x : Situation)
    (st : List Situation) (fl : Bool) (hs : SetSorted st)
    (hd : x.dot_pos < x.rule.length)
    (hn : IsNonTerminal (x.rule.getD x.dot_pos nul) = true)
    (hb : ∃ rhs ∈ g.get (x.rule.getD x.dot_pos nul) [],
      (⟨x.rule.getD x.dot_pos nul, rhs, 0⟩ : Situation) ∈ st) :
    (closureVisit g x st fl).2 = true := by
  unfold closureVisit
  dsimp only
  rw [if_pos hd, if_pos hn]
  exact revealRules_flag_of_mem _ _ _ _ hs hb

theorem closureVisit_flag_true (g : CMap (List Str)) (x : Situation)
    (st : List Situation) (fl : Bool) (hx : x ∈ st)
    (h : (closureVisit g x st fl).2 = true) :
    fl = true ∨ Blocked g (closureVisit g x st fl).1 := by
  by_cases hd : x.dot_pos < x.rule.length
  · by_cases hn : IsNonTerminal (x.rule.getD x.dot_pos nul) = true
    · have e : closureVisit g x st fl =
          revealRules (x.rule.getD x.dot_pos nul) (g.get (x.rule.getD x.dot_pos nul) [])
            st fl := by
        unfold closureVisit
        dsimp only
        rw [if_pos hd, if_pos hn]
      rw [e] at h ⊢
      rcases revealRules_flag_true _ _ _ _ h with h1 | h1
      · exact Or.inl h1
      · right
        obtain ⟨rhs, hrhs⟩ := List.exists_mem_of_ne_nil _ h1
        exact ⟨x, mem_revealRules_of_mem _ _ _ _ _ hx, hd, hn, rhs, hrhs,
          mem_revealRules_new _ _ _ _ rhs hrhs⟩
    · have e : closureVisit g x st fl = (st, fl) := by
        unfold closureVisit
        dsimp only
        rw [if_pos hd, if_neg hn]
      rw [e] at h
      exact Or.inl h
  · have e : closureVisit g x st fl = (st, fl) := by
      unfold closureVisit
      dsimp only
      rw [if_neg hd]
    rw [e] at h
    exact Or.inl h

theorem Blocked_mono (g : CMap (List Str)) (s s' : List Situation)
    (hsub : ∀ it ∈ s, it ∈ s') (h : Blocked g s) : Blocked g s' := by
  obtain ⟨x, hx, hd, hn, rhs, hrhs, hmem⟩ := h
  exact ⟨x, hsub x hx, hd, hn, rhs, hrhs, hsub _ hmem⟩

theorem closureFor_subset (g : CMap (List Str)) :
    ∀ (n : Nat) (cur : Option Situation) (st : List Situation) (fl : Bool)
      (r : List Situation × Bool),
      closureFor g n cur st fl = .done r → ∀ it ∈ st, it ∈ r.1 := by
  intro n
  induction n with
  | zero =>
    intro cur st fl r h it hit
    cases cur with
    | none => simp only [closureFor, Outcome.done.injEq] at h; subst h; exact hit
    | some c => simp [closureFor] at h
  | succ k ih =>
    intro cur st fl r h it hit
    cases cur with
    | none => simp only [closureFor, Outcome.done.injEq] at h; subst h; exact hit
    | some c =>
      simp only [closureFor] at h
      exact ih _ _ _ _ h it (mem_closureVisit_of_mem g c it st fl hit)

theorem closureFor_flag_mono (g : CMap (List Str)) :
    ∀ (n : Nat) (cur : Option Situation) (st : List Situation)
      (r : List Situation × Bool),
      closureFor g n cur st true = .done r → r.2 = true := by
  intro n
  induction n with
  | zero =>
    intro cur st r h
    cases cur with
    | none => simp only [closureFor, Outcome.done.injEq] at h; subst h; rfl
    | some c => simp [closureFor] at h
  | succ k ih =>
    intro cur st r h
    cases cur with
    | none => simp only [closureFor, Outcome.done.injEq] at h; subst h; rfl
    | some c =>
      simp only [closureFor] at h
      rw [closureVisit_flag_mono] at h
      exact ih _ _ _ h

/-- A pass of the `for` loop that ends with the flag set, started with the flag clear,
leaves a set in which the failing insertion can be repeated. -/
theorem closureFor_flag_true (g : CMap (List Str)) :
    ∀ (n : Nat) (cur : Option Situation) (st : List Situation) (fl : Bool)
      (r : List Situation × Bool),
      closureFor g n cur st fl = .done r → (∀ c, cur = some c → c ∈ st) →
      r.2 = true → fl = true ∨ Blocked g r.1 := by
  intro n
  induction n with
  | zero =>
    intro cur st fl r h _ hfl
    cases cur with
    | none =>
      simp only [closureFor, Outcome.done.injEq] at h
      subst h
      exact Or.inl hfl
    | some c => simp [closureFor] at h
  | succ k ih =>
    intro cur st fl r h hcur hfl
    cases cur with
    | none =>
      simp only [closureFor, Outcome.done.injEq] at h
      subst h
      exact Or.inl hfl
    | some c =>
      simp only [closureFor] at h
      rcases ih _ _ _ _ h (fun c' hc' => nextAfter_mem c c' _ hc') hfl with h1 | h1
      · rcases closureVisit_flag_true g c st fl (hcur c rfl) h1 with h2 | h2
        · exact Or.inl h2
        · exact Or.inr (Blocked_mono g _ _ (closureFor_subset g _ _ _ _ _ h) h2)
      · exact Or.inr h1

theorem nextAfter_le (c x : Situation) :
    ∀ (st : List Situation), SetSorted st → x ∈ st → c.lt x = true →
      ∃ c', nextAfter c st = some c' ∧ (c' = x ∨ c'.lt x = true) := by
  intro st
  induction st with
  | nil => intro _ h; cases h
  | cons y ys ih =>
    intro hs hx hlt
    unfold SetSorted at hs
    rw [List.pairwise_cons] at hs
    by_cases hy : c.lt y = true
    · refine ⟨y, by simp [nextAfter, List.find?, hy], ?_⟩
      rcases List.mem_cons.1 hx with rfl | hx'
      · exact Or.inl rfl
      · exact Or.inr (hs.1 x hx')
    · have hxy : x ≠ y := by
        intro e
        rw [e] at hlt
        exact hy hlt
      have hx' : x ∈ ys := by
        rcases List.mem_cons.1 hx with e | hx'
        · exact absurd e hxy
        · exact hx'
      obtain ⟨c', hc', hle⟩ := ih hs.2 hx' hlt
      refine ⟨c', ?_, hle⟩
      have hyf : c.lt y = false := by simpa using hy
      simp only [nextAfter, List.find?, hyf]
      exact hc'

/-- A pass of the `for` loop over a sorted set reaches every item of the set at or after
the cursor; when one of them has a failing insertion to attempt, the pass ends with the
flag set. -/
theorem closureFor_visits (g : CMap (List Str)) (x : Situation)
    (hd : x.dot_pos < x.rule.length)
    (hn : IsNonTerminal (x.rule.getD x.dot_pos nul) = true) (rhs : Str)
    (hrhs : rhs ∈ g.get (x.rule.getD x.dot_pos nul) []) :
    ∀ (n : Nat) (c : Situation) (st : List Situation) (fl : Bool)
      (r : List Situation × Bool),
      closureFor g n (some c) st fl = .done r → SetSorted st → x ∈ st →
      (⟨x.rule.getD x.dot_pos nul, rhs, 0⟩ : Situation) ∈ st →
      (c = x ∨ c.lt x = true) → r.2 = true := by
  intro n
  induction n with
  | zero => intro c st fl r h; simp [closureFor] at h
  | succ k ih =>
    intro c st fl r h hs hx hmem hc
    simp only [closureFor] at h
    rcases hc with rfl | hlt
    · rw [closureVisit_flag_of_blocked g c st fl hs hd hn ⟨rhs, hrhs, hmem⟩] at h
      exact closureFor_flag_mono g _ _ _ _ h
    · have hs1 : SetSorted (closureVisit g c st fl).1 :=
        closureVisit_set SetSorted setSorted_inv g c st fl hs
      have hx1 := mem_closureVisit_of_mem g c x st fl hx
      have hm1 := mem_closureVisit_of_mem g c _ st fl hmem
      obtain ⟨c', hc', hle⟩ := nextAfter_le c x _ hs1 hx1 hlt
      rw [hc'] at h
      exact ih c' _ _ r h hs1 hx1 hm1 hle

theorem head_le_of_sorted (x : Situation) (st : List Situation) (hs : SetSorted st)
    (hx : x ∈ st) : ∃ c, st.head? = some c ∧ (c = x ∨ c.lt x = true) := by
  cases st with
  | nil => cases hx
  | cons y ys =>
    unfold SetSorted at hs
    rw [List.pairwise_cons] at hs
    refine ⟨y, rfl, ?_⟩
    rcases List.mem_cons.1 hx with rfl | hx'
    · exact Or.inl rfl
    · exact Or.inr (hs.1 x hx')

/-- On a sorted set in which a failing insertion can be attempted, the `do ... while`
loop of `Closure` never finishes. -/
theorem closureLoop_blocked_diverges (g : CMap (List Str)) :
    ∀ (fuel : Nat) (st : List Situation), SetSorted st → Blocked g st →
      closureLoop g fuel st = .diverge := by
  intro fuel
  induction fuel with
  | zero => intro st _ _; rfl
  | succ n ih =>
    intro st hs hb
    simp only [closureLoop]
    cases hc : closureFor g (n + 1) st.head? st false with
    | diverge => rfl
    | undefined => exact absurd hc (closureFor_ne_undefined g _ _ _ _)
    | done r =>
      obtain ⟨x, hx, hd, hnt, rhs, hrhs, hmem⟩ := hb
      obtain ⟨c, hhead, hle⟩ := head_le_of_sorted x st hs hx
      rw [hhead] at hc
      have hfl : r.2 = true :=
        closureFor_visits g x hd hnt rhs hrhs _ c st false r hc hs hx hmem hle
      have hsr : SetSorted r.1 :=
        closureFor_set SetSorted setSorted_inv g _ _ _ _ r hs hc
      have hbr : Blocked g r.1 :=
        Blocked_mono g st r.1 (closureFor_subset g _ _ _ _ _ hc)
          ⟨x, hx, hd, hnt, rhs, hrhs, hmem⟩
      obtain ⟨r1, r2⟩ := r
      simp only at hfl hsr hbr
      subst hfl
      simpa using ih r1 hsr hbr

theorem filter_length_lt {α : Type} (p q : α → Bool) (hpq : ∀ y, p y = true → q y = true)
    (z : α) (hq : q z = true) (hp : p z = false) :
    ∀ (U : List α), z ∈ U → (U.filter p).length < (U.filter q).length := by
  have hle : ∀ (U : List α), (U.filter p).length ≤ (U.filter q).length := by
    intro U
    induction U with
    | nil => simp
    | cons y ys ih =>
      by_cases h1 : p y = true
      · rw [List.filter_cons_of_pos h1, List.filter_cons_of_pos (hpq y h1)]
        simpa using ih
      · rw [List.filter_cons_of_neg h1]
        by_cases h2 : q y = true
        · rw [List.filter_cons_of_pos h2]
          simp only [List.length_cons]
          omega
        · rw [List.filter_cons_of_neg h2]
          exact ih
  intro U
  induction U with
  | nil => intro h; cases h
  | cons y ys ih =>
    intro hz
    rcases List.mem_cons.1 hz with rfl | hz'
    · rw [List.filter_cons_of_neg (by simp [hp]), List.filter_cons_of_pos hq]
      simp only [List.length_cons]
      have := hle ys
      omega
    · by_cases h1 : p y = true
      · rw [List.filter_cons_of_pos h1, List.filter_cons_of_pos (hpq y h1)]
        simpa using ih hz'
      · rw [List.filter_cons_of_neg h1]
        by_cases h2 : q y = true
        · rw [List.filter_cons_of_pos h2]
          simp only [List.length_cons]
          have := ih hz'
          omega
        · rw [List.filter_cons_of_neg h2]
          exact ih hz'

theorem nextAfter_lt (c y : Situation) (st : List Situation)
    (h : nextAfter c st = some y) : c.lt y = true := by
  unfold nextAfter at h
  exact List.find?_some h

/-- One pass of the `for` loop of `Closure` ends: the cursor only moves up in the order
of `operator<`, inside a finite universe of items. -/
theorem closureFor_terminates (g : CMap (List Str)) (U : List Situation)
    (hU : ∀ it, Added g it → it ∈ U) :
    ∀ (k : Nat) (c : Situation) (st : List Situation) (fl : Bool),
      (U.filter (fun y => c.lt y)).length < k → (∀ it ∈ st, it ∈ U) →
      ∃ r, closureFor g k (some c) st fl = .done r := by
  intro k
  induction k with
  | zero => intro c st fl h; omega
  | succ k ih =>
    intro c st fl hk hst
    simp only [closureFor]
    have hst1 : ∀ it ∈ (closureVisit g c st fl).1, it ∈ U := by
      intro it hit
      rcases mem_closureVisit g c it st fl hit with h | h
      · exact hst it h
      · exact hU it h
    cases hn : nextAfter c (closureVisit g c st fl).1 with
    | none => cases k <;> exact ⟨_, rfl⟩
    | some c' =>
      have hlt := nextAfter_lt c c' _ hn
      have hmem := hst1 c' (nextAfter_mem c c' _ hn)
      have hdec : (U.filter (fun y => c'.lt y)).length <
          (U.filter (fun y => c.lt y)).length :=
        filter_length_lt (fun y => c'.lt y) (fun y => c.lt y)
          (fun y hy => Situation.lt_trans c c' y hlt hy) c' hlt
          (Situation.lt_irrefl c') U hmem
      exact ih c' _ _ (by omega) hst1

theorem closureFor_terminates_head (g : CMap (List Str)) (U : List Situation)
    (hU : ∀ it, Added g it → it ∈ U) (st : List Situation) (fl : Bool)
    (hst : ∀ it ∈ st, it ∈ U) :
    ∃ r, closureFor g (U.length + 1) st.head? st fl = .done r := by
  cases hh : st.head? with
  | none => exact ⟨_, rfl⟩
  | some c =>
    exact closureFor_terminates g U hU _ c st fl
      (Nat.lt_succ_of_le (List.length_filter_le _ _)) hst

theorem mem_initialItems (k : Char) (rhs : Str) :
    ∀ (g : CMap (List Str)), rhs ∈ g.get k [] →
      (⟨k, rhs, 0⟩ : Situation) ∈ initialItems g := by
  intro g
  induction g with
  | nil => intro h; simp [CMap.get] at h
  | cons p rest ih =>
    intro h
    obtain ⟨k', v⟩ := p
    simp only [CMap.get] at h
    simp only [initialItems, List.mem_append, List.mem_map]
    by_cases e : k' = k
    · rw [if_pos e] at h
      subst e
      exact Or.inl ⟨rhs, h, rfl⟩
    · rw [if_neg e] at h
      exact Or.inr (ih h)

theorem added_mem_initialItems (g : CMap (List Str)) (it : Situation) (h : Added g it) :
    it ∈ initialItems g := by
  obtain ⟨h0, _, hr⟩ := h
  have := mem_initialItems it.non_terminal it.rule g hr
  obtain ⟨a, b, c⟩ := it
  simp only at h0
  subst h0
  exact this

/-- The method `Closure` on a sorted set, inside a finite universe `U` of items: the
first pass of the `for` loop ends; with the flag clear after it `Closure` returns the set
the pass produced, with the flag set it never returns. -/
theorem Closure_by_first_pass (g : CMap (List Str)) (U : List Situation)
    (hU : ∀ it, Added g it → it ∈ U) (st : List Situation) (hs : SetSorted st)
    (hst : ∀ it ∈ st, it ∈ U) :
    ∃ r fl, closureFor g (U.length + 1) st.head? st false = .done (r, fl) ∧
      (fl = false → ∀ fuel, U.length + 1 ≤ fuel → Closure fuel g st = .done r) ∧
      (fl = true → Blocked g r ∧ SetSorted r ∧ ∀ fuel, Closure fuel g st = .diverge) := by
  obtain ⟨⟨r, fl⟩, hpass⟩ := closureFor_terminates_head g U hU st false hst
  refine ⟨r, fl, hpass, ?_, ?_⟩
  · intro hfl fuel hfuel
    subst hfl
    obtain ⟨n, rfl⟩ : ∃ n, fuel = n + 1 := ⟨fuel - 1, by omega⟩
    unfold Closure
    simp only [closureLoop]
    rw [closureFor_mono g _ (n + 1) _ _ _ _ hfuel hpass]
    rfl
  · intro hfl
    subst hfl
    have hb : Blocked g r := by
      rcases closureFor_flag_true g _ _ _ _ _ hpass
        (fun c hc => List.mem_of_mem_head? hc) rfl with h | h
      · cases h
      · exact h
    have hsr : SetSorted r := closureFor_set SetSorted setSorted_inv g _ _ _ _ _ hs hpass
    exact ⟨hb, hsr, closureLoop_diverges_step g st r _ hpass
      (fun fuel => closureLoop_blocked_diverges g fuel r hsr hb)⟩

/-- A pass of the `for` loop over a sorted set in which a failing insertion can be
attempted ends with the flag set and leaves such a set again. -/
theorem closureFor_blocked (g : CMap (List Str)) (st : List Situation) (hs : SetSorted st)
    (hb : Blocked g st) (n : Nat) (p : List Situation × Bool)
    (hc : closureFor g n st.head? st false = .done p) :
    p.2 = true ∧ Blocked g p.1 ∧ SetSorted p.1 := by
  obtain ⟨x, hx, hd, hnt, rhs, hrhs, hmem⟩ := hb
  obtain ⟨c, hhead, hle⟩ := head_le_of_sorted x st hs hx
  rw [hhead] at hc
  exact ⟨closureFor_visits g x hd hnt rhs hrhs _ c st false p hc hs hx hmem hle,
    Blocked_mono g st p.1 (closureFor_subset g _ _ _ _ _ hc)
      ⟨x, hx, hd, hnt, rhs, hrhs, hmem⟩,
    closureFor_set SetSorted setSorted_inv g _ _ _ _ p hs hc⟩

theorem mem_dottedItems (k : Char) (r : Str) (d : Nat) (h : d ≤ r.length) :
    (⟨k, r, d⟩ : Situation) ∈ dottedItems k r := by
  unfold dottedItems
  exact List.mem_map.2 ⟨d, List.mem_range.2 (by omega), rfl⟩

theorem mem_ruleItems (k : Char) (r : Str) (d : Nat) (h : d ≤ r.length) :
    ∀ (rules : List Str), r ∈ rules → (⟨k, r, d⟩ : Situation) ∈ ruleItems k rules := by
  intro rules
  induction rules with
  | nil => intro hr; cases hr
  | cons r' rest ih =>
    intro hr
    simp only [ruleItems, List.mem_append]
    rcases List.mem_cons.1 hr with rfl | hr'
    · exact Or.inl (mem_dottedItems k r d h)
    · exact Or.inr (ih hr')

theorem mem_allItems (k : Char) (r : Str) (d : Nat) (h : d ≤ r.length) :
    ∀ (g : CMap (List Str)), r ∈ g.get k [] → (⟨k, r, d⟩ : Situation) ∈ allItems g := by
  intro g
  induction g with
  | nil => intro hr; simp [CMap.get] at hr
  | cons p rest ih =>
    intro hr
    obtain ⟨k', v⟩ := p
    simp only [CMap.get] at hr
    simp only [allItems, List.mem_append]
    by_cases e : k' = k
    · rw [if_pos e] at hr
      subst e
      exact Or.inl (mem_ruleItems k' r d h v hr)
    · rw [if_neg e] at hr
      exact Or.inr (ih hr)

theorem ItemOK_mem_universe (g : CMap (List Str)) (it : Situation) (h : ItemOK g it) :
    it ∈ itemUniverse g := by
  obtain ⟨k, r, d⟩ := it
  obtain ⟨hd, h2⟩ := h
  simp only at hd h2
  unfold itemUniverse
  rcases h2 with ⟨h3, h4⟩ | ⟨_, h4⟩
  · subst h3 h4
    exact List.mem_append_left _ (mem_dottedItems _ _ d hd)
  · exact List.mem_append_right _ (mem_allItems k r d hd g h4)

theorem Built_good (gr : Grammar) (I : List Situation) (h : Built gr I) :
    SetSorted I ∧ ∀ it ∈ I, ItemOK gr.grammar_ it := by
  induction h with
  | start n r h =>
    refine ⟨closureLoop_set SetSorted setSorted_inv _ n _ r ?_ h,
      Closure_ItemOK _ n _ r ?_ h⟩
    · exact List.pairwise_singleton _ _
    · intro it hit
      rw [List.mem_singleton] at hit
      subst hit
      exact ⟨by simp, Or.inl ⟨rfl, rfl⟩⟩
  | step I c n r _ _ _ h ih =>
    exact ⟨closureLoop_set SetSorted setSorted_inv _ n _ r
        (advance_set SetSorted setSorted_inv c I [] List.Pairwise.nil) h,
      Closure_ItemOK _ n _ r (advance_ItemOK _ c I ih.2) h⟩

/-- A call of `Closure` on a sorted set of well-formed items that returns at all returns
within a fuel that depends on the grammar map only. -/
theorem Closure_uniform (g : CMap (List Str)) (st : List Situation) (hs : SetSorted st)
    (hst : ∀ it ∈ st, ItemOK g it) (n : Nat) (r : List Situation)
    (h : Closure n g st = .done r) (fuel : Nat) (hf : (itemUniverse g).length + 1 ≤ fuel) :
    Closure fuel g st = .done r := by
  obtain ⟨r', fl, _, hret, hdiv⟩ := Closure_by_first_pass g (itemUniverse g)
    (fun it ha => ItemOK_mem_universe g it (ItemOK_of_Added g it ha)) st hs
    (fun it hit => ItemOK_mem_universe g it (hst it hit))
  cases fl with
  | true =>
    rw [(hdiv rfl).2.2 n] at h
    cases h
  | false =>
    have h1 := hret rfl fuel hf
    rw [Closure_det g n fuel st r r' h h1]
    exact h1

theorem findState_none (x : List Situation) :
    ∀ (l : List (List Situation)) (i : Nat), findState x l i = none → x ∉ l := by
  intro l
  induction l with
  | nil => intro i _ h; cases h
  | cons y ys ih =>
    intro i h hx
    simp only [findState] at h
    by_cases e : y = x
    · rw [if_pos e] at h
      cases h
    · rw [if_neg e] at h
      rcases List.mem_cons.1 hx with e' | hx'
      · exact e e'.symm
      · exact ih (i + 1) h hx'

/-- A call of `GoTo` made by the construction returns, and what it appends to
`new_states` is an item set that is not among `algo_states_`. -/
theorem GoTo_terminates (gr : Grammar) (H : ClosureCallsReturn gr)
    (fuel : Nat) (hf : (itemUniverse gr.grammar_).length + 1 ≤ fuel)
    (sts : List (List Situation)) (I : List Situation) (hI : Built gr I) (c : Char)
    (hc : c ∈ gr.alphabet_non_terminal_ ∨ c ∈ gr.alphabet_terminal_)
    (ns : List (List Situation)) (ins : Bool) :
    ∃ v extra, GoTo fuel gr.grammar_ sts I c ns ins = .done (v, ns ++ extra) ∧
      ∀ J ∈ extra, Built gr J ∧ J ∉ sts := by
  unfold GoTo
  dsimp only
  by_cases hne : advance c I [] ≠ []
  · rw [if_pos hne]
    obtain ⟨n, r, hcl⟩ := H.2 I hI c hc hne
    have hgood := Built_good gr I hI
    have hcl' := Closure_uniform gr.grammar_ _
      (advance_set SetSorted setSorted_inv c I [] List.Pairwise.nil)
      (advance_ItemOK _ c I hgood.2) n r hcl fuel hf
    rw [hcl']
    dsimp only
    cases hfs : findState r sts 0 with
    | some i => exact ⟨some (i : Int), [], by simp, by simp⟩
    | none =>
      dsimp only
      cases ins with
      | true =>
        refine ⟨some (-1), [r], rfl, ?_⟩
        intro J hJ
        rw [List.mem_singleton] at hJ
        subst hJ
        exact ⟨Built.step I c n J hI hc hne hcl, findState_none J sts 0 hfs⟩
      | false => exact ⟨some (-1), [], by simp, by simp⟩
  · rw [if_neg hne]
    exact ⟨none, [], by simp, by simp⟩

theorem sweepSymbols_terminates (gr : Grammar) (H : ClosureCallsReturn gr)
    (fuel : Nat) (hf : (itemUniverse gr.grammar_).length + 1 ≤ fuel)
    (sts : List (List Situation)) (I : List Situation) (hI : Built gr I) :
    ∀ (cs : List Char),
      (∀ c ∈ cs, c ∈ gr.alphabet_non_terminal_ ∨ c ∈ gr.alphabet_terminal_) →
      ∀ (ns : List (List Situation)),
      ∃ extra, sweepSymbols fuel gr.grammar_ sts I cs ns = .done (ns ++ extra) ∧
        ∀ J ∈ extra, Built gr J ∧ J ∉ sts := by
  intro cs
  induction cs with
  | nil => intro _ ns; exact ⟨[], by simp [sweepSymbols], by simp⟩
  | cons c rest ih =>
    intro hcs ns
    obtain ⟨v, e1, h1, hb1⟩ := GoTo_terminates gr H fuel hf sts I hI c
      (hcs c (List.mem_cons_self _ _)) ns true
    obtain ⟨e2, h2, hb2⟩ := ih (fun c' hc' => hcs c' (List.mem_cons_of_mem _ hc'))
      (ns ++ e1)
    refine ⟨e1 ++ e2, ?_, ?_⟩
    · simp only [sweepSymbols]
      rw [h1]
      dsimp only
      rw [h2, List.append_assoc]
    · intro J hJ
      rcases List.mem_append.1 hJ with h | h
      · exact hb1 J h
      · exact hb2 J h

theorem sweepStates_terminates (gr : Grammar) (H : ClosureCallsReturn gr)
    (fuel : Nat) (hf : (itemUniverse gr.grammar_).length + 1 ≤ fuel)
    (sts : List (List Situation)) :
    ∀ (todo : List (List Situation)), (∀ I ∈ todo, Built gr I) →
      ∀ (ns : List (List Situation)),
      ∃ extra, sweepStates fuel gr sts todo ns = .done (ns ++ extra) ∧
        ∀ J ∈ extra, Built gr J ∧ J ∉ sts := by
  intro todo
  induction todo with
  | nil => intro _ ns; exact ⟨[], by simp [sweepStates], by simp⟩
  | cons I rest ih =>
    intro htodo ns
    have hI := htodo I (List.mem_cons_self _ _)
    obtain ⟨e1, h1, hb1⟩ := sweepSymbols_terminates gr H fuel hf sts I hI
      gr.alphabet_non_terminal_ (fun c hc => Or.inl hc) ns
    obtain ⟨e2, h2, hb2⟩ := sweepSymbols_terminates gr H fuel hf sts I hI
      gr.alphabet_terminal_ (fun c hc => Or.inr hc) (ns ++ e1)
    obtain ⟨e3, h3, hb3⟩ := ih (fun I' hI' => htodo I' (List.mem_cons_of_mem _ hI'))
      ((ns ++ e1) ++ e2)
    refine ⟨e1 ++ (e2 ++ e3), ?_, ?_⟩
    · simp only [sweepStates]
      rw [h1]
      dsimp only
      rw [h2]
      dsimp only
      rw [h3]
      simp only [List.append_assoc]
    · intro J hJ
      rcases List.mem_append.1 hJ with h | h
      · exact hb1 J h
      · rcases List.mem_append.1 h with h | h
        · exact hb2 J h
        · exact hb3 J h

theorem setSorted_nodup (s : List Situation) (h : SetSorted s) : s.Nodup := by
  unfold SetSorted at h
  exact h.imp (fun {a b} hab e => by
    rw [e, Situation.lt_irrefl] at hab
    cases hab)

/-- Two sorted sets with the same elements are the same list. -/
theorem setSorted_ext (a b : List Situation) (ha : SetSorted a) (hb : SetSorted b)
    (h : a.toFinset = b.toFinset) : a = b := by
  haveI : IsAntisymm Situation (fun x y => x.lt y = true) :=
    ⟨fun x y h1 h2 => by rw [Situation.lt_asymm h1] at h2; cases h2⟩
  exact List.eq_of_perm_of_sorted
    (List.perm_of_nodup_nodup_toFinset_eq (setSorted_nodup a ha) (setSorted_nodup b hb) h)
    ha hb

theorem distinctCount_le (U : List Situation) (sts : List (List Situation))
    (h : ∀ I ∈ sts, ∀ it ∈ I, it ∈ U) : distinctCount sts ≤ 2 ^ U.length := by
  unfold distinctCount
  have hsub : (sts.map List.toFinset).toFinset ⊆ U.toFinset.powerset := by
    intro s hs
    rw [List.mem_toFinset, List.mem_map] at hs
    obtain ⟨I, hI, rfl⟩ := hs
    rw [Finset.mem_powerset]
    intro it hit
    rw [List.mem_toFinset] at hit ⊢
    exact h I hI it hit
  calc ((sts.map List.toFinset).toFinset).card
      ≤ (U.toFinset.powerset).card := Finset.card_le_card hsub
    _ = 2 ^ U.toFinset.card := Finset.card_powerset _
    _ ≤ 2 ^ U.length := Nat.pow_le_pow_right (by decide) (List.toFinset_card_le U)

theorem distinctCount_lt (sts ns : List (List Situation)) (J : List Situation)
    (hJ : J ∈ ns) (hnew : J ∉ sts) (hsJ : SetSorted J) (hs : ∀ I ∈ sts, SetSorted I) :
    distinctCount sts < distinctCount (sts ++ ns) := by
  unfold distinctCount
  apply Finset.card_lt_card
  rw [Finset.ssubset_iff_of_subset]
  · refine ⟨J.toFinset, ?_, ?_⟩
    · rw [List.mem_toFinset, List.mem_map]
      exact ⟨J, List.mem_append_right _ hJ, rfl⟩
    · intro hmem
      rw [List.mem_toFinset, List.mem_map] at hmem
      obtain ⟨I, hI, he⟩ := hmem
      have := setSorted_ext I J (hs I hI) hsJ he
      subst this
      exact hnew hI
  · intro s hs'
    rw [List.mem_toFinset, List.mem_map] at hs' ⊢
    obtain ⟨I, hI, rfl⟩ := hs'
    exact ⟨I, List.mem_append_left _ hI, rfl⟩

/-- The `while (true)` loop of `BuildGrammarStates` stops: every sweep that does not stop
adds an item set that was not among the states, and there are at most
`2 ^ |itemUniverse|` distinct item sets. -/
theorem buildLoop_terminates (gr : Grammar) (H : ClosureCallsReturn gr) :
    ∀ (k : Nat) (sts : List (List Situation)), (∀ I ∈ sts, Built gr I) →
      2 ^ (itemUniverse gr.grammar_).length - distinctCount sts < k →
      ∃ res, buildLoop gr ((itemUniverse gr.grammar_).length + 1 + k) sts = .done res := by
  intro k
  induction k with
  | zero => intro sts _ h; omega
  | succ k ih =>
    intro sts hsts hk
    obtain ⟨ns, hsw, hns⟩ := sweepStates_terminates gr H
      ((itemUniverse gr.grammar_).length + 1 + k + 1) (by omega) sts sts hsts []
    rw [List.nil_append] at hsw
    have e : (itemUniverse gr.grammar_).length + 1 + (k + 1) =
        ((itemUniverse gr.grammar_).length + 1 + k) + 1 := by omega
    rw [e]
    simp only [buildLoop]
    rw [hsw]
    dsimp only
    cases ns with
    | nil => exact ⟨sts, by simp⟩
    | cons J rest =>
      have hall : ∀ I ∈ sts ++ J :: rest, Built gr I := by
        intro I hI
        rcases List.mem_append.1 hI with h | h
        · exact hsts I h
        · exact (hns I h).1
      have hJ := hns J (List.mem_cons_self _ _)
      have hlt := distinctCount_lt sts (J :: rest) J (List.mem_cons_self _ _) hJ.2
        (Built_good gr J hJ.1).1 (fun I hI => (Built_good gr I (hsts I hI)).1)
      have hle := distinctCount_le (itemUniverse gr.grammar_) (sts ++ J :: rest)
        (fun I hI it hit => ItemOK_mem_universe _ it ((Built_good gr I (hall I hI)).2 it hit))
      obtain ⟨res, hres⟩ := ih (sts ++ J :: rest) hall (by omega)
      exact ⟨res, by simpa using hres⟩

theorem BuildGrammarStates_terminates (gr : Grammar) (H : ClosureCallsReturn gr) :
    ∃ sts, BuildGrammarStates
      ((itemUniverse gr.grammar_).length + 1 + (2 ^ (itemUniverse gr.grammar_).length + 1))
      gr = .done sts := by
  obtain ⟨n, r, hcl⟩ := H.1
  have hB : Built gr r := Built.start n r hcl
  have hcl' := Closure_uniform gr.grammar_ _ (List.pairwise_singleton _ _)
    (fun it hit => by
      rw [List.mem_singleton] at hit
      subst hit
      exact ⟨by simp, Or.inl ⟨rfl, rfl⟩⟩) n r hcl
    ((itemUniverse gr.grammar_).length + 1 + (2 ^ (itemUniverse gr.grammar_).length + 1))
    (Nat.le_add_right _ _)
  obtain ⟨res, hres⟩ := buildLoop_terminates gr H
    (2 ^ (itemUniverse gr.grammar_).length + 1) [r]
    (fun I hI => by rw [List.mem_singleton] at hI; subst hI; exact hB)
    (Nat.lt_succ_of_le (Nat.sub_le _ _))
  refine ⟨res, ?_⟩
  unfold BuildGrammarStates
  rw [hcl']
  exact hres

/-- What a sweep of `BuildGrammarStates` collects in `new_states` is not among
`algo_states_`. -/
theorem GoTo_new_states_fresh (g : CMap (List Str)) (n : Nat)
    (sts : List (List Situation)) (I : List Situation) (X : Char)
    (ns : List (List Situation)) (ins : Bool) (r : Option Int × List (List Situation))
    (hns : ∀ J ∈ ns, J ∉ sts)
    (h : GoTo n g sts I X ns ins = .done r) : ∀ J ∈ r.2, J ∉ sts := by
  unfold GoTo at h
  dsimp only at h
  by_cases hne : advance X I [] ≠ []
  · rw [if_pos hne] at h
    cases hcl : Closure n g (advance X I []) with
    | diverge => rw [hcl] at h; cases h
    | undefined => rw [hcl] at h; cases h
    | done closed =>
      rw [hcl] at h
      dsimp only at h
      cases hfs : findState closed sts 0 with
      | some i =>
        rw [hfs] at h
        simp only [Outcome.done.injEq] at h
        subst h
        exact hns
      | none =>
        rw [hfs] at h
        simp only [Outcome.done.injEq] at h
        subst h
        cases ins with
        | false => exact hns
        | true =>
          intro J hJ
          simp only [if_true] at hJ
          rcases List.mem_append.1 hJ with h1 | h1
          · exact hns J h1
          · rw [List.mem_singleton] at h1
            subst h1
            exact findState_none J sts 0 hfs
  · rw [if_neg hne] at h
    simp only [Outcome.done.injEq] at h
    subst h
    exact hns

theorem sweepSymbols_fresh (g : CMap (List Str)) (n : Nat)
    (sts : List (List Situation)) (I : List Situation) :
    ∀ (cs : List Char) (ns r : List (List Situation)), (∀ J ∈ ns, J ∉ sts) →
      sweepSymbols n g sts I cs ns = .done r → ∀ J ∈ r, J ∉ sts := by
  intro cs
  induction cs with
  | nil =>
    intro ns r hns h
    simp only [sweepSymbols, Outcome.done.injEq] at h
    subst h
    exact hns
  | cons c rest ih =>
    intro ns r hns h
    simp only [sweepSymbols] at h
    cases hg : GoTo n g sts I c ns true with
    | diverge => rw [hg] at h; cases h
    | undefined => rw [hg] at h; cases h
    | done v =>
      rw [hg] at h
      exact ih _ _ (GoTo_new_states_fresh g n sts I c ns true v hns hg) h

theorem sweepStates_fresh (gr : Grammar) (n : Nat) (sts : List (List Situation)) :
    ∀ (todo : List (List Situation)) (ns r : List (List Situation)),
      (∀ J ∈ ns, J ∉ sts) →
      sweepStates n gr sts todo ns = .done r → ∀ J ∈ r, J ∉ sts := by
  intro todo
  induction todo with
  | nil =>
    intro ns r hns h
    simp only [sweepStates, Outcome.done.injEq] at h
    subst h
    exact hns
  | cons I rest ih =>
    intro ns r hns h
    simp only [sweepStates] at h
    cases h1 : sweepSymbols n gr.grammar_ sts I gr.alphabet_non_terminal_ ns with
    | diverge => rw [h1] at h; cases h
    | undefined => rw [h1] at h; cases h
    | done ns1 =>
      rw [h1] at h
      dsimp only at h
      cases h2 : sweepSymbols n gr.grammar_ sts I gr.alphabet_terminal_ ns1 with
      | diverge => rw [h2] at h; cases h
      | undefined => rw [h2] at h; cases h
      | done ns2 =>
        rw [h2] at h
        exact ih _ _ (sweepSymbols_fresh _ n sts I _ _ _
          (sweepSymbols_fresh _ n sts I _ _ _ hns h1) h2) h

/-- A list of item sets that holds the closure of the start set and is closed under the
transitions of the construction holds every item set the construction can come to
hold. -/
theorem Built_mem_of_closed (gr : Grammar) (n : Nat) (L : List (List Situation))
    (hstart : ∃ r ∈ L, Closure n gr.grammar_ [⟨fake_start, ['S'], 0⟩] = .done r)
    (hstep : ∀ I ∈ L, ∀ c ∈ gr.alphabet_non_terminal_ ++ gr.alphabet_terminal_,
      advance c I [] ≠ [] → ∃ r ∈ L, Closure n gr.grammar_ (advance c I []) = .done r) :
    ∀ I, Built gr I → I ∈ L := by
  intro I hI
  induction hI with
  | start m r h =>
    obtain ⟨r', hr', h'⟩ := hstart
    rw [Closure_det _ m n _ r r' h h']
    exact hr'
  | step I c m r _ hc hne h ih =>
    obtain ⟨r', hr', h'⟩ := hstep I ih c (List.mem_append.2 hc) hne
    rw [Closure_det _ m n _ r r' h h']
    exact hr'

theorem closureCallsReturn_of_closed (gr : Grammar) (n : Nat) (L : List (List Situation))
    (hstart : ∃ r ∈ L, Closure n gr.grammar_ [⟨fake_start, ['S'], 0⟩] = .done r)
    (hstep : ∀ I ∈ L, ∀ c ∈ gr.alphabet_non_terminal_ ++ gr.alphabet_terminal_,
      advance c I [] ≠ [] → ∃ r ∈ L, Closure n gr.grammar_ (advance c I []) = .done r) :
    ClosureCallsReturn gr := by
  refine ⟨?_, ?_⟩
  · obtain ⟨r, _, h⟩ := hstart
    exact ⟨n, r, h⟩
  · intro I hI c hc hne
    obtain ⟨r, _, h⟩ := hstep I (Built_mem_of_closed gr n L hstart hstep I hI) c
      (List.mem_append.2 hc) hne
    exact ⟨n, r, h⟩

/-! ## The construction of the automaton under the strict reading of `GoTo` -/

theorem closureLoop_ne_undefined (g : CMap (List Str)) :
    ∀ (n : Nat) (st : List Situation), closureLoop g n st ≠ .undefined := by
  intro n
  induction n with
  | zero => intro st h; cases h
  | succ k ih =>
    intro st
    simp only [closureLoop]
    cases hc : closureFor g (k + 1) st.head? st false with
    | diverge => intro h; cases h
    | undefined => exact absurd hc (closureFor_ne_undefined g _ _ _ _)
    | done r =>
      dsimp only
      split_ifs
      · exact ih _
      · intro h; cases h

/-- An outcome of `Closure` other than running out of fuel is the same on more fuel. -/
theorem Closure_stable (g : CMap (List Str)) (n m : Nat) (st : List Situation)
    (r : Outcome (List Situation)) (hnm : n ≤ m) (h : Closure n g st = r)
    (hr : r ≠ .diverge) : Closure m g st = r := by
  cases r with
  | done v => exact Closure_mono g n m st v hnm h
  | diverge => exact absurd rfl hr
  | undefined => exact absurd h (closureLoop_ne_undefined g n st)

theorem GoToStrict_stable (g : CMap (List Str)) (n m : Nat) (sts : List (List Situation))
    (I : List Situation) (c : Char) (ns : List (List Situation)) (ins : Bool)
    (r : Outcome (Option Int × List (List Situation))) (hnm : n ≤ m)
    (h : GoToStrict n g sts I c ns ins = r) (hr : r ≠ .diverge) :
    GoToStrict m g sts I c ns ins = r := by
  unfold GoToStrict at h ⊢
  dsimp only at h ⊢
  by_cases hne : advance c I [] ≠ []
  · rw [if_pos hne] at h ⊢
    cases hc : Closure n g (advance c I []) with
    | done closed =>
      rw [Closure_mono g n m _ closed hnm hc]
      rw [hc] at h
      exact h
    | diverge =>
      rw [hc] at h
      exact absurd h.symm hr
    | undefined => exact absurd hc (closureLoop_ne_undefined g n _)
  · rw [if_neg hne] at h ⊢
    exact h

theorem sweepSymbolsStrict_stable (g : CMap (List Str)) (n m : Nat)
    (sts : List (List Situation)) (I : List Situation) (hnm : n ≤ m) :
    ∀ (cs : List Char) (ns : List (List Situation)) (r : Outcome (List (List Situation))),
      sweepSymbolsStrict n g sts I cs ns = r → r ≠ .diverge →
      sweepSymbolsStrict m g sts I cs ns = r := by
  intro cs
  induction cs with
  | nil => intro ns r h _; exact h
  | cons c rest ih =>
    intro ns r h hr
    simp only [sweepSymbolsStrict] at h ⊢
    cases hg : GoToStrict n g sts I c ns true with
    | done v =>
      rw [GoToStrict_stable g n m sts I c ns true _ hnm hg (by intro e; cases e)]
      rw [hg] at h
      exact ih _ _ h hr
    | diverge =>
      rw [hg] at h
      exact absurd h.symm hr
    | undefined =>
      rw [GoToStrict_stable g n m sts I c ns true _ hnm hg (by intro e; cases e)]
      rw [hg] at h
      exact h

theorem sweepStatesStrict_stable (gr : Grammar) (n m : Nat) (sts : List (List Situation))
    (hnm : n ≤ m) :
    ∀ (todo ns : List (List Situation)) (r : Outcome (List (List Situation))),
      sweepStatesStrict n gr sts todo ns = r → r ≠ .diverge →
      sweepStatesStrict m gr sts todo ns = r := by
  intro todo
  induction todo with
  | nil => intro ns r h _; exact h
  | cons I rest ih =>
    intro ns r h hr
    simp only [sweepStatesStrict] at h ⊢
    cases h1 : sweepSymbolsStrict n gr.grammar_ sts I gr.alphabet_non_terminal_ ns with
    | done ns1 =>
      rw [sweepSymbolsStrict_stable _ n m sts I hnm _ _ _ h1 (by intro e; cases e)]
      rw [h1] at h
      dsimp only at h ⊢
      cases h2 : sweepSymbolsStrict n gr.grammar_ sts I gr.alphabet_terminal_ ns1 with
      | done ns2 =>
        rw [sweepSymbolsStrict_stable _ n m sts I hnm _ _ _ h2 (by intro e; cases e)]
        rw [h2] at h
        exact ih _ _ h hr
      | diverge =>
        rw [h2] at h
        exact absurd h.symm hr
      | undefined =>
        rw [sweepSymbolsStrict_stable _ n m sts I hnm _ _ _ h2 (by intro e; cases e)]
        rw [h2] at h
        exact h
    | diverge =>
      rw [h1] at h
      exact absurd h.symm hr
    | undefined =>
      rw [sweepSymbolsStrict_stable _ n m sts I hnm _ _ _ h1 (by intro e; cases e)]
      rw [h1] at h
      exact h

theorem buildLoopStrict_stable (gr : Grammar) :
    ∀ (n m : Nat) (sts : List (List Situation)) (r : Outcome (List (List Situation))),
      n ≤ m → buildLoopStrict gr n sts = r → r ≠ .diverge → buildLoopStrict gr m sts = r := by
  intro n
  induction n with
  | zero =>
    intro m sts r _ h hr
    exact absurd h.symm hr
  | succ k ih =>
    intro m sts r hnm h hr
    obtain ⟨m', rfl⟩ : ∃ m', m = m' + 1 := ⟨m - 1, by omega⟩
    simp only [buildLoopStrict] at h ⊢
    cases hs : sweepStatesStrict (k + 1) gr sts sts [] with
    | done ns =>
      rw [sweepStatesStrict_stable gr (k + 1) (m' + 1) sts hnm _ _ _ hs (by intro e; cases e)]
      rw [hs] at h
      dsimp only at h ⊢
      split_ifs at h ⊢
      · exact h
      · exact ih m' _ _ (by omega) h hr
    | diverge =>
      rw [hs] at h
      exact absurd h.symm hr
    | undefined =>
      rw [sweepStatesStrict_stable gr (k + 1) (m' + 1) sts hnm _ _ _ hs (by intro e; cases e)]
      rw [hs] at h
      exact h

/-- An outcome of the construction of the automaton, read strictly, other than running
out of fuel is the same on more fuel. -/
theorem BuildGrammarStatesStrict_stable (gr : Grammar) (n m : Nat)
    (r : Outcome (List (List Situation))) (hnm : n ≤ m)
    (h : BuildGrammarStatesStrict n gr = r) (hr : r ≠ .diverge) :
    BuildGrammarStatesStrict m gr = r := by
  unfold BuildGrammarStatesStrict at h ⊢
  cases hc : Closure n gr.grammar_ [⟨fake_start, ['S'], 0⟩] with
  | done state0 =>
    rw [Closure_mono _ n m _ state0 hnm hc]
    rw [hc] at h
    exact buildLoopStrict_stable gr n m _ r hnm h hr
  | diverge =>
    rw [hc] at h
    exact absurd h.symm hr
  | undefined => exact absurd hc (closureLoop_ne_undefined _ n _)

/-- Once the construction of the automaton, read strictly, is undefined, so is
`LR1_alg` on every input and every larger fuel. -/
theorem LR1_algStrict_undefined (rules : List Str) (w : Str) (n m : Nat) (hnm : n ≤ m)
    (h : BuildGrammarStatesStrict n (Grammar.ofRules rules) = .undefined) :
    LR1_algStrict m rules w = .undefined := by
  have h' := BuildGrammarStatesStrict_stable _ n m _ hnm h (by intro e; cases e)
  unfold LR1_algStrict MakeTableStrict
  rw [h']

theorem GoToStrict_done (g : CMap (List Str)) (n : Nat) (sts : List (List Situation))
    (I : List Situation) (c : Char) (ns : List (List Situation)) (ins : Bool)
    (r : Option Int × List (List Situation))
    (h : GoToStrict n g sts I c ns ins = .done r) :
    advance c I [] ≠ [] ∧ GoTo n g sts I c ns ins = .done r := by
  unfold GoToStrict at h
  unfold GoTo
  dsimp only at h ⊢
  by_cases hne : advance c I [] ≠ []
  · rw [if_pos hne] at h ⊢
    exact ⟨hne, h⟩
  · rw [if_neg hne] at h
    cases h

theorem sweepSymbolsStrict_done (g : CMap (List Str)) (n : Nat)
    (sts : List (List Situation)) (I : List Situation) :
    ∀ (cs : List Char) (ns r : List (List Situation)),
      sweepSymbolsStrict n g sts I cs ns = .done r →
      (∀ c ∈ cs, advance c I [] ≠ []) ∧ sweepSymbols n g sts I cs ns = .done r := by
  intro cs
  induction cs with
  | nil => intro ns r h; exact ⟨fun c hc => (by cases hc), h⟩
  | cons c rest ih =>
    intro ns r h
    simp only [sweepSymbolsStrict] at h
    simp only [sweepSymbols]
    cases hg : GoToStrict n g sts I c ns true with
    | diverge => rw [hg] at h; cases h
    | undefined => rw [hg] at h; cases h
    | done v =>
      rw [hg] at h
      obtain ⟨h1, h2⟩ := GoToStrict_done g n sts I c ns true v hg
      obtain ⟨h3, h4⟩ := ih _ _ h
      rw [h2]
      refine ⟨?_, h4⟩
      intro c' hc'
      rcases List.mem_cons.1 hc' with rfl | hc''
      · exact h1
      · exact h3 c' hc''

theorem sweepStatesStrict_done (gr : Grammar) (n : Nat) (sts : List (List Situation)) :
    ∀ (todo ns r : List (List Situation)),
      sweepStatesStrict n gr sts todo ns = .done r →
      (∀ I ∈ todo, ∀ c, (c ∈ gr.alphabet_non_terminal_ ∨ c ∈ gr.alphabet_terminal_) →
        advance c I [] ≠ []) ∧ sweepStates n gr sts todo ns = .done r := by
  intro todo
  induction todo with
  | nil => intro ns r h; exact ⟨fun I hI => (by cases hI), h⟩
  | cons I rest ih =>
    intro ns r h
    simp only [sweepStatesStrict] at h
    simp only [sweepStates]
    cases h1 : sweepSymbolsStrict n gr.grammar_ sts I gr.alphabet_non_terminal_ ns with
    | diverge => rw [h1] at h; cases h
    | undefined => rw [h1] at h; cases h
    | done ns1 =>
      rw [h1] at h
      dsimp only at h
      cases h2 : sweepSymbolsStrict n gr.grammar_ sts I gr.alphabet_terminal_ ns1 with
      | diverge => rw [h2] at h; cases h
      | undefined => rw [h2] at h; cases h
      | done ns2 =>
        rw [h2] at h
        obtain ⟨a1, b1⟩ := sweepSymbolsStrict_done _ n sts I _ _ _ h1
        obtain ⟨a2, b2⟩ := sweepSymbolsStrict_done _ n sts I _ _ _ h2
        obtain ⟨a3, b3⟩ := ih _ _ h
        rw [b1]
        dsimp only
        rw [b2]
        refine ⟨?_, b3⟩
        intro J hJ c hc
        rcases List.mem_cons.1 hJ with rfl | hJ'
        · rcases hc with hc | hc
          · exact a1 c hc
          · exact a2 c hc
        · exact a3 J hJ' c hc

theorem buildLoopStrict_done (gr : Grammar) :
    ∀ (n : Nat) (sts r : List (List Situation)), buildLoopStrict gr n sts = .done r →
      (∀ I ∈ r, ∀ c, (c ∈ gr.alphabet_non_terminal_ ∨ c ∈ gr.alphabet_terminal_) →
        advance c I [] ≠ []) ∧ buildLoop gr n sts = .done r := by
  intro n
  induction n with
  | zero => intro sts r h; cases h
  | succ k ih =>
    intro sts r h
    simp only [buildLoopStrict] at h
    simp only [buildLoop]
    cases hs : sweepStatesStrict (k + 1) gr sts sts [] with
    | diverge => rw [hs] at h; cases h
    | undefined => rw [hs] at h; cases h
    | done ns =>
      rw [hs] at h
      dsimp only at h
      obtain ⟨a, b⟩ := sweepStatesStrict_done gr (k + 1) sts sts [] ns hs
      rw [b]
      dsimp only
      split_ifs at h ⊢
      · simp only [Outcome.done.injEq] at h
        subst h
        exact ⟨a, rfl⟩
      · exact ih _ _ h

/-- Where the construction of the automaton, read strictly, returns, no call of `GoTo`
reached the closing brace: every stored item set has an item to advance over every symbol
of the alphabets; and the construction returns the same states in the other reading. -/
theorem BuildGrammarStatesStrict_done (gr : Grammar) (n : Nat) (sts : List (List Situation))
    (h : BuildGrammarStatesStrict n gr = .done sts) :
    (∀ I ∈ sts, ∀ c, (c ∈ gr.alphabet_non_terminal_ ∨ c ∈ gr.alphabet_terminal_) →
      advance c I [] ≠ []) ∧ BuildGrammarStates n gr = .done sts := by
  unfold BuildGrammarStatesStrict at h
  unfold BuildGrammarStates
  cases hc : Closure n gr.grammar_ [⟨fake_start, ['S'], 0⟩] with
  | diverge => rw [hc] at h; cases h
  | undefined => rw [hc] at h; cases h
  | done state0 =>
    rw [hc] at h
    exact buildLoopStrict_done gr n _ sts h

/-! ## The reading in which `GoTo` hands control back at its closing brace -/

/-- In the reading in which a call of `GoTo` that reaches its closing brace hands control
back to its caller, the four fixture cases of `tests.h` give the recorded values: fuel 6
is enough, and so is any larger fuel. -/
theorem fixtures_return_expected (n : Nat) :
    LR1_alg (6 + n) [str "S->AB", str "A->a", str "B->b"] (str "ab") = .done true ∧
    LR1_alg (6 + n) [str "S->AB", str "S->", str "A->a", str "B->b"] (str "") = .done true ∧
    LR1_alg (6 + n) [str "S->AB", str "A->BC", str "A->a", str "B->b", str "C->c"]
      (str "abc") = .done false ∧
    LR1_alg (6 + n) [str "S->AB", str "S->", str "A->a", str "B->b", str "B->AA"]
      (str "aaaa") = .done false := by
  refine ⟨?_, ?_, ?_, ?_⟩ <;>
    exact LR1_alg_mono _ _ 6 (6 + n) _ (Nat.le_add_right 6 n) (by decide)

/-- In the reading in which a call of `GoTo` that reaches its closing brace hands control
back to its caller: for every grammar for which every call of `Closure` made during the
construction returns, `BuildGrammarStates` returns (on every large enough fuel, with the
same states). The sweep loop stops after
finitely many sweeps, because what a sweep collects in `new_states` is never among
`algo_states_`, and the item sets of the construction are sorted sets over the finite
universe `itemUniverse`. -/
theorem BuildGrammarStates_reaches_fixpoint (gr : Grammar) (H : ClosureCallsReturn gr) :
    (∃ fuel sts, ∀ fuel', fuel ≤ fuel' → BuildGrammarStates fuel' gr = .done sts) ∧
    (∀ fuel sts ns, sweepStates fuel gr sts sts [] = .done ns → ∀ J ∈ ns, J ∉ sts) ∧
    (∀ I, Built gr I → SetSorted I ∧ ∀ it ∈ I, it ∈ itemUniverse gr.grammar_) := by
  refine ⟨?_, ?_, ?_⟩
  · obtain ⟨sts, h⟩ := BuildGrammarStates_terminates gr H
    exact ⟨_, sts, fun fuel' hf => BuildGrammarStates_mono gr _ fuel' sts hf h⟩
  · intro fuel sts ns h
    exact sweepStates_fresh gr fuel sts sts [] ns (fun J hJ => by cases hJ) h
  · intro I hI
    have hg := Built_good gr I hI
    exact ⟨hg.1, fun it hit => ItemOK_mem_universe _ it (hg.2 it hit)⟩

/-! ## Completeness of the recognizer on tables without conflicts -/

theorem gen_refl (g : CMap (List Str)) : ∀ (w : Str), Gen g w w := by
  intro w
  induction w with
  | nil => exact Gen.nil
  | cons c rest ih => exact Gen.leaf c rest rest ih

theorem gen_append (g : CMap (List Str)) (b w2 : Str) (hb : Gen g b w2) :
    ∀ (a w1 : Str), Gen g a w1 → Gen g (a ++ b) (w1 ++ w2) := by
  intro a w1 ha
  induction ha with
  | nil => exact hb
  | leaf c rest w _ ih => exact Gen.leaf c (rest ++ b) (w ++ w2) ih
  | node N rhs rest u1 u2 hr h1 _ _ ih2 =>
    rw [List.append_assoc]
    exact Gen.node N rhs (rest ++ b) u1 (u2 ++ w2) hr h1 ih2

theorem gen_split (g : CMap (List Str)) (b : Str) :
    ∀ (a w : Str), Gen g (a ++ b) w → ∃ w1 w2, w = w1 ++ w2 ∧ Gen g a w1 ∧ Gen g b w2 := by
  intro a
  induction a with
  | nil => intro w h; exact ⟨[], w, rfl, Gen.nil, h⟩
  | cons c rest ih =>
    intro w h
    rw [List.cons_append] at h
    cases h with
    | leaf _ _ w' h' =>
      obtain ⟨w1, w2, e, h1, h2⟩ := ih w' h'
      exact ⟨c :: w1, w2, by rw [e]; rfl, Gen.leaf c rest w1 h1, h2⟩
    | node _ rhs _ u1 u2 hr h1 h2 =>
      obtain ⟨w1, w2, e, h3, h4⟩ := ih u2 h2
      exact ⟨u1 ++ w1, w2, by rw [e, List.append_assoc], Gen.node c rhs rest u1 w1 hr h1 h3,
        h4⟩

theorem gen_step (g : CMap (List Str)) (u v w : Str) (hs : Step g u v) (h : Gen g v w) :
    Gen g u w := by
  cases hs with
  | mk u0 v0 N rhs hr =>
    rw [List.append_assoc] at h
    obtain ⟨wa, wr, e1, ha, hrest⟩ := gen_split g (rhs ++ v0) u0 w h
    obtain ⟨wb, wc, e2, hb, hc⟩ := gen_split g v0 rhs wr hrest
    rw [e1, e2]
    exact gen_append g (N :: v0) (wb ++ wc) (Gen.node N rhs v0 wb wc hr hb hc) u0 wa ha

/-- A derivation by steps is a generation through derivation trees. -/
theorem gen_of_derives (g : CMap (List Str)) (u w : Str) (h : Derives g u w) :
    Gen g u w := by
  unfold Derives at h
  induction h using Relation.ReflTransGen.head_induction_on with
  | refl => exact gen_refl g w
  | head hs _ ih => exact gen_step g _ _ w hs ih

theorem runN_trans (t : LR1_algorithm) (alph : List Char) (s : Str) (k2 : Nat)
    (i2 : Nat) (st2 : List Int) (i3 : Nat) (st3 : List Int)
    (h2 : RunN t alph s k2 i2 st2 i3 st3) :
    ∀ (k1 : Nat) (i1 : Nat) (st1 : List Int), RunN t alph s k1 i1 st1 i2 st2 →
      RunN t alph s (k1 + k2) i1 st1 i3 st3 := by
  intro k1 i1 st1 h1
  induction h1 with
  | refl i st => rw [Nat.zero_add]; exact h2
  | step k i st ia sta ib stb hlt hs _ ih =>
    have := RunN.step (k + k2) i st ia sta i3 st3 hlt hs (ih h2)
    rw [show k + 1 + k2 = k + k2 + 1 by omega]
    exact this

theorem runN_checkLoop (t : LR1_algorithm) (alph : List Char) (s : Str) (n : Nat)
    (r : Outcome Bool) :
    ∀ (k : Nat) (i : Nat) (st : List Int) (i' : Nat) (st' : List Int),
      RunN t alph s k i st i' st' → checkLoop t alph s n i' st' = r →
      checkLoop t alph s (n + k) i st = r := by
  intro k i st i' st' h
  induction h with
  | refl i st => intro hr; exact hr
  | step k i st ia sta ib stb hlt hs _ ih =>
    intro hr
    rw [show n + (k + 1) = (n + k) + 1 by omega]
    simp only [checkLoop]
    rw [if_pos hlt, hs]
    exact ih hr

theorem documentedRule_form (r : Str) (h : documentedRule r = true) :
    RuleForm r ∧ r.headD nul ≠ '>' ∧ IsNonTerminal (r.headD nul) = true := by
  unfold documentedRule at h
  split at h
  · rename_i L R
    simp only [Bool.and_eq_true, List.all_eq_true, Bool.or_eq_true] at h
    refine ⟨⟨L, R, rfl, ?_⟩, ?_, h.1⟩
    · intro hmem
      have := h.2 '>' hmem
      revert this
      decide
    · intro e
      simp only [List.headD_cons] at e
      have h1 := h.1
      rw [e] at h1
      revert h1
      decide
  · cases h

/-- In a rule list of the documented format every key of the production map is an
uppercase letter. -/
theorem documented_keys (rules : List Str) (hdoc : ∀ r ∈ rules, documentedRule r = true)
    (N : Char) (rhs : Str) (h : rhs ∈ (Grammar.ofRules rules).grammar_.get N []) :
    IsNonTerminal N = true := by
  have hget : (Grammar.ofRules rules).grammar_.get N [] = rhsOf N rules := by
    unfold Grammar.ofRules
    rw [foldl_grammar_get N rules _ (fun r hr =>
      ⟨(documentedRule_form r (hdoc r hr)).1, (documentedRule_form r (hdoc r hr)).2.1⟩)]
    simp [CMap.get]
  rw [hget] at h
  unfold rhsOf at h
  rw [List.mem_filterMap] at h
  obtain ⟨r, hr, hsome⟩ := h
  by_cases e : r.headD nul = N
  · rw [← e]
    exact (documentedRule_form r (hdoc r hr)).2.2
  · rw [if_neg e] at hsome
    cases hsome

theorem mem_advance_acc (X : Char) (y : Situation) :
    ∀ (I acc : List Situation), y ∈ acc → y ∈ advance X I acc := by
  intro I
  induction I with
  | nil => intro acc h; exact h
  | cons x rest ih =>
    intro acc h
    simp only [advance]
    split_ifs
    · exact ih _ (mem_setInsert_of_mem _ _ _ h)
    · exact ih _ h

theorem mem_advance_of_mem (X : Char) (x : Situation) (hd : x.dot_pos < x.rule.length)
    (hx : x.rule.getD x.dot_pos nul = X) :
    ∀ (I acc : List Situation), x ∈ I →
      (⟨x.non_terminal, x.rule, x.dot_pos + 1⟩ : Situation) ∈ advance X I acc := by
  intro I
  induction I with
  | nil => intro acc h; cases h
  | cons y rest ih =>
    intro acc h
    simp only [advance]
    rcases List.mem_cons.1 h with rfl | h'
    · rw [if_pos (by rw [Bool.and_eq_true]; exact ⟨decide_eq_true hd, decide_eq_true hx⟩)]
      exact mem_advance_acc X _ rest _ (self_mem_setInsert _ _)
    · split_ifs
      · exact ih _ h'
      · exact ih _ h'

theorem closureLoop_superset (g : CMap (List Str)) :
    ∀ (n : Nat) (st r : List Situation), closureLoop g n st = .done r →
      ∀ it ∈ st, it ∈ r := by
  intro n
  induction n with
  | zero => intro st r h; cases h
  | succ k ih =>
    intro st r h it hit
    simp only [closureLoop] at h
    cases hc : closureFor g (k + 1) st.head? st false with
    | diverge => rw [hc] at h; cases h
    | undefined => rw [hc] at h; cases h
    | done p =>
      rw [hc] at h
      dsimp only at h
      have hsub := closureFor_subset g _ _ _ _ _ hc it hit
      split_ifs at h
      · exact ih _ _ h it hsub
      · simp only [Outcome.done.injEq] at h
        subst h
        exact hsub

theorem buildLoop_head (gr : Grammar) :
    ∀ (n : Nat) (sts r : List (List Situation)) (I0 : List Situation),
      buildLoop gr n sts = .done r → sts.get? 0 = some I0 → r.get? 0 = some I0 := by
  intro n
  induction n with
  | zero => intro sts r I0 h; cases h
  | succ k ih =>
    intro sts r I0 h h0
    simp only [buildLoop] at h
    cases hs : sweepStates (k + 1) gr sts sts [] with
    | diverge => rw [hs] at h; cases h
    | undefined => rw [hs] at h; cases h
    | done ns =>
      rw [hs] at h
      dsimp only at h
      split_ifs at h
      · simp only [Outcome.done.injEq] at h
        subst h
        exact h0
      · refine ih _ _ I0 h ?_
        cases sts with
        | nil => cases h0
        | cons a rest => exact h0

/-- State `0` of the automaton holds the augmented item with the dot at `0`. -/
theorem BuildGrammarStates_head (gr : Grammar) (n : Nat) (sts : List (List Situation))
    (h : BuildGrammarStates n gr = .done sts) :
    ∃ I0, sts.get? 0 = some I0 ∧ (⟨fake_start, ['S'], 0⟩ : Situation) ∈ I0 := by
  unfold BuildGrammarStates at h
  cases hc : Closure n gr.grammar_ [⟨fake_start, ['S'], 0⟩] with
  | diverge => rw [hc] at h; cases h
  | undefined => rw [hc] at h; cases h
  | done state0 =>
    rw [hc] at h
    exact ⟨state0, buildLoop_head gr n _ sts state0 h rfl,
      closureLoop_superset _ n _ state0 hc _ (List.mem_singleton.2 rfl)⟩

theorem foldl_write_agree {α : Type} (f : Situation → Option α) (a : α) :
    ∀ (I : List Situation) (init : α), (∀ y ∈ I, f y = none ∨ f y = some a) →
      (init = a ∨ ∃ x ∈ I, f x = some a) →
      I.foldl (fun acc it => (f it).getD acc) init = a := by
  intro I
  induction I with
  | nil =>
    intro init _ h
    rcases h with h | ⟨x, hx, _⟩
    · exact h
    · cases hx
  | cons y rest ih =>
    intro init hall h
    simp only [List.foldl_cons]
    apply ih _ (fun z hz => hall z (List.mem_cons_of_mem _ hz))
    rcases hall y (List.mem_cons_self _ _) with hy | hy
    · rw [hy]
      rcases h with h | ⟨x, hx, hfx⟩
      · exact Or.inl h
      · rcases List.mem_cons.1 hx with rfl | hx'
        · rw [hy] at hfx
          cases hfx
        · exact Or.inr ⟨x, hx', hfx⟩
    · rw [hy]
      exact Or.inl rfl

/-- On tables without conflicts a cell holds what any one of its writers writes. -/
theorem cell_of_writer (gr : Grammar) (n : Nat) (t : LR1_algorithm)
    (hm : MakeTable n gr = .done t) (hcf : ConflictFree n gr t.algo_states_)
    (s : Nat) (I : List Situation) (row : CMap TableAction)
    (hI : t.algo_states_.get? s = some I) (hrow : t.shift_reduce_table_.get? s = some row)
    (c : Char) (hc : c = EndPtr ∨ c ∈ gr.alphabet_terminal_) (x : Situation) (hx : x ∈ I)
    (a : TableAction) (hwx : cellWrite n gr t.algo_states_ I c x = some a) :
    row.get c defaultCell = a := by
  obtain ⟨row', hrow', hget⟩ := forall2_get _ _ _ (MakeTable_get gr n t hm c hc) s I hI
  rw [hrow] at hrow'
  simp only [Option.some.injEq] at hrow'
  subst hrow'
  rw [hget]
  apply foldl_write_agree _ a I errorCell
  · intro y hy
    have hcmem : c ∈ EndPtr :: gr.alphabet_terminal_ := by
      rcases hc with rfl | hc
      · exact List.mem_cons_self _ _
      · exact List.mem_cons_of_mem _ hc
    rcases hcf I (List.get?_mem hI) c hcmem x hx y hy with h | h | h
    · rw [hwx] at h
      cases h
    · exact Or.inl h
    · rw [hwx] at h
      exact Or.inr h.symm
  · exact Or.inr ⟨x, hx, hwx⟩

theorem getD_prefix (c : Char) (rest : Str) :
    ∀ (a : Str), (a ++ c :: rest).getD a.length nul = c := by
  intro a
  induction a with
  | nil => rfl
  | cons y ys ih => simpa using ih

theorem getD_column (w : Str) :
    ∀ (i : Nat), i ≤ w.length →
      (w ++ [EndPtr]).getD i nul = EndPtr ∨ (w ++ [EndPtr]).getD i nul ∈ w := by
  induction w with
  | nil =>
    intro i hi
    have : i = 0 := by simpa using hi
    subst this
    exact Or.inl rfl
  | cons y ys ih =>
    intro i hi
    cases i with
    | zero => exact Or.inr (by simp)
    | succ j =>
      have hj : j ≤ ys.length := by simpa using hi
      rcases ih j hj with h | h
      · left
        simpa using h
      · right
        have : ((y :: ys) ++ [EndPtr]).getD (j + 1) nul = (ys ++ [EndPtr]).getD j nul := by
          simp
        rw [this]
        exact List.mem_cons_of_mem _ h

theorem target_holds_advanced (g : CMap (List Str)) (states : List (List Situation))
    (I : List Situation) (c : Char) (v : Int) (h : Target g states I c v)
    (x : Situation) (hx : x ∈ I) (hd : x.dot_pos < x.rule.length)
    (hc : x.rule.getD x.dot_pos nul = c) :
    ∃ (tt : Nat) (J : List Situation), v = (tt : Int) ∧ states.get? tt = some J ∧
      (⟨x.non_terminal, x.rule, x.dot_pos + 1⟩ : Situation) ∈ J := by
  obtain ⟨tt, J, n, hv, hJ, hcl⟩ := h
  exact ⟨tt, J, hv, hJ, closureLoop_superset g n _ J hcl _
    (mem_advance_of_mem c x hd hc I [] hx)⟩

/-- The SHIFT pass of the loop body on tables without conflicts: with an item in the top
state that has the current terminal after its dot, the body pushes a state that holds the
item advanced by one and moves the cursor on. -/
theorem shift_step (rules : List Str) (n : Nat) (t : LR1_algorithm)
    (hm : MakeTable n (Grammar.ofRules rules) = .done t)
    (hcf : ConflictFree n (Grammar.ofRules rules) t.algo_states_)
    (str_find : Str) (i : Nat) (s : Nat) (rest : List Int) (I : List Situation)
    (hI : t.algo_states_.get? s = some I) (x : Situation) (hx : x ∈ I)
    (hd : x.dot_pos < x.rule.length) (c : Char) (hxc : x.rule.getD x.dot_pos nul = c)
    (hc : c ∈ (Grammar.ofRules rules).alphabet_terminal_)
    (hsym : str_find.getD i nul = c) :
    ∃ (tt : Nat) (J : List Situation),
      checkStep t (Grammar.ofRules rules).alphabet_terminal_ str_find i ((s : Int) :: rest)
        = .next (i + 1) ((tt : Int) :: (s : Int) :: rest) ∧
      t.algo_states_.get? tt = some J ∧
      (⟨x.non_terminal, x.rule, x.dot_pos + 1⟩ : Situation) ∈ J := by
  obtain ⟨_, _, _, _, _, hR2, _⟩ := MakeTable_facts rules n t hm
  obtain ⟨row, hrow, hrow2⟩ := forall2_get _ _ _ hR2 s I hI
  have hterm : IsTerminal c = true := ((mem_alphabet_terminal rules c).1 hc).1
  have hw : cellWrite n (Grammar.ofRules rules) t.algo_states_ I c x =
      some ⟨.SHIFT, gotoValue n (Grammar.ofRules rules).grammar_ t.algo_states_ I c, nul⟩ := by
    unfold cellWrite
    rw [if_neg (by omega), if_pos ⟨hxc, hterm⟩]
  have hcell := cell_of_writer _ n t hm hcf s I row hI hrow c (Or.inr hc) x hx _ hw
  have hact : (row.get c defaultCell).action = .SHIFT := by rw [hcell]
  obtain ⟨tt, J, hv, hJ, hmem⟩ := target_holds_advanced _ _ I c _
    ((hrow2 c (Or.inr hc)).2 hact) x hx hd hxc
  refine ⟨tt, J, ?_, hJ, hmem⟩
  have hin : IsInAlphabet c (Grammar.ofRules rules).alphabet_terminal_ = true :=
    (isInAlphabet_iff _ _).2 (Or.inr hc)
  have hvec : vecAt t.shift_reduce_table_ (s : Int) = some row := by
    rw [vecAt_natCast]; exact hrow
  simp only [checkStep, hsym, hin, hvec, Bool.not_true, Bool.false_eq_true, if_false, hact,
    if_true, Shift, hv]

/-- The REDUCE pass of the loop body on tables without conflicts: with the completed item
of a production `N -> rhs` in the top state and `len(rhs)` entries above a state that
holds an item with `N` after its dot, the body pops those entries and pushes a state that
holds that item advanced by one; the cursor stays. -/
theorem reduce_step (rules : List Str) (hS : ∃ r ∈ rules, 'S' ∈ r) (n : Nat)
    (t : LR1_algorithm) (hm : MakeTable n (Grammar.ofRules rules) = .done t)
    (hcf : ConflictFree n (Grammar.ofRules rules) t.algo_states_)
    (str_find : Str) (i : Nat) (pushed : List Int) (s : Nat) (rest : List Int)
    (I : List Situation) (hI : t.algo_states_.get? s = some I) (x : Situation) (hx : x ∈ I)
    (hd : x.dot_pos < x.rule.length) (N : Char) (hxN : x.rule.getD x.dot_pos nul = N)
    (hN : IsNonTerminal N = true) (rhs : Str)
    (hr : rhs ∈ (Grammar.ofRules rules).grammar_.get N [])
    (hlen : pushed.length = rhs.length)
    (htop : TopHas t.algo_states_ (pushed ++ (s : Int) :: rest) ⟨N, rhs, rhs.length⟩)
    (hsym : str_find.getD i nul = EndPtr ∨
      str_find.getD i nul ∈ (Grammar.ofRules rules).alphabet_terminal_) :
    ∃ (tt : Nat) (J : List Situation),
      checkStep t (Grammar.ofRules rules).alphabet_terminal_ str_find i
        (pushed ++ (s : Int) :: rest) = .next i ((tt : Int) :: (s : Int) :: rest) ∧
      t.algo_states_.get? tt = some J ∧
      (⟨x.non_terminal, x.rule, x.dot_pos + 1⟩ : Situation) ∈ J := by
  obtain ⟨hT, hSt, _, _, _, hR2, hG2⟩ := MakeTable_facts rules n t hm
  obtain ⟨s1, rest1, I1, hstack, hI1, hy⟩ := htop
  obtain ⟨row1, hrow1, _⟩ := forall2_get _ _ _ hR2 s1 I1 hI1
  obtain ⟨gotoRow, hgoto, hgoto2⟩ := forall2_get _ _ _ hG2 s I hI
  have hNf : N ≠ fake_start := by
    intro e
    rw [e, not_isNonTerminal_fake_start] at hN
    cases hN
  have hw : cellWrite n (Grammar.ofRules rules) t.algo_states_ I1 (str_find.getD i nul)
      ⟨N, rhs, rhs.length⟩ = some ⟨.REDUCE,
        (leastIndex rhs ((Grammar.ofRules rules).grammar_.get N []) : Nat), N⟩ := by
    unfold cellWrite
    rw [if_pos rfl, if_pos hNf]
  have hcell := cell_of_writer _ n t hm hcf s1 I1 row1 hI1 hrow1 _ hsym _ hy _ hw
  have hNalph : N ∈ (Grammar.ofRules rules).alphabet_non_terminal_ := by
    have := (symbol_after_dot_in_alphabet rules hS x
      (hSt.1 I (List.get?_mem hI) x hx) hd).1
    rw [hxN] at this
    exact this hN
  obtain ⟨tt, J, hv, hJ, hmem⟩ := target_holds_advanced _ _ I N _
    ((hgoto2 N hNalph).2 ⟨x, hx, hd, hxN⟩) x hx hd hxN
  refine ⟨tt, J, ?_, hJ, hmem⟩
  have hin : IsInAlphabet (str_find.getD i nul) (Grammar.ofRules rules).alphabet_terminal_
      = true := (isInAlphabet_iff _ _).2 hsym
  have hvec : vecAt t.shift_reduce_table_ (s1 : Int) = some row1 := by
    rw [vecAt_natCast]; exact hrow1
  have hdrop : (pushed ++ (s : Int) :: rest).drop rhs.length = (s : Int) :: rest := by
    rw [← hlen]
    exact List.drop_left _ _
  have hred : Reduce t (s1 : Int) (str_find.getD i nul) (pushed ++ (s : Int) :: rest) =
      .done (gotoRow.get (row1.get (str_find.getD i nul) defaultCell).start_symbol 0 ::
        (pushed ++ (s : Int) :: rest).drop rhs.length) := by
    apply Reduce_eq t _ _ _ row1 rhs gotoRow hvec
    · rw [hcell, hT]
      simp only
      rw [vecAt_natCast]
      exact (leastIndex_spec rhs _ hr).1
    · rw [List.length_append, List.length_cons, hlen]
      omega
    · rw [hdrop]
      simp only [List.headD_cons]
      rw [vecAt_natCast]
      exact hgoto
  rw [hdrop, hcell] at hred
  simp only at hred
  rw [hv] at hred
  have hact : (row1.get (str_find.getD i nul) defaultCell).action = .REDUCE := by rw [hcell]
  rw [hstack] at hred ⊢
  simp only [checkStep, hin, hvec, Bool.not_true, Bool.false_eq_true, if_false, hact,
    if_true, hred]
  simp

/-- The ACCEPT pass of the loop body on tables without conflicts: with the completed
augmented item in the top state and the cursor on the appended end marker, the body
returns `true`. -/
theorem accept_step (rules : List Str) (n : Nat) (t : LR1_algorithm)
    (hm : MakeTable n (Grammar.ofRules rules) = .done t)
    (hcf : ConflictFree n (Grammar.ofRules rules) t.algo_states_)
    (w : Str) (stack : List Int)
    (htop : TopHas t.algo_states_ stack ⟨fake_start, ['S'], 1⟩) :
    checkStep t (Grammar.ofRules rules).alphabet_terminal_ (w ++ [EndPtr]) w.length stack
      = .ret true := by
  obtain ⟨_, _, _, _, _, hR2, _⟩ := MakeTable_facts rules n t hm
  obtain ⟨s1, rest1, I1, hstack, hI1, hy⟩ := htop
  obtain ⟨row1, hrow1, _⟩ := forall2_get _ _ _ hR2 s1 I1 hI1
  have hw : cellWrite n (Grammar.ofRules rules) t.algo_states_ I1 EndPtr
      ⟨fake_start, ['S'], 1⟩ = some acceptCell := by
    unfold cellWrite
    rfl
  have hcell := cell_of_writer _ n t hm hcf s1 I1 row1 hI1 hrow1 EndPtr (Or.inl rfl) _ hy _ hw
  have hin : IsInAlphabet EndPtr (Grammar.ofRules rules).alphabet_terminal_ = true :=
    (isInAlphabet_iff _ _).2 (Or.inl rfl)
  have hvec : vecAt t.shift_reduce_table_ (s1 : Int) = some row1 := by
    rw [vecAt_natCast]; exact hrow1
  rw [hstack]
  simp only [checkStep, getD_append_EndPtr, hin, hvec, Bool.not_true, Bool.false_eq_true,
    if_false, hcell]
  simp [acceptCell]

/-- The recognizer follows a derivation tree. On tables without conflicts whose states
are closed: when the top state holds an item with the symbols `syms` after its dot and
`syms` generates the factor `u` of the input that starts at the cursor, the loop body
runs to the configuration in which `u` is consumed, one state per symbol of `syms` is
pushed, and the top state holds the item with the dot moved over `syms`. -/
theorem gen_run (rules : List Str) (hdoc : ∀ r ∈ rules, documentedRule r = true)
    (hS : ∃ r ∈ rules, 'S' ∈ r) (n : Nat) (t : LR1_algorithm)
    (hm : MakeTable n (Grammar.ofRules rules) = .done t)
    (hcf : ConflictFree n (Grammar.ofRules rules) t.algo_states_)
    (hclosed : ∀ I ∈ t.algo_states_, Closed (Grammar.ofRules rules).grammar_ I)
    (w : Str) (hw : ∀ c ∈ w, c ∈ (Grammar.ofRules rules).alphabet_terminal_) :
    ∀ (syms u : Str), Gen (Grammar.ofRules rules).grammar_ syms u →
      ∀ (A : Char) (rule pre post a b : Str) (stack : List Int),
        rule = pre ++ syms ++ post → w = a ++ u ++ b →
        TopHas t.algo_states_ stack ⟨A, rule, pre.length⟩ →
        ∃ (k : Nat) (pushed : List Int), pushed.length = syms.length ∧
          RunN t (Grammar.ofRules rules).alphabet_terminal_ (w ++ [EndPtr]) k
            a.length stack (a.length + u.length) (pushed ++ stack) ∧
          TopHas t.algo_states_ (pushed ++ stack) ⟨A, rule, pre.length + syms.length⟩ := by
  intro syms u hgen
  induction hgen with
  | nil =>
    intro A rule pre post a b stack _ _ htop
    exact ⟨0, [], rfl, RunN.refl _ _, htop⟩
  | leaf c rest u' _ ih =>
    intro A rule pre post a b stack hrule hwab htop
    obtain ⟨s, st', I, hstack, hI, hx⟩ := htop
    subst hstack
    have hd : pre.length < rule.length := by
      rw [hrule]
      simp only [List.length_append, List.length_cons]
      omega
    have hxc : rule.getD pre.length nul = c := by
      rw [hrule, List.append_assoc, List.cons_append]
      exact getD_prefix c _ pre
    have hcw : c ∈ w := by
      rw [hwab]
      simp
    have hsym : (w ++ [EndPtr]).getD a.length nul = c := by
      rw [hwab, List.append_assoc, List.append_assoc, List.cons_append]
      exact getD_prefix c _ a
    have hlt : a.length < (w ++ [EndPtr]).length := by
      rw [hwab]
      simp only [List.length_append, List.length_cons]
      omega
    obtain ⟨tt, J, hstep, hJ, hmem⟩ := shift_step rules n t hm hcf (w ++ [EndPtr]) a.length
      s st' I hI ⟨A, rule, pre.length⟩ hx hd c hxc (hw c hcw) hsym
    obtain ⟨k', pushed', hlen', hrun', htop'⟩ := ih A rule (pre ++ [c]) post (a ++ [c]) b
      ((tt : Int) :: (s : Int) :: st') (by rw [hrule]; simp) (by rw [hwab]; simp)
      ⟨tt, (s : Int) :: st', J, rfl, hJ, by simpa using hmem⟩
    refine ⟨k' + 1, pushed' ++ [(tt : Int)], by simp [hlen'], ?_, ?_⟩
    · have e1 : (a ++ [c]).length = a.length + 1 := by simp
      have e2 : a.length + 1 + u'.length = a.length + (c :: u').length := by
        simp only [List.length_cons]
        omega
      rw [e1, e2] at hrun'
      have e3 : pushed' ++ [(tt : Int)] ++ (s : Int) :: st' =
          pushed' ++ (tt : Int) :: (s : Int) :: st' := by simp
      rw [e3]
      exact RunN.step k' a.length _ _ _ _ _ hlt hstep hrun'
    · have e3 : pushed' ++ [(tt : Int)] ++ (s : Int) :: st' =
          pushed' ++ (tt : Int) :: (s : Int) :: st' := by simp
      have e4 : (pre ++ [c]).length + rest.length = pre.length + (c :: rest).length := by
        simp only [List.length_append, List.length_cons, List.length_nil]
        omega
      rw [e3, ← e4]
      exact htop'
  | node N rhs rest w1 w2 hr _ _ ih1 ih2 =>
    intro A rule pre post a b stack hrule hwab htop
    obtain ⟨s, st', I, hstack, hI, hx⟩ := htop
    subst hstack
    have hN := documented_keys rules hdoc N rhs hr
    have hd : pre.length < rule.length := by
      rw [hrule]
      simp only [List.length_append, List.length_cons]
      omega
    have hxN : rule.getD pre.length nul = N := by
      rw [hrule, List.append_assoc, List.cons_append]
      exact getD_prefix N _ pre
    have hitem0 : (⟨N, rhs, 0⟩ : Situation) ∈ I := by
      have := hclosed I (List.get?_mem hI) ⟨A, rule, pre.length⟩ hx hd
      simp only [hxN] at this
      exact this hN rhs hr
    obtain ⟨k1, pushed1, hlen1, hrun1, htop1⟩ := ih1 N rhs [] [] a (w2 ++ b)
      ((s : Int) :: st') (by simp) (by rw [hwab]; simp)
      ⟨s, st', I, rfl, hI, hitem0⟩
    have hle : a.length + w1.length ≤ w.length := by
      rw [hwab]
      simp only [List.length_append]
      omega
    have hsym : (w ++ [EndPtr]).getD (a.length + w1.length) nul = EndPtr ∨
        (w ++ [EndPtr]).getD (a.length + w1.length) nul ∈
          (Grammar.ofRules rules).alphabet_terminal_ := by
      rcases getD_column w _ hle with h | h
      · exact Or.inl h
      · exact Or.inr (hw _ h)
    have hlt : a.length + w1.length < (w ++ [EndPtr]).length := by
      simp only [List.length_append, List.length_cons, List.length_nil]
      omega
    have htop1' : TopHas t.algo_states_ (pushed1 ++ (s : Int) :: st') ⟨N, rhs, rhs.length⟩ := by
      simpa using htop1
    obtain ⟨tt, J, hstep, hJ, hmem⟩ := reduce_step rules hS n t hm hcf (w ++ [EndPtr])
      (a.length + w1.length) pushed1 s st' I hI ⟨A, rule, pre.length⟩ hx hd N hxN hN rhs hr
      hlen1 htop1' hsym
    obtain ⟨k2, pushed2, hlen2, hrun2, htop2⟩ := ih2 A rule (pre ++ [N]) post (a ++ w1) b
      ((tt : Int) :: (s : Int) :: st') (by rw [hrule]; simp) (by rw [hwab]; simp)
      ⟨tt, (s : Int) :: st', J, rfl, hJ, by simpa using hmem⟩
    have e3 : pushed2 ++ [(tt : Int)] ++ (s : Int) :: st' =
        pushed2 ++ (tt : Int) :: (s : Int) :: st' := by simp
    refine ⟨k1 + (k2 + 1), pushed2 ++ [(tt : Int)], by simp [hlen2], ?_, ?_⟩
    · have e1 : (a ++ w1).length = a.length + w1.length := by simp
      have e2 : a.length + w1.length + w2.length = a.length + (w1 ++ w2).length := by
        simp only [List.length_append]
        omega
      rw [e1, e2] at hrun2
      rw [e3]
      exact runN_trans t _ _ (k2 + 1) _ _ _ _
        (RunN.step k2 _ _ _ _ _ _ hlt hstep hrun2) k1 _ _ hrun1
    · have e4 : (pre ++ [N]).length + rest.length = pre.length + (N :: rest).length := by
        simp only [List.length_append, List.length_cons, List.length_nil]
        omega
      rw [e3, ← e4]
      exact htop2

/-- The rules `["S->AB","S->","A->a","B->b"]` give closed item sets and an action table
with a conflict; the rules of fixture 1 give a table without conflicts. -/
theorem conflict_examples :
    (∀ I ∈ (tablesOf 6 [str "S->AB", str "S->", str "A->a", str "B->b"]).algo_states_,
      Closed (Grammar.ofRules [str "S->AB", str "S->", str "A->a", str "B->b"]).grammar_ I) ∧
    ¬ ConflictFree 6 (Grammar.ofRules [str "S->AB", str "S->", str "A->a", str "B->b"])
      (tablesOf 6 [str "S->AB", str "S->", str "A->a", str "B->b"]).algo_states_ ∧
    ConflictFree 6 (Grammar.ofRules [str "S->AB", str "A->a", str "B->b"])
      (tablesOf 6 [str "S->AB", str "A->a", str "B->b"]).algo_states_ := by
  unfold Closed ConflictFree
  decide

/-! ## The claims -/

/-- C1: soundness of membership. For every rule list and every input `w`, if `LR1_alg`
returns `true` (so table construction completed) then `w` consists only of terminals of
the grammar and `w` is derivable from `'S'` with the productions stored in the grammar
map. -/
theorem LR1_alg_sound (fuel : Nat) (rules : List Str) (w : Str)
    (h : LR1_alg fuel rules w = .done true) :
    (∀ c ∈ w, c ∈ (Grammar.ofRules rules).alphabet_terminal_) ∧
      Derives (Grammar.ofRules rules).grammar_ ['S'] w :=
  LR1_alg_true_sound fuel rules w h

theorem LR1_alg_sound_witness :
    LR1_alg 6 [str "S->AB", str "A->a", str "B->b"] (str "ab") = .done true ∧
    (∀ c ∈ str "ab",
      c ∈ (Grammar.ofRules [str "S->AB", str "A->a", str "B->b"]).alphabet_terminal_) ∧
    Derives (Grammar.ofRules [str "S->AB", str "A->a", str "B->b"]).grammar_ ['S']
      (str "ab") :=
  ⟨by decide, LR1_alg_sound 6 [str "S->AB", str "A->a", str "B->b"] (str "ab") (by decide)⟩

/-- C2 (counterexample): the rules `["S->AB","S->","A->a","B->b"]` are in the documented
format and `"ab"` is a string of terminals derivable from `'S'`, yet `LR1_alg` returns
`false` on it (fuel 6) and returns `true` on no fuel: in state 0 the completed item
`(S, "", 0)` overwrites the SHIFT on `'a'` with a REDUCE. -/
theorem completeness_fails_on_conflict :
    (∀ r ∈ [str "S->AB", str "S->", str "A->a", str "B->b"], documentedRule r = true) ∧
    (∀ c ∈ str "ab",
      c ∈ (Grammar.ofRules [str "S->AB", str "S->", str "A->a", str "B->b"]).alphabet_terminal_) ∧
    Derives (Grammar.ofRules [str "S->AB", str "S->", str "A->a", str "B->b"]).grammar_
      ['S'] (str "ab") ∧
    LR1_alg 6 [str "S->AB", str "S->", str "A->a", str "B->b"] (str "ab") = .done false ∧
    ∀ fuel, LR1_alg fuel [str "S->AB", str "S->", str "A->a", str "B->b"] (str "ab")
      ≠ .done true := by
  refine ⟨by decide, by decide, ?_, by decide,
    LR1_alg_ne_true_of_false _ _ 6 (by decide)⟩
  have s1 : Step (Grammar.ofRules [str "S->AB", str "S->", str "A->a", str "B->b"]).grammar_
      ['S'] ['A', 'B'] := Step.mk [] [] 'S' ['A', 'B'] (by decide)
  have s2 : Step (Grammar.ofRules [str "S->AB", str "S->", str "A->a", str "B->b"]).grammar_
      ['A', 'B'] ['a', 'B'] := Step.mk [] ['B'] 'A' ['a'] (by decide)
  have s3 : Step (Grammar.ofRules [str "S->AB", str "S->", str "A->a", str "B->b"]).grammar_
      ['a', 'B'] ['a', 'b'] := Step.mk ['a'] [] 'B' ['b'] (by decide)
  exact ((Relation.ReflTransGen.single s1).tail s2).tail s3

/-- C2 (amended): completeness on tables without conflicts. For every rule list in the
documented format for which `MakeTable` has returned tables whose item sets are closed
and whose action table has no cell written differently by two items of its state: every
string `w` of terminals that is derivable from `'S'` is accepted, `CheckForAccess` on
these tables returns `true` (on every large enough fuel). -/
theorem completeness_without_conflicts (fuel : Nat) (rules : List Str) (t : LR1_algorithm)
    (w : Str) (hdoc : ∀ r ∈ rules, documentedRule r = true)
    (hm : MakeTable fuel (Grammar.ofRules rules) = .done t)
    (hclosed : ∀ I ∈ t.algo_states_, Closed (Grammar.ofRules rules).grammar_ I)
    (hcf : ConflictFree fuel (Grammar.ofRules rules) t.algo_states_)
    (hw : ∀ c ∈ w, c ∈ (Grammar.ofRules rules).alphabet_terminal_)
    (hd : Derives (Grammar.ofRules rules).grammar_ ['S'] w) :
    ∃ n, ∀ m, n ≤ m →
      CheckForAccess m t w (Grammar.ofRules rules).alphabet_terminal_ = .done true := by
  have hgen := gen_of_derives _ _ _ hd
  have hS : ∃ r ∈ rules, 'S' ∈ r := by
    have hne : (Grammar.ofRules rules).grammar_.get 'S' [] ≠ [] := by
      cases hgen with
      | leaf _ _ w' _ =>
        have := ((mem_alphabet_terminal rules 'S').1 (hw 'S' (List.mem_cons_self _ _))).1
        exact absurd this (by decide)
      | node _ rhs _ _ _ hr _ _ => exact List.ne_nil_of_mem hr
    exact ((mem_alphabet_non_terminal rules 'S').1
      (keysInAlphabet_ofRules rules 'S' (by decide) hne)).2
  obtain ⟨I0, hI0, hstart⟩ := BuildGrammarStates_head _ fuel _ (MakeTable_states _ fuel t hm)
  obtain ⟨k, pushed, _, hrun, htop⟩ := gen_run rules hdoc hS fuel t hm hcf hclosed w hw
    ['S'] w hgen fake_start ['S'] [] [] [] [] [0] rfl (by simp)
    ⟨0, [], I0, rfl, hI0, hstart⟩
  have hacc := accept_step rules fuel t hm hcf w (pushed ++ [0]) htop
  have hlast : checkLoop t (Grammar.ofRules rules).alphabet_terminal_ (w ++ [EndPtr]) 1
      w.length (pushed ++ [0]) = .done true := by
    simp only [checkLoop]
    rw [if_pos (by simp), hacc]
  have hall := runN_checkLoop t _ _ 1 _ k _ _ _ _ hrun
    (by simpa using hlast)
  refine ⟨1 + k, fun m hmk => ?_⟩
  unfold CheckForAccess
  exact checkLoop_mono t _ _ (1 + k) m 0 [0] true hmk (by simpa using hall)

theorem completeness_without_conflicts_witness :
    (∀ r ∈ [str "S->aSb", str "S->c"], documentedRule r = true) ∧
    MakeTable 6 (Grammar.ofRules [str "S->aSb", str "S->c"]) =
      .done (tablesOf 6 [str "S->aSb", str "S->c"]) ∧
    (∀ I ∈ (tablesOf 6 [str "S->aSb", str "S->c"]).algo_states_,
      Closed (Grammar.ofRules [str "S->aSb", str "S->c"]).grammar_ I) ∧
    ConflictFree 6 (Grammar.ofRules [str "S->aSb", str "S->c"])
      (tablesOf 6 [str "S->aSb", str "S->c"]).algo_states_ ∧
    (∀ c ∈ str "aacbb", c ∈ (Grammar.ofRules [str "S->aSb", str "S->c"]).alphabet_terminal_) ∧
    Derives (Grammar.ofRules [str "S->aSb", str "S->c"]).grammar_ ['S'] (str "aacbb") ∧
    ∃ n, ∀ m, n ≤ m →
      CheckForAccess m (tablesOf 6 [str "S->aSb", str "S->c"]) (str "aacbb")
        (Grammar.ofRules [str "S->aSb", str "S->c"]).alphabet_terminal_ = .done true :=
  have hd : Derives (Grammar.ofRules [str "S->aSb", str "S->c"]).grammar_ ['S']
      (str "aacbb") :=
    ((Relation.ReflTransGen.single (Step.mk [] [] 'S' ['a', 'S', 'b'] (by decide))).tail
      (Step.mk ['a'] ['b'] 'S' ['a', 'S', 'b'] (by decide))).tail
      (Step.mk ['a', 'a'] ['b', 'b'] 'S' ['c'] (by decide))
  have hclosed : ∀ I ∈ (tablesOf 6 [str "S->aSb", str "S->c"]).algo_states_,
      Closed (Grammar.ofRules [str "S->aSb", str "S->c"]).grammar_ I := by
    unfold Closed
    decide
  have hcf : ConflictFree 6 (Grammar.ofRules [str "S->aSb", str "S->c"])
      (tablesOf 6 [str "S->aSb", str "S->c"]).algo_states_ := by
    unfold ConflictFree
    decide
  ⟨by decide, by decide, hclosed, hcf, by decide, hd,
    completeness_without_conflicts 6 [str "S->aSb", str "S->c"]
      (tablesOf 6 [str "S->aSb", str "S->c"]) (str "aacbb") (by decide) (by decide)
      hclosed hcf (by decide) hd⟩

/-- C3 (the code at the failing inputs): on each of the four fixture cases of `tests.h`
the construction of the automaton calls `GoTo` for a state and a symbol that no item of
the state has after its dot, and the call reaches the closing brace of the `int`-valued
function without a `return`, which is undefined behaviour. For the first fixture this is
the call for state 0 and `'B'` in the first sweep. Read strictly, `LR1_alg` is undefined
on all four cases, on fuel 3 and on every larger fuel: no verdict is guaranteed. -/
theorem fixtures_reach_missing_return (n : Nat) :
    (Closure 3 (Grammar.ofRules [str "S->AB", str "A->a", str "B->b"]).grammar_
        [⟨fake_start, ['S'], 0⟩] = .done [⟨'#', ['S'], 0⟩, ⟨'A', ['a'], 0⟩, ⟨'S', ['A', 'B'], 0⟩] ∧
      'B' ∈ (Grammar.ofRules [str "S->AB", str "A->a", str "B->b"]).alphabet_non_terminal_ ∧
      advance 'B' [⟨'#', ['S'], 0⟩, ⟨'A', ['a'], 0⟩, ⟨'S', ['A', 'B'], 0⟩] [] = []) ∧
    LR1_algStrict (3 + n) [str "S->AB", str "A->a", str "B->b"] (str "ab") = .undefined ∧
    LR1_algStrict (3 + n) [str "S->AB", str "S->", str "A->a", str "B->b"] (str "")
      = .undefined ∧
    LR1_algStrict (3 + n) [str "S->AB", str "A->BC", str "A->a", str "B->b", str "C->c"]
      (str "abc") = .undefined ∧
    LR1_algStrict (3 + n) [str "S->AB", str "S->", str "A->a", str "B->b", str "B->AA"]
      (str "aaaa") = .undefined := by
  refine ⟨⟨by decide, by decide, by decide⟩, ?_, ?_, ?_, ?_⟩ <;>
    exact LR1_algStrict_undefined _ _ 3 (3 + n) (Nat.le_add_right 3 n) (by decide)

/-- C4 (the code at the failing input): for the rules `["S->a"]` table construction
completes, the input `"a$"` contains `'$'`, which is not in the terminal alphabet, and
`LR1_alg` does not return `false`: `IsInAlphabet` lets `'$'` pass, the cell reached is
ACCEPT at a cursor that is not the last position, and the run exhausts every fuel. -/
theorem dollar_inside_input_not_rejected :
    (∃ t, MakeTable 3 (Grammar.ofRules [str "S->a"]) = .done t) ∧
    ('$' ∈ str "a$" ∧ '$' ∉ (Grammar.ofRules [str "S->a"]).alphabet_terminal_) ∧
    ∀ fuel, LR1_alg fuel [str "S->a"] (str "a$") = .diverge := by
  refine ⟨⟨tablesOf 3 [str "S->a"], by decide⟩, by decide, ?_⟩
  intro fuel
  apply LR1_alg_diverges _ _ 3 [(0, [0]), (1, [2, 0]), (1, [1, 0])]
  · intro n hn
    interval_cases n <;> decide
  · decide
  · decide
  · decide

/-- C5 (the code at the failing inputs): recognition does not always terminate. On rules
`["S->"]` and input `"$"` the cell reached is ACCEPT while the cursor is not at the last
position, no branch of the loop body applies and the loop spins; on rules
`["S->A","A->S","A->a"]` and input `"a"` the loop cycles through REDUCE steps. Both
runs exhaust every fuel. -/
theorem recognition_may_not_terminate (fuel : Nat) :
    LR1_alg fuel [str "S->"] (str "$") = .diverge ∧
    LR1_alg fuel [str "S->A", str "A->S", str "A->a"] (str "a") = .diverge := by
  constructor
  · apply LR1_alg_diverges _ _ 3 [(0, [0]), (0, [1, 0])]
    · intro n hn
      interval_cases n <;> decide
    · decide
    · decide
    · decide
  · apply LR1_alg_diverges _ _ 3 [(0, [0]), (1, [3, 0]), (1, [2, 0]), (1, [1, 0])]
    · intro n hn
      interval_cases n <;> decide
    · decide
    · decide
    · decide

/-- C6 (counterexample): the rule list `["S-A"]`, whose only rule has no separator, is
not rejected. The constructor `Grammar` returns a grammar (no production, nonterminals
`A` and `S`), and `BuildGrammarStates` makes state 0 from it. In the reading in which a
call of `GoTo` that reaches its closing brace hands control back, the tables are built
(two states) and `LR1_alg` returns the verdict `false` on the empty input; read strictly,
the construction is undefined at the call of `GoTo` for state 0 and `'A'`. In neither
reading is there a format error. -/
theorem no_separator_not_rejected :
    Grammar.ofRules [str "S-A"] = ⟨[], [], ['A', 'S']⟩ ∧
    Closure 1 (Grammar.ofRules [str "S-A"]).grammar_ [⟨fake_start, ['S'], 0⟩]
      = .done [⟨'#', ['S'], 0⟩] ∧
    (∃ t, MakeTable 3 (Grammar.ofRules [str "S-A"]) = .done t ∧
      t.algo_states_ = [[⟨'#', ['S'], 0⟩], [⟨'#', ['S'], 1⟩]]) ∧
    LR1_alg 3 [str "S-A"] [] = .done false ∧
    advance 'A' [⟨'#', ['S'], 0⟩] [] = [] ∧
    BuildGrammarStatesStrict 1 (Grammar.ofRules [str "S-A"]) = .undefined := by
  refine ⟨by decide, by decide, ⟨tablesOf 3 [str "S-A"], by decide, by decide⟩, by decide,
    by decide, by decide⟩

/-- C6 (amended): a rule without `'>'` is not rejected. It contributes no production:
the production map of the rule list is the one of the list without that rule. Its
letters enter the alphabets: the nonterminal (terminal) alphabet of the rule list holds
the uppercase (lowercase) letters of the list without the rule and those of the rule. -/
theorem no_separator_rule_is_skipped (pre post : List Str) (rule : Str)
    (h : '>' ∉ rule) :
    (Grammar.ofRules (pre ++ rule :: post)).grammar_ =
        (Grammar.ofRules (pre ++ post)).grammar_ ∧
    (∀ c, c ∈ (Grammar.ofRules (pre ++ rule :: post)).alphabet_non_terminal_ ↔
      (c ∈ (Grammar.ofRules (pre ++ post)).alphabet_non_terminal_ ∨
        (IsNonTerminal c = true ∧ c ∈ rule))) ∧
    (∀ c, c ∈ (Grammar.ofRules (pre ++ rule :: post)).alphabet_terminal_ ↔
      (c ∈ (Grammar.ofRules (pre ++ post)).alphabet_terminal_ ∨
        (IsTerminal c = true ∧ c ∈ rule))) := by
  refine ⟨ofRules_grammar_drop_no_sep pre post rule h, ?_, ?_⟩
  · intro c
    simp only [mem_alphabet_non_terminal, List.mem_append, List.mem_cons]
    constructor
    · rintro ⟨hc, r, hr | hr | hr, hcr⟩
      · exact Or.inl ⟨hc, r, Or.inl hr, hcr⟩
      · subst hr
        exact Or.inr ⟨hc, hcr⟩
      · exact Or.inl ⟨hc, r, Or.inr hr, hcr⟩
    · rintro (⟨hc, r, hr | hr, hcr⟩ | ⟨hc, hcr⟩)
      · exact ⟨hc, r, Or.inl hr, hcr⟩
      · exact ⟨hc, r, Or.inr (Or.inr hr), hcr⟩
      · exact ⟨hc, rule, Or.inr (Or.inl rfl), hcr⟩
  · intro c
    simp only [mem_alphabet_terminal, List.mem_append, List.mem_cons]
    constructor
    · rintro ⟨hc, r, hr | hr | hr, hcr⟩
      · exact Or.inl ⟨hc, r, Or.inl hr, hcr⟩
      · subst hr
        exact Or.inr ⟨hc, hcr⟩
      · exact Or.inl ⟨hc, r, Or.inr hr, hcr⟩
    · rintro (⟨hc, r, hr | hr, hcr⟩ | ⟨hc, hcr⟩)
      · exact ⟨hc, r, Or.inl hr, hcr⟩
      · exact ⟨hc, r, Or.inr (Or.inr hr), hcr⟩
      · exact ⟨hc, rule, Or.inr (Or.inl rfl), hcr⟩

theorem no_separator_rule_is_skipped_witness :
    '>' ∉ str "S-Ab" ∧
    (Grammar.ofRules ([str "S->a"] ++ str "S-Ab" :: [str "B->c"])).grammar_ =
      (Grammar.ofRules ([str "S->a"] ++ [str "B->c"])).grammar_ ∧
    'A' ∈ (Grammar.ofRules ([str "S->a"] ++ str "S-Ab" :: [str "B->c"])).alphabet_non_terminal_ ∧
    'b' ∈ (Grammar.ofRules ([str "S->a"] ++ str "S-Ab" :: [str "B->c"])).alphabet_terminal_ :=
  ⟨by decide,
    (no_separator_rule_is_skipped [str "S->a"] [str "B->c"] (str "S-Ab") (by decide)).1,
    ((no_separator_rule_is_skipped [str "S->a"] [str "B->c"] (str "S-Ab") (by decide)).2.1
      'A').2 (Or.inr ⟨by decide, by decide⟩),
    ((no_separator_rule_is_skipped [str "S->a"] [str "B->c"] (str "S-Ab") (by decide)).2.2
      'b').2 (Or.inr ⟨by decide, by decide⟩)⟩

/-- C7 (counterexample): the rule `">->a"` has the form `L "->" R` with `L = '>'` and
`R = "a"` free of `'>'`, yet the constructor stores two right-hand sides under `'>'`,
`"->a"` and `"a"`, not the single `"a"`. -/
theorem separator_as_lhs_stores_two :
    (∀ r ∈ [str ">->a"], RuleForm r) ∧
    (Grammar.ofRules [str ">->a"]).grammar_.get '>' [] = [str "->a", str "a"] ∧
    rhsOf '>' [str ">->a"] = [str "a"] := by
  refine ⟨?_, by decide, by decide⟩
  intro r hr
  simp only [List.mem_singleton] at hr
  subst hr
  exact ⟨'>', ['a'], by decide, by decide⟩

/-- C7 (amended): for every rule list in which each rule has the form `L "->" R` with
`L` a single character other than `'>'` and `R` free of `'>'`, the constructor maps each
character `c` to exactly the right-hand sides of the rules whose first character is
`c`, in input order (duplicates and empty right-hand sides kept), and the two alphabets
are exactly the uppercase and the lowercase letters occurring in the rules. -/
theorem grammar_constructor_spec (rules : List Str)
    (h : ∀ r ∈ rules, RuleForm r ∧ r.headD nul ≠ '>') (c : Char) :
    (Grammar.ofRules rules).grammar_.get c [] = rhsOf c rules ∧
    (c ∈ (Grammar.ofRules rules).alphabet_non_terminal_ ↔
      IsNonTerminal c = true ∧ ∃ r ∈ rules, c ∈ r) ∧
    (c ∈ (Grammar.ofRules rules).alphabet_terminal_ ↔
      IsTerminal c = true ∧ ∃ r ∈ rules, c ∈ r) := by
  refine ⟨?_, mem_alphabet_non_terminal rules c, mem_alphabet_terminal rules c⟩
  unfold Grammar.ofRules
  rw [foldl_grammar_get c rules _ h]
  simp [CMap.get]

theorem grammar_constructor_spec_witness :
    (∀ r ∈ [str "S->AB", str "S->", str "S->AB"], RuleForm r ∧ r.headD nul ≠ '>') ∧
    (Grammar.ofRules [str "S->AB", str "S->", str "S->AB"]).grammar_.get 'S' [] =
      rhsOf 'S' [str "S->AB", str "S->", str "S->AB"] ∧
    rhsOf 'S' [str "S->AB", str "S->", str "S->AB"] = [str "AB", str "", str "AB"] := by
  have h : ∀ r ∈ [str "S->AB", str "S->", str "S->AB"],
      RuleForm r ∧ r.headD nul ≠ '>' := by
    intro r hr
    simp only [List.mem_cons, List.mem_singleton, List.not_mem_nil, or_false] at hr
    rcases hr with rfl | rfl | rfl
    · exact ⟨⟨'S', ['A', 'B'], by decide, by decide⟩, by decide⟩
    · exact ⟨⟨'S', [], by decide, by decide⟩, by decide⟩
    · exact ⟨⟨'S', ['A', 'B'], by decide, by decide⟩, by decide⟩
  exact ⟨h, (grammar_constructor_spec _ h 'S').1, by decide⟩

/-- C8 (the code at the failing inputs): `Closure` does not terminate on the start item
for the left-recursive rules `["S->Sa","S->a"]`, nor for the rule list
`["S->a","S->a"]` with a repeated rule: the `do ... while` loop exhausts every fuel. -/
theorem Closure_diverges_left_recursive (fuel : Nat) :
    Closure fuel (Grammar.ofRules [str "S->Sa", str "S->a"]).grammar_
        [⟨fake_start, ['S'], 0⟩] = .diverge ∧
    Closure fuel (Grammar.ofRules [str "S->a", str "S->a"]).grammar_
        [⟨fake_start, ['S'], 0⟩] = .diverge := by
  constructor
  · refine closureLoop_diverges_step _ _
      [⟨'#', ['S'], 0⟩, ⟨'S', ['S', 'a'], 0⟩, ⟨'S', ['a'], 0⟩] 3 (by decide) ?_ fuel
    exact closureLoop_diverges _ _ 3 (by decide)
  · exact closureLoop_diverges_step _ _ [⟨'#', ['S'], 0⟩, ⟨'S', ['a'], 0⟩] 2 (by decide)
      (closureLoop_diverges _ _ 2 (by decide)) fuel

/-- C9 (the code at the failing input): for the rules of fixture 3, `Closure` of the start
item returns a set that is not closed: it holds `(A, "BC", 0)`, whose symbol after the dot
is the nonterminal `B`, but not `(B, "b", 0)`. -/
theorem Closure_result_not_closed :
    Closure 2 (Grammar.ofRules
        [str "S->AB", str "A->BC", str "A->a", str "B->b", str "C->c"]).grammar_
        [⟨fake_start, ['S'], 0⟩] =
      .done [⟨'#', ['S'], 0⟩, ⟨'A', ['B', 'C'], 0⟩, ⟨'A', ['a'], 0⟩, ⟨'S', ['A', 'B'], 0⟩] ∧
    ¬ Closed (Grammar.ofRules
        [str "S->AB", str "A->BC", str "A->a", str "B->b", str "C->c"]).grammar_
      [⟨'#', ['S'], 0⟩, ⟨'A', ['B', 'C'], 0⟩, ⟨'A', ['a'], 0⟩, ⟨'S', ['A', 'B'], 0⟩] := by
  refine ⟨by decide, ?_⟩
  intro hcl
  have h := hcl ⟨'A', ['B', 'C'], 0⟩ (by decide) (by decide) (by decide) ['b'] (by decide)
  revert h
  decide

/-- C10 (the code at the failing input): for the rules `["S->aA","S->bA","A->c"]`
`BuildGrammarStates` completes with eight states of which the ones at indices 5 and 7
are the same item set `{(A, "c", 1)}`. -/
theorem BuildGrammarStates_duplicate_state :
    BuildGrammarStates 4 (Grammar.ofRules [str "S->aA", str "S->bA", str "A->c"]) =
      .done [[⟨'#', ['S'], 0⟩, ⟨'S', ['a', 'A'], 0⟩, ⟨'S', ['b', 'A'], 0⟩],
        [⟨'#', ['S'], 1⟩],
        [⟨'A', ['c'], 0⟩, ⟨'S', ['a', 'A'], 1⟩],
        [⟨'A', ['c'], 0⟩, ⟨'S', ['b', 'A'], 1⟩],
        [⟨'S', ['a', 'A'], 2⟩],
        [⟨'A', ['c'], 1⟩],
        [⟨'S', ['b', 'A'], 2⟩],
        [⟨'A', ['c'], 1⟩]] := by
  decide

/-- C19: the item order `operator<` is the strict lexicographic order on
(lhs, rhs, dot), with right-hand sides compared lexicographically; it is irreflexive and
transitive, of `a < b`, `b < a`, `a == b` exactly one holds, and `operator==` is equality
of the three components, so two items that a set cannot tell apart are the same item. -/
theorem Situation_order_strict_total (a b c : Situation) :
    (a.lt b = true ↔ a.non_terminal.toNat < b.non_terminal.toNat ∨
      (a.non_terminal = b.non_terminal ∧ (strLt a.rule b.rule = true ∨
        (a.rule = b.rule ∧ a.dot_pos < b.dot_pos)))) ∧
    (strLt a.rule b.rule = true ↔
      List.Lex (fun x y : Char => x.toNat < y.toNat) a.rule b.rule) ∧
    a.lt a = false ∧
    (a.lt b = true → b.lt c = true → a.lt c = true) ∧
    ((a.lt b = true ∧ b.lt a = false ∧ a.eq b = false) ∨
      (a.lt b = false ∧ b.lt a = true ∧ a.eq b = false) ∨
      (a.lt b = false ∧ b.lt a = false ∧ a.eq b = true)) ∧
    (a.eq b = true ↔ a.non_terminal = b.non_terminal ∧ a.rule = b.rule ∧
      a.dot_pos = b.dot_pos) ∧
    (a.eq b = true ↔ a = b) ∧
    ((a.lt b = false ∧ b.lt a = false) ↔ a = b) := by
  have hne : ∀ x y : Situation, x.lt y = true → x.eq y = false := by
    intro x y h
    cases he : x.eq y with
    | false => rfl
    | true =>
      have := (Situation.eq_iff x y).mp he
      subst this
      rw [Situation.lt_irrefl] at h
      cases h
  refine ⟨Situation.lt_iff a b, strLt_iff_lex _ _, Situation.lt_irrefl a,
    Situation.lt_trans a b c, ?_, ?_, Situation.eq_iff a b, ?_⟩
  · cases hab : a.lt b with
    | true => exact Or.inl ⟨rfl, Situation.lt_asymm hab, hne a b hab⟩
    | false =>
      cases hba : b.lt a with
      | true =>
        refine Or.inr (Or.inl ⟨rfl, rfl, ?_⟩)
        cases he : a.eq b with
        | false => rfl
        | true =>
          have := (Situation.eq_iff a b).mp he
          subst this
          rw [Situation.lt_irrefl] at hba
          cases hba
      | false =>
        exact Or.inr (Or.inr ⟨rfl, rfl,
          (Situation.eq_iff a b).mpr (Situation.lt_trichotomy a b hab hba)⟩)
  · simp [Situation.eq, and_assoc]
  · constructor
    · rintro ⟨h1, h2⟩
      exact Situation.lt_trichotomy a b h1 h2
    · rintro rfl
      exact ⟨Situation.lt_irrefl a, Situation.lt_irrefl a⟩

theorem Situation_order_strict_total_witness :
    (⟨'#', ['S'], 1⟩ : Situation).lt ⟨'A', ['S'], 1⟩ = true ∧
    (⟨'A', ['S'], 1⟩ : Situation).lt ⟨'A', ['a'], 0⟩ = true ∧
    (⟨'#', ['S'], 1⟩ : Situation).lt ⟨'A', ['a'], 0⟩ = true :=
  ⟨by decide, by decide,
    (Situation_order_strict_total ⟨'#', ['S'], 1⟩ ⟨'A', ['S'], 1⟩ ⟨'A', ['a'], 0⟩).2.2.2.1
      (by decide) (by decide)⟩

/-- C14: the REDUCE step. When the cell of the top state `s` and the current symbol is
REDUCE(N, k), `rhs` is production `k` of `N`, the stack has more than `n = len(rhs)`
entries and the exposed state has a goto row, then `Reduce` removes exactly the `n`
topmost entries and pushes `goto[s'][N]` for the exposed top `s'`; the loop body goes
round again with the cursor unchanged; the stack size changes by `1 - n`; and for an
empty right-hand side nothing is popped and the new entry lies on the old stack. -/
theorem Reduce_pops_rhs_and_pushes_goto (t : LR1_algorithm) (alphabet : List Char)
    (str_find : Str) (index : Nat) (s : Int) (rest : List Int)
    (row : CMap TableAction) (rhs : Str) (gotoRow : CMap Int)
    (hin : IsInAlphabet (str_find.getD index nul) alphabet = true)
    (hrow : vecAt t.shift_reduce_table_ s = some row)
    (hact : (row.get (str_find.getD index nul) defaultCell).action = .REDUCE)
    (hrule : vecAt (t.grammar_.get (row.get (str_find.getD index nul) defaultCell).start_symbol [])
      (row.get (str_find.getD index nul) defaultCell).index = some rhs)
    (hlen : rhs.length < (s :: rest).length)
    (hgoto : vecAt t.go_to_ (((s :: rest).drop rhs.length).headD 0) = some gotoRow) :
    Reduce t s (str_find.getD index nul) (s :: rest) =
      .done (gotoRow.get (row.get (str_find.getD index nul) defaultCell).start_symbol 0 ::
        (s :: rest).drop rhs.length) ∧
    checkStep t alphabet str_find index (s :: rest) =
      .next index (gotoRow.get (row.get (str_find.getD index nul) defaultCell).start_symbol 0 ::
        (s :: rest).drop rhs.length) ∧
    (gotoRow.get (row.get (str_find.getD index nul) defaultCell).start_symbol 0 ::
        (s :: rest).drop rhs.length).length + rhs.length = (s :: rest).length + 1 ∧
    (rhs = [] →
      Reduce t s (str_find.getD index nul) (s :: rest) =
        .done (gotoRow.get (row.get (str_find.getD index nul) defaultCell).start_symbol 0 ::
          s :: rest) ∧
      ((s :: rest).drop rhs.length).headD 0 = s) := by
  have hred := Reduce_eq t s (str_find.getD index nul) (s :: rest) row rhs gotoRow hrow hrule
    hlen hgoto
  refine ⟨hred, ?_, ?_, ?_⟩
  · unfold checkStep
    simp only [hin, Bool.not_true, Bool.false_eq_true, if_false, hrow, hact, reduceCtorEq,
      if_true, hred]
  · simp only [List.length_cons, List.length_drop] at hlen ⊢
    omega
  · intro he
    subst he
    exact ⟨by simpa using hred, by simp⟩

theorem Reduce_pops_rhs_and_pushes_goto_witness :
    Reduce (tablesOf 6 [str "S->AB", str "S->", str "A->a", str "B->b"]) 0 '$' [0] =
      .done [2, 0] ∧
    checkStep (tablesOf 6 [str "S->AB", str "S->", str "A->a", str "B->b"]) ['a', 'b']
      ['$'] 0 [0] = .next 0 [2, 0] :=
  have h := Reduce_pops_rhs_and_pushes_goto
    (tablesOf 6 [str "S->AB", str "S->", str "A->a", str "B->b"]) ['a', 'b'] ['$'] 0 0 []
    ((tablesOf 6 [str "S->AB", str "S->", str "A->a", str "B->b"]).shift_reduce_table_.headD [])
    []
    ((tablesOf 6 [str "S->AB", str "S->", str "A->a", str "B->b"]).go_to_.headD [])
    (by decide) (by decide) (by decide) (by decide) (by decide) (by decide)
  ⟨h.1, h.2.1⟩

/-- C16: on tables built by `MakeTable` the cursor never passes the appended end marker.
SHIFT cells stand only in columns of lowercase terminals, every configuration the loop
of `CheckForAccess` goes through still satisfies the loop condition `index < size`, and
so every verdict of `CheckForAccess` is returned from inside the loop body, never by the
`return false` after the loop. -/
theorem cursor_never_passes_end_marker (fuel : Nat) (rules : List Str) (w : Str)
    (t : LR1_algorithm) (index : Nat) (stack : List Int)
    (hm : MakeTable fuel (Grammar.ofRules rules) = .done t)
    (hr : Reach t (Grammar.ofRules rules).alphabet_terminal_ (w ++ [EndPtr]) index stack) :
    index < (w ++ [EndPtr]).length ∧
    (∀ row ∈ t.shift_reduce_table_, ∀ c,
      (c = EndPtr ∨ c ∈ (Grammar.ofRules rules).alphabet_terminal_) →
      (row.get c defaultCell).action = .SHIFT → IsTerminal c = true) ∧
    (∀ fuel' b, CheckForAccess fuel' t w (Grammar.ofRules rules).alphabet_terminal_ = .done b →
      ∃ i s, Reach t (Grammar.ofRules rules).alphabet_terminal_ (w ++ [EndPtr]) i s ∧
        i < (w ++ [EndPtr]).length ∧
        checkStep t (Grammar.ofRules rules).alphabet_terminal_ (w ++ [EndPtr]) i s = .ret b) := by
  obtain ⟨hT, hS, hR, hG⟩ := MakeTable_ok _ fuel t hm
  have hK := keysInAlphabet_ofRules rules
  have hall : ∀ i s, Reach t (Grammar.ofRules rules).alphabet_terminal_ (w ++ [EndPtr]) i s →
      i < (w ++ [EndPtr]).length := by
    intro i s h
    have := (reach_inv _ t w hT hS hK hR hG i s h).2
    simp only [List.length_append, List.length_singleton]
    omega
  refine ⟨hall index stack hr, ?_, ?_⟩
  · intro row hrow c hc hact
    obtain ⟨I, _, hok⟩ := forall2_mem_right _ _ _ hR row hrow
    have hcell := hok c hc
    unfold CellOK at hcell
    rw [hact] at hcell
    exact hcell.1
  · intro fuel' b hb
    exact checkLoop_verdict_from_body t _ _ hall fuel' 0 [0] b Reach.start hb

theorem cursor_never_passes_end_marker_witness :
    MakeTable 6 (Grammar.ofRules [str "S->AB", str "A->a", str "B->b"]) =
      .done (tablesOf 6 [str "S->AB", str "A->a", str "B->b"]) ∧
    (0 : Nat) < (str "ab" ++ [EndPtr]).length :=
  ⟨by decide,
    (cursor_never_passes_end_marker 6 [str "S->AB", str "A->a", str "B->b"] (str "ab")
      (tablesOf 6 [str "S->AB", str "A->a", str "B->b"]) 0 [0] (by decide) Reach.start).1⟩

/-- C11: recognizer safety. For tables built by `MakeTable` from `Grammar(rules)` and the
grammar's own terminal alphabet, in every configuration the loop of `CheckForAccess`
goes through, on every input: the stack is non-empty and its top is a valid state index,
every table, goto and grammar lookup hits an existing key, a REDUCE pops fewer entries
than the stack holds, and the goto value it pushes is a valid state index; the loop body
is never undefined, and neither is `CheckForAccess`. -/
theorem recognizer_runs_safely (fuel : Nat) (rules : List Str) (w : Str)
    (t : LR1_algorithm) (index : Nat) (stack : List Int)
    (hm : MakeTable fuel (Grammar.ofRules rules) = .done t)
    (hr : Reach t (Grammar.ofRules rules).alphabet_terminal_ (w ++ [EndPtr]) index stack) :
    StepSafe t (Grammar.ofRules rules).alphabet_terminal_ (w ++ [EndPtr]) index stack ∧
    checkStep t (Grammar.ofRules rules).alphabet_terminal_ (w ++ [EndPtr]) index stack
      ≠ .ub ∧
    ∀ fuel', CheckForAccess fuel' t w (Grammar.ofRules rules).alphabet_terminal_
      ≠ .undefined := by
  obtain ⟨hT, hS, hP, hR, hG, hR2, hG2⟩ := MakeTable_facts rules fuel t hm
  have hK := keysInAlphabet_ofRules rules
  have hall : ∀ i s,
      Reach t (Grammar.ofRules rules).alphabet_terminal_ (w ++ [EndPtr]) i s →
      StepSafe t (Grammar.ofRules rules).alphabet_terminal_ (w ++ [EndPtr]) i s :=
    fun i s h => safe_of_inv _ t _ i s hT hS hK hP hR hR2 hG2
      (reach_inv_strong rules fuel t w hm i s h)
  refine ⟨hall index stack hr, checkStep_ne_ub _ _ _ _ _ (hall index stack hr), ?_⟩
  intro fuel'
  exact checkLoop_ne_undefined t _ _ (fun i s h => checkStep_ne_ub _ _ _ _ _ (hall i s h))
    fuel' 0 [0] Reach.start

theorem recognizer_runs_safely_witness :
    MakeTable 6 (Grammar.ofRules [str "S->AB", str "A->a", str "B->b"]) =
      .done (tablesOf 6 [str "S->AB", str "A->a", str "B->b"]) ∧
    StepSafe (tablesOf 6 [str "S->AB", str "A->a", str "B->b"])
      (Grammar.ofRules [str "S->AB", str "A->a", str "B->b"]).alphabet_terminal_
      (str "ab" ++ [EndPtr]) 0 [0] :=
  ⟨by decide,
    (recognizer_runs_safely 6 [str "S->AB", str "A->a", str "B->b"] (str "ab")
      (tablesOf 6 [str "S->AB", str "A->a", str "B->b"]) 0 [0] (by decide) Reach.start).1⟩

/-- C13: table targets agree with the automaton. For every rule list that mentions `'S'`
and on which construction completes, in row `i` of the tables every SHIFT stored in the
column of a terminal (or of `EndPtr`) and every goto entry for a nonterminal that an item
of state `i` has after its dot is a valid state index (never `-1`), and the item set at
that index is `Closure` of the items of state `i` with that symbol after the dot, each
advanced by one. -/
theorem table_targets_agree (fuel : Nat) (rules : List Str) (t : LR1_algorithm)
    (hm : MakeTable fuel (Grammar.ofRules rules) = .done t) (hS : ∃ r ∈ rules, 'S' ∈ r)
    (i : Nat) (I : List Situation) (hI : t.algo_states_.get? i = some I) :
    (∀ row c, t.shift_reduce_table_.get? i = some row →
      (c = EndPtr ∨ c ∈ (Grammar.ofRules rules).alphabet_terminal_) →
      (row.get c defaultCell).action = .SHIFT →
      0 ≤ (row.get c defaultCell).index ∧
      (row.get c defaultCell).index < t.algo_states_.length ∧
      Target (Grammar.ofRules rules).grammar_ t.algo_states_ I c
        (row.get c defaultCell).index) ∧
    (∀ gotoRow x, t.go_to_.get? i = some gotoRow → x ∈ I →
      x.dot_pos < x.rule.length → IsNonTerminal (x.rule.getD x.dot_pos nul) = true →
      0 ≤ gotoRow.get (x.rule.getD x.dot_pos nul) 0 ∧
      gotoRow.get (x.rule.getD x.dot_pos nul) 0 < t.algo_states_.length ∧
      Target (Grammar.ofRules rules).grammar_ t.algo_states_ I (x.rule.getD x.dot_pos nul)
        (gotoRow.get (x.rule.getD x.dot_pos nul) 0)) := by
  obtain ⟨hT, hSt, hP, hR, hG, hR2, hG2⟩ := MakeTable_facts rules fuel t hm
  constructor
  · intro row c hrow hc hact
    obtain ⟨row', hrow', hok⟩ := forall2_get _ _ _ hR2 i I hI
    rw [hrow] at hrow'
    simp only [Option.some.injEq] at hrow'
    subst hrow'
    have htar := (hok c hc).2 hact
    have hv := Target_valid _ _ _ _ _ htar
    exact ⟨hv.1, hv.2, htar⟩
  · intro gotoRow x hrow hx hlt hnt
    obtain ⟨gt', hgt', hok⟩ := forall2_get _ _ _ hG2 i I hI
    rw [hrow] at hgt'
    simp only [Option.some.injEq] at hgt'
    subst hgt'
    have hItem : ItemOK (Grammar.ofRules rules).grammar_ x :=
      hSt.1 I (List.get?_mem hI) x hx
    have hA := (symbol_after_dot_in_alphabet rules hS x hItem hlt).1 hnt
    have htar := (hok _ hA).2 ⟨x, hx, hlt, rfl⟩
    have hv := Target_valid _ _ _ _ _ htar
    exact ⟨hv.1, hv.2, htar⟩

theorem table_targets_agree_witness :
    MakeTable 6 (Grammar.ofRules [str "S->AB", str "A->a", str "B->b"]) =
      .done (tablesOf 6 [str "S->AB", str "A->a", str "B->b"]) ∧
    (∃ r ∈ [str "S->AB", str "A->a", str "B->b"], 'S' ∈ r) ∧
    Target (Grammar.ofRules [str "S->AB", str "A->a", str "B->b"]).grammar_
      (tablesOf 6 [str "S->AB", str "A->a", str "B->b"]).algo_states_
      [⟨'#', ['S'], 0⟩, ⟨'A', ['a'], 0⟩, ⟨'S', ['A', 'B'], 0⟩] 'a' 3 :=
  ⟨by decide, ⟨str "S->AB", by decide, by decide⟩,
    ((table_targets_agree 6 [str "S->AB", str "A->a", str "B->b"]
      (tablesOf 6 [str "S->AB", str "A->a", str "B->b"]) (by decide)
      ⟨str "S->AB", by decide, by decide⟩ 0
      [⟨'#', ['S'], 0⟩, ⟨'A', ['a'], 0⟩, ⟨'S', ['A', 'B'], 0⟩] (by decide)).1
      ((tablesOf 6 [str "S->AB", str "A->a", str "B->b"]).shift_reduce_table_.headD [])
      'a' (by decide) (by decide) (by decide)).2.2⟩

/-- C12: the conflict policy of the action table. After `MakeTable`, for every state `I`
(at index `i`) and every column `c` of a terminal or of `EndPtr`: if no item of `I`
writes the cell it is ERROR; otherwise the cell is what the greatest writing item in the
order of `operator<` writes, and a greatest writing item exists; and the REDUCE of a
completed item `(N, rhs)` carries `N` and the least index `k` with
`grammar[N][k] = rhs`. -/
theorem conflict_policy (fuel : Nat) (rules : List Str) (t : LR1_algorithm)
    (hm : MakeTable fuel (Grammar.ofRules rules) = .done t)
    (i : Nat) (I : List Situation) (row : CMap TableAction)
    (hI : t.algo_states_.get? i = some I) (hrow : t.shift_reduce_table_.get? i = some row)
    (c : Char) (hc : c = EndPtr ∨ c ∈ (Grammar.ofRules rules).alphabet_terminal_) :
    ((∀ it ∈ I, cellWrite fuel (Grammar.ofRules rules) t.algo_states_ I c it = none) →
      row.get c defaultCell = errorCell) ∧
    (∀ m a, m ∈ I → cellWrite fuel (Grammar.ofRules rules) t.algo_states_ I c m = some a →
      (∀ x ∈ I, (cellWrite fuel (Grammar.ofRules rules) t.algo_states_ I c x).isSome = true →
        x = m ∨ x.lt m = true) →
      row.get c defaultCell = a) ∧
    ((∃ it ∈ I, (cellWrite fuel (Grammar.ofRules rules) t.algo_states_ I c it).isSome = true) →
      ∃ m ∈ I, (cellWrite fuel (Grammar.ofRules rules) t.algo_states_ I c m).isSome = true ∧
        ∀ x ∈ I, (cellWrite fuel (Grammar.ofRules rules) t.algo_states_ I c x).isSome = true →
          x = m ∨ x.lt m = true) ∧
    (∀ it ∈ I, it.dot_pos = it.rule.length → it.non_terminal ≠ fake_start →
      cellWrite fuel (Grammar.ofRules rules) t.algo_states_ I c it =
        some ⟨.REDUCE,
          (leastIndex it.rule ((Grammar.ofRules rules).grammar_.get it.non_terminal []) : Nat),
          it.non_terminal⟩ ∧
      ((Grammar.ofRules rules).grammar_.get it.non_terminal []).get?
          (leastIndex it.rule ((Grammar.ofRules rules).grammar_.get it.non_terminal []))
        = some it.rule ∧
      ∀ j, j < leastIndex it.rule ((Grammar.ofRules rules).grammar_.get it.non_terminal []) →
        ((Grammar.ofRules rules).grammar_.get it.non_terminal []).get? j ≠ some it.rule) := by
  have hsorted := MakeTable_sorted _ fuel t hm I (List.get?_mem hI)
  obtain ⟨_, hS, _⟩ := MakeTable_ok _ fuel t hm
  obtain ⟨row', hrow', hget⟩ := forall2_get _ _ _ (MakeTable_get _ fuel t hm c hc) i I hI
  rw [hrow] at hrow'
  simp only [Option.some.injEq] at hrow'
  subst hrow'
  refine ⟨?_, ?_, ?_, ?_⟩
  · intro hnone
    rw [hget]
    exact foldl_write_none _ I errorCell hnone
  · intro m a hm' hwm hgr
    rw [hget]
    exact foldl_write_greatest _ m a I errorCell hsorted hm' hwm hgr
  · intro hex
    exact exists_greatest _ I hsorted hex
  · intro it hit hdot hnt
    refine ⟨by unfold cellWrite; rw [if_pos hdot, if_pos hnt], ?_⟩
    have hItem := hS.1 I (List.get?_mem hI) it hit
    have hmem : it.rule ∈ (Grammar.ofRules rules).grammar_.get it.non_terminal [] := by
      rcases hItem.2 with ⟨h1, _⟩ | ⟨_, h2⟩
      · exact absurd h1 hnt
      · exact h2
    exact leastIndex_spec it.rule _ hmem

theorem conflict_policy_witness :
    MakeTable 6 (Grammar.ofRules [str "S->AB", str "S->", str "A->a", str "B->b"]) =
      .done (tablesOf 6 [str "S->AB", str "S->", str "A->a", str "B->b"]) ∧
    ((tablesOf 6 [str "S->AB", str "S->", str "A->a", str "B->b"]).shift_reduce_table_.headD
      []).get 'a' defaultCell = ⟨.REDUCE, 1, 'S'⟩ :=
  ⟨by decide,
    (conflict_policy 6 [str "S->AB", str "S->", str "A->a", str "B->b"]
      (tablesOf 6 [str "S->AB", str "S->", str "A->a", str "B->b"]) (by decide) 0
      [⟨'#', ['S'], 0⟩, ⟨'A', ['a'], 0⟩, ⟨'S', [], 0⟩, ⟨'S', ['A', 'B'], 0⟩]
      ((tablesOf 6 [str "S->AB", str "S->", str "A->a", str "B->b"]).shift_reduce_table_.headD
        [])
      (by decide) (by decide) 'a' (by decide)).2.1 ⟨'S', [], 0⟩ ⟨.REDUCE, 1, 'S'⟩
      (by decide) (by decide) (by decide)⟩

/-- C18: in every state that holds the completed augmented item `(#, "S", 1)` together
with a completed item whose left-hand side is an ordinary nonterminal, the final action
in the column of `EndPtr` is REDUCE, not ACCEPT: `'#'` sorts before every uppercase
letter, so the augmented item is visited before every ordinary item and its ACCEPT is
overwritten. -/
theorem accept_overwritten_by_reduce (fuel : Nat) (rules : List Str) (t : LR1_algorithm)
    (hm : MakeTable fuel (Grammar.ofRules rules) = .done t)
    (i : Nat) (I : List Situation) (row : CMap TableAction)
    (hI : t.algo_states_.get? i = some I) (hrow : t.shift_reduce_table_.get? i = some row)
    (hacc : (⟨fake_start, ['S'], 1⟩ : Situation) ∈ I)
    (hred : ∃ it ∈ I, it.dot_pos = it.rule.length ∧ it.non_terminal ≠ fake_start) :
    (row.get EndPtr defaultCell).action = .REDUCE ∧
    (∃ m ∈ I, (⟨fake_start, ['S'], 1⟩ : Situation).lt m = true ∧
      m.dot_pos = m.rule.length ∧ m.non_terminal ≠ fake_start ∧
      row.get EndPtr defaultCell = ⟨.REDUCE,
        (leastIndex m.rule ((Grammar.ofRules rules).grammar_.get m.non_terminal []) : Nat),
        m.non_terminal⟩) ∧
    (∀ it : Situation, IsNonTerminal it.non_terminal = true →
      (⟨fake_start, ['S'], 1⟩ : Situation).lt it = true) := by
  have hsorted := MakeTable_sorted _ fuel t hm I (List.get?_mem hI)
  obtain ⟨_, hS, _⟩ := MakeTable_ok _ fuel t hm
  obtain ⟨row', hrow', hget⟩ :=
    forall2_get _ _ _ (MakeTable_get _ fuel t hm EndPtr (Or.inl rfl)) i I hI
  rw [hrow] at hrow'
  simp only [Option.some.injEq] at hrow'
  subst hrow'
  have key : ∃ m ∈ I, (⟨fake_start, ['S'], 1⟩ : Situation).lt m = true ∧
      m.dot_pos = m.rule.length ∧ m.non_terminal ≠ fake_start ∧
      row.get EndPtr defaultCell = ⟨.REDUCE,
        (leastIndex m.rule ((Grammar.ofRules rules).grammar_.get m.non_terminal []) : Nat),
        m.non_terminal⟩ := by
    obtain ⟨x, hx, hxd, hxn⟩ := hred
    have hwx : (cellWrite fuel (Grammar.ofRules rules) t.algo_states_ I EndPtr x).isSome
        = true := by
      unfold cellWrite
      rw [if_pos hxd, if_pos hxn]
      rfl
    obtain ⟨m, hm', hwm, hgr⟩ := exists_greatest
      (fun y => (cellWrite fuel (Grammar.ofRules rules) t.algo_states_ I EndPtr y).isSome
        = true) I hsorted ⟨x, hx, hwx⟩
    have hmd := cellWrite_EndPtr_complete _ _ _ _ _ hwm
    have hmn : m.non_terminal ≠ fake_start := by
      intro hmn
      have hxNT : IsNonTerminal x.non_terminal = true := by
        rcases (hS.1 I (List.get?_mem hI) x hx).2 with ⟨h1, _⟩ | ⟨h1, _⟩
        · exact absurd h1 hxn
        · exact h1
      rcases hgr x hx hwx with rfl | hlt
      · exact hxn hmn
      · unfold Situation.lt at hlt
        rw [hmn, if_neg hxn] at hlt
        simp only [IsNonTerminal, Bool.and_eq_true, decide_eq_true_eq] at hxNT
        simp only [charLt, decide_eq_true_eq] at hlt
        have h35 : fake_start.toNat = 35 := by decide
        have h65 : 'A'.toNat = 65 := by decide
        omega
    have hcell : cellWrite fuel (Grammar.ofRules rules) t.algo_states_ I EndPtr m =
        some ⟨.REDUCE,
          (leastIndex m.rule ((Grammar.ofRules rules).grammar_.get m.non_terminal []) : Nat),
          m.non_terminal⟩ := by
      unfold cellWrite
      rw [if_pos hmd, if_pos hmn]
    have hwa : (cellWrite fuel (Grammar.ofRules rules) t.algo_states_ I EndPtr
        ⟨fake_start, ['S'], 1⟩).isSome = true := by
      unfold cellWrite
      rfl
    have hlt : (⟨fake_start, ['S'], 1⟩ : Situation).lt m = true := by
      rcases hgr _ hacc hwa with e | h
      · exact absurd (by rw [← e]) hmn
      · exact h
    exact ⟨m, hm', hlt, hmd, hmn, by
      rw [hget, foldl_write_greatest _ m _ I errorCell hsorted hm' hcell hgr]⟩
  refine ⟨?_, key, ?_⟩
  · obtain ⟨m, _, _, _, _, hcell⟩ := key
    rw [hcell]
  · intro it hnt
    unfold Situation.lt
    have hne : ¬ fake_start = it.non_terminal := by
      intro e
      rw [← e, not_isNonTerminal_fake_start] at hnt
      cases hnt
    simp only [hne, if_false]
    simp only [IsNonTerminal, Bool.and_eq_true, decide_eq_true_eq] at hnt
    simp only [charLt, decide_eq_true_eq]
    have h35 : fake_start.toNat = 35 := by decide
    have h65 : 'A'.toNat = 65 := by decide
    omega

theorem accept_overwritten_by_reduce_witness :
    MakeTable 6 (Grammar.ofRules [str "S->A", str "A->S", str "A->a"]) =
      .done (tablesOf 6 [str "S->A", str "A->S", str "A->a"]) ∧
    (tablesOf 6 [str "S->A", str "A->S", str "A->a"]).algo_states_.get? 2 =
      some [⟨'#', ['S'], 1⟩, ⟨'A', ['S'], 1⟩] ∧
    (((tablesOf 6 [str "S->A", str "A->S", str "A->a"]).shift_reduce_table_.getD 2 []).get
      EndPtr defaultCell).action = .REDUCE :=
  ⟨by decide, by decide,
    (accept_overwritten_by_reduce 6 [str "S->A", str "A->S", str "A->a"]
      (tablesOf 6 [str "S->A", str "A->S", str "A->a"]) (by decide) 2
      [⟨'#', ['S'], 1⟩, ⟨'A', ['S'], 1⟩]
      ((tablesOf 6 [str "S->A", str "A->S", str "A->a"]).shift_reduce_table_.getD 2 [])
      (by decide) (by decide) (by decide) ⟨⟨'A', ['S'], 1⟩, by decide, by decide, by decide⟩).1⟩

/-- C17: `Closure` returns exactly when its first pass attempts no failing insertion. On
every sorted set the first pass of the `for` loop (items visited in the order of
`operator<`, those inserted ahead of the cursor included) ends with some set `r` and flag
`fl`; `Closure` returns, for some fuel, exactly when `fl` is clear, and then it returns
`r`; when `fl` is set the loop goes on for ever, because in every later pass over a set
in which an insertion fails the insertion fails again. -/
theorem Closure_returns_iff_first_pass_clean (g : CMap (List Str)) (st : List Situation)
    (hs : SetSorted st) :
    ∃ r fl,
      closureFor g ((st ++ initialItems g).length + 1) st.head? st false = .done (r, fl) ∧
      ((∃ fuel v, Closure fuel g st = .done v) ↔ fl = false) ∧
      (fl = false → ∀ fuel, (st ++ initialItems g).length + 1 ≤ fuel →
        Closure fuel g st = .done r) ∧
      (fl = false → ∀ fuel v, Closure fuel g st = .done v → v = r) ∧
      (fl = true → Blocked g r ∧ ∀ fuel, Closure fuel g st = .diverge) ∧
      (∀ s, SetSorted s → Blocked g s → ∀ n p,
        closureFor g n s.head? s false = .done p →
        p.2 = true ∧ Blocked g p.1 ∧ SetSorted p.1) := by
  obtain ⟨r, fl, hpass, hret, hdiv⟩ := Closure_by_first_pass g (st ++ initialItems g)
    (fun it h => List.mem_append_right _ (added_mem_initialItems g it h)) st hs
    (fun it h => List.mem_append_left _ h)
  refine ⟨r, fl, hpass, ?_, hret, ?_, fun h => ⟨(hdiv h).1, (hdiv h).2.2⟩,
    fun s hs' hb n p hc => closureFor_blocked g s hs' hb n p hc⟩
  · constructor
    · rintro ⟨fuel, v, hv⟩
      cases fl with
      | false => rfl
      | true =>
        rw [(hdiv rfl).2.2 fuel] at hv
        cases hv
    · intro hfl
      exact ⟨(st ++ initialItems g).length + 1, r, hret hfl _ le_rfl⟩
  · intro hfl fuel v hv
    have h1 := Closure_mono g fuel (max fuel ((st ++ initialItems g).length + 1)) st v
      (le_max_left _ _) hv
    rw [hret hfl _ (le_max_right _ _)] at h1
    cases h1
    rfl

theorem Closure_returns_iff_first_pass_clean_witness :
    SetSorted [⟨'#', ['S'], 0⟩] ∧
    ∃ r fl,
      closureFor (Grammar.ofRules [str "S->Sa", str "S->a"]).grammar_
        (([(⟨'#', ['S'], 0⟩ : Situation)] ++
          initialItems (Grammar.ofRules [str "S->Sa", str "S->a"]).grammar_).length + 1)
        (List.head? [(⟨'#', ['S'], 0⟩ : Situation)]) [⟨'#', ['S'], 0⟩] false
        = .done (r, fl) ∧
      ((∃ fuel v, Closure fuel (Grammar.ofRules [str "S->Sa", str "S->a"]).grammar_
        [⟨'#', ['S'], 0⟩] = .done v) ↔ fl = false) :=
  ⟨List.pairwise_singleton _ _,
    (Closure_returns_iff_first_pass_clean
      (Grammar.ofRules [str "S->Sa", str "S->a"]).grammar_ [⟨'#', ['S'], 0⟩]
      (List.pairwise_singleton _ _)).imp
      fun _ h => h.imp fun _ h => ⟨h.1, h.2.1⟩⟩

/-- C15 (the code at the failing input): for the rules `["S->AB","A->a","B->b"]` every
call of `Closure` made during the construction returns, yet the sweep loop does not run
to its fixpoint: in the first sweep `GoTo` is called for state 0 and `'B'`, no item of
state 0 has `'B'` after its dot, `new_state` stays empty and the call reaches the closing
brace of the `int`-valued function without a `return`, which is undefined behaviour. Read
strictly, `BuildGrammarStates` is undefined on fuel 3 and on every larger fuel, and returns
on no fuel. -/
theorem BuildGrammarStates_reaches_missing_return (n : Nat) :
    ClosureCallsReturn (Grammar.ofRules [str "S->AB", str "A->a", str "B->b"]) ∧
    Closure 3 (Grammar.ofRules [str "S->AB", str "A->a", str "B->b"]).grammar_
      [⟨fake_start, ['S'], 0⟩] = .done [⟨'#', ['S'], 0⟩, ⟨'A', ['a'], 0⟩, ⟨'S', ['A', 'B'], 0⟩] ∧
    'B' ∈ (Grammar.ofRules [str "S->AB", str "A->a", str "B->b"]).alphabet_non_terminal_ ∧
    advance 'B' [⟨'#', ['S'], 0⟩, ⟨'A', ['a'], 0⟩, ⟨'S', ['A', 'B'], 0⟩] [] = [] ∧
    BuildGrammarStatesStrict (3 + n) (Grammar.ofRules [str "S->AB", str "A->a", str "B->b"])
      = .undefined ∧
    ∀ fuel sts,
      BuildGrammarStatesStrict fuel (Grammar.ofRules [str "S->AB", str "A->a", str "B->b"])
        ≠ .done sts := by
  have h3 : BuildGrammarStatesStrict 3
      (Grammar.ofRules [str "S->AB", str "A->a", str "B->b"]) = .undefined := by decide
  refine ⟨closureCallsReturn_of_closed _ 6
      (tablesOf 6 [str "S->AB", str "A->a", str "B->b"]).algo_states_ (by decide)
      (by decide), by decide, by decide, by decide,
    BuildGrammarStatesStrict_stable _ 3 (3 + n) _ (Nat.le_add_right 3 n) h3
      (by intro e; cases e), ?_⟩
  intro fuel sts h
  have h1 := BuildGrammarStatesStrict_stable _ fuel (max fuel 3) _ (le_max_left _ _) h
    (by intro e; cases e)
  have h2 := BuildGrammarStatesStrict_stable _ 3 (max fuel 3) _ (le_max_right _ _) h3
    (by intro e; cases e)
  rw [h1] at h2
  cases h2

end LR1
